import Mathlib

/-!
# skale-consensus: block proposals, their stores and the transaction source

A shallow embedding of `datastructures/BlockProposal.cpp`, `db/DAProofDB.cpp`,
`db/BlockProposalDB.h`, `pendingqueue/TestMessageGeneratorAgent.cpp` and
`abstracttcpserver/AbstractServerAgent.cpp`, and theorems about them.

Conventions of the embedding

* `uint8_t` is `Fin 256`; a `vector<uint8_t>` and a `string` are lists of bytes.
* `uint64_t`, `uint32_t` and the strong typedefs over `uint64_t` (`schain_id`, `node_id`,
  `block_id`, `schain_index`, `transaction_count`, `fragment_index`) are natural numbers;
  unsigned arithmetic that can wrap is written with an explicit `% 2 ^ 64`.
* A function that can throw returns `Except Exn _`; the value of `Exn` is the type of the
  outermost exception that leaves the function.
* A method that changes its object returns the object after the call next to its outcome; the
  stores return it also when the call throws.
* A thread function is a function of what its surroundings decide while it runs: the values
  that it reads from the exit flag, what `accept` returns, what a worker finds when `wait`
  returns. Its result is the list of its events and the way the observation ends.
* A `ptr<T>` that the source compares with `nullptr` and that a claim is about is an `Option`;
  other pointers are plain values, so the null guards on them cannot fail.
* Code of the repository that is outside the files at hand (JSON headers, the transaction list
  codec, SHA-256, the Merkle tree, the crypto manager, the constants) is a field of
  `Collaborators` or `CryptoManager`, or a definition marked `Modelled from the spec:`.
-/

namespace Skale

set_option maxRecDepth 100000

/-! ## Bytes and machine integers -/

/-- A `uint8_t`. -/
abbrev Byte := Fin 256

/-- A `vector<uint8_t>` or a `string`. -/
abbrev Bytes := List Byte

/-- The modulus of `uint64_t` arithmetic. -/
def U64 : Nat := 2 ^ 64

/-- Character `'{'`. -/
def chOpenBrace : Byte := 123
/-- Character `'}'`. -/
def chCloseBrace : Byte := 125
/-- Character `'<'`. -/
def chLess : Byte := 60
/-- Character `'>'`. -/
def chGreater : Byte := 62
/-- Character `' '`. -/
def chSpace : Byte := 32

/-- The value of a little-endian byte string, as read by `in.read((char*) &x, sizeof(x))` or
written by `sha3.Update(reinterpret_cast<uint8_t*>(&x), sizeof(x))` on a little-endian host. -/
def leToNat : Bytes → Nat
  | [] => 0
  | b :: bs => b.val + 256 * leToNat bs

/-- The `w` little-endian bytes of the unsigned `8*w`-bit integer `x`. -/
def natToLe : Nat → Nat → Bytes
  | 0, _ => []
  | w + 1, x => Fin.ofNat x :: natToLe w (x / 256)

/-- The `w` big-endian bytes of `x`. -/
def natToBe (w x : Nat) : Bytes := (natToLe w x).reverse

/-- One lowercase hexadecimal digit. -/
def hexDigit (n : Nat) : Byte :=
  if n % 16 < 10 then Fin.ofNat (48 + n % 16) else Fin.ofNat (87 + n % 16)

/-! ## Exceptions -/

/-- The exceptions that leave the embedded functions. -/
inductive Exn where
  /-- Exception `InvalidArgumentException`, thrown by `CHECK_ARGUMENT`. -/
  | invalidArgument
  /-- Exception `InvalidStateException`, thrown by `CHECK_STATE`. -/
  | invalidState
  /-- Exception `ParsingException`. -/
  | parsing
  /-- Exception `FatalError`, thrown by `ASSERT`. -/
  | fatal
  /-- Exception `ExitRequestedException`. -/
  | exitRequested
  /-- The signature check of the crypto manager failed. -/
  | invalidSignature
  /-- Exception `std::out_of_range`, thrown by `vector::at` and `string::at`. -/
  | outOfRange
  /-- A failed C `assert`: the process aborts. -/
  | assertion
  /-- An iterator range outside its container: the C++ behaviour is undefined. -/
  | undefinedBehaviour
  /-- Any other exception of a collaborator. -/
  | other (code : Nat)
  /-- Error `DuplicateShare` of the specification. -/
  | duplicateShare
  /-- Error `ConflictError` of the specification. -/
  | conflict
  /-- Exception `NetworkProtocolException`. -/
  | networkProtocol
  deriving DecidableEq

/-- Whether a `catch (...)` handler sees the outcome: an abort and undefined behaviour are not
exceptions. -/
def Exn.isCppException : Exn → Bool
  | .assertion => false
  | .undefinedBehaviour => false
  | _ => true

/-- Whether a `catch (exception &)` handler sees the outcome: the exceptions of the repository
and of its libraries derive from `std::exception`; an abort and undefined behaviour are not
exceptions. -/
def Exn.isStdException (e : Exn) : Bool := e.isCppException

/-- Whether a `catch (Exception &)` handler sees the outcome: the exception classes of the
repository derive from `Exception`, `std::out_of_range` does not. -/
def Exn.isSkaleException : Exn → Bool
  | .invalidArgument => true
  | .invalidState => true
  | .parsing => true
  | .fatal => true
  | .exitRequested => true
  | .invalidSignature => true
  | .networkProtocol => true
  | _ => false

/-- Macro `CHECK_ARGUMENT` (and `CHECK_ARGUMENT2`, which only adds a message). -/
def CHECK_ARGUMENT (cond : Bool) : Except Exn Unit :=
  if cond then .ok () else .error .invalidArgument

/-- Macro `CHECK_STATE` (and `CHECK_STATE2`, which only adds a message). -/
def CHECK_STATE (cond : Bool) : Except Exn Unit :=
  if cond then .ok () else .error .invalidState

/-- Macro `ASSERT` of the repository. -/
def ASSERT (cond : Bool) : Except Exn Unit :=
  if cond then .ok () else .error .fatal

/-- The C `assert`. -/
def cassert (cond : Bool) : Except Exn Unit :=
  if cond then .ok () else .error .assertion

/-- Checked element access `v.at(i)`. -/
def vecAt {α : Type} (v : List α) (i : Nat) : Except Exn α :=
  match v[i]? with
  | some x => .ok x
  | none => .error .outOfRange

/-- The checked assignment `v.at(i) = x`. -/
def vecSet {α : Type} (v : List α) (i : Nat) (x : α) : Except Exn (List α) :=
  if i < v.length then .ok (v.set i x) else .error .outOfRange

/-- The iterator range `[v.begin() + first, v.begin() + last)`. It is defined only when
`first ≤ last ≤ v.size()`; for the other ranges `undefinedBehaviour` stands for the absence of
a defined result. It is no exception of the program: the source has no check at that place, and
a compiled program may go on there and copy bytes that are not bytes of `v`. -/
def iterRange (v : Bytes) (first last : Nat) : Except Exn Bytes :=
  if first ≤ last ∧ last ≤ v.length then .ok ((v.drop first).take (last - first))
  else .error .undefinedBehaviour

/-- The call `v.insert(v.begin() + pos, xs.begin(), xs.end())`. -/
def vecInsert (v : Bytes) (pos : Nat) (xs : Bytes) : Bytes :=
  v.take pos ++ xs ++ v.drop pos

/-! ## Data model -/

/-- A transaction: an opaque byte vector. -/
abbrev Transaction := Bytes

/-- Constant `SHA_HASH_LEN`. -/
def SHA_HASH_LEN : Nat := 32

/-- Class `SHAHash`: an `array<uint8_t, SHA_HASH_LEN>`. -/
abbrev SHAHash := { l : Bytes // l.length = SHA_HASH_LEN }

/-- Modelled from the spec: the constant `PARTIAL_SHA_HASH_LEN`, which is outside the files at
hand; a partial hash is the "first 16 bytes of a transaction's SHA-256". -/
def PARTIAL_SHA_HASH_LEN : Nat := 16

/-- Class `PartialHashesList`: the arguments of its constructor, in order. -/
structure PartialHashesList where
  transactionCount : Nat
  partialHashes : Bytes
  deriving DecidableEq

/-- Class `BlockProposalHeader`, with the fields its getters return in `deserialize`. -/
structure BlockProposalHeader where
  schainID : Nat
  proposerNodeID : Nat
  blockID : Nat
  proposerIndex : Nat
  timeStamp : Nat
  timeStampMs : Nat
  stateRoot : Nat
  transactionSizes : List Nat
  blockHash : Bytes
  signature : Option Bytes
  deriving DecidableEq

/-- Class `BlockProposal`. The cached `BlockProposalRequestHeader` is left out: only
`createBlockProposalHeader` uses it. -/
structure BlockProposal where
  schainID : Nat
  proposerNodeID : Nat
  blockID : Nat
  proposerIndex : Nat
  transactionCount : Nat
  timeStamp : Nat
  timeStampMs : Nat
  stateRoot : Nat
  transactionList : List Transaction
  hash : Option SHAHash
  signature : Option Bytes
  serializedProposal : Option Bytes
  deriving DecidableEq

/-- Class `Buffer`, as `serialize` uses it: `getBuf()` and `getCounter()`. -/
structure Buffer where
  buf : Bytes
  counter : Nat

/-- Class `BlockProposalFragment`: the arguments of its constructor, in order. -/
structure BlockProposalFragment where
  blockId : Nat
  totalFragments : Nat
  fragmentIndex : Nat
  data : Bytes
  blockSize : Nat
  blockHash : Bytes
  deriving DecidableEq

/-- The code outside the files at hand that `BlockProposal.cpp` calls, and the constants it uses. -/
structure Collaborators where
  /-- Constant `MODERN_TIME`. -/
  MODERN_TIME : Nat
  /-- Constant `MAX_BUFFER_SIZE`. -/
  MAX_BUFFER_SIZE : Nat
  /-- Digest `CryptoPP::SHA256` over the bytes fed to `Update`. -/
  sha256 : Bytes → SHAHash
  /-- Method `TransactionList::calculateTopMerkleRoot()->getHash()`. -/
  merkleRoot : List Transaction → SHAHash
  /-- The JSON text that `BasicHeader::toBuffer` writes for a header. -/
  headerJson : BlockProposalHeader → Bytes
  /-- Function `nlohmann::json::parse` followed by `BlockProposalHeader(js)`. -/
  jsonToHeader : Bytes → Except Exn BlockProposalHeader
  /-- Method `Transaction::getHash()`. -/
  txHash : Transaction → SHAHash
  /-- Method `Transaction::getSerializedSize(flag)`. -/
  txSerializedSize : Transaction → Bool → Nat
  /-- Method `TransactionList::serialize(flag)`. -/
  txListSerialize : List Transaction → Bool → Bytes
  /-- Method `TransactionList::deserialize(sizes, bytes, startIndex, flag)`. -/
  txListDeserialize : List Nat → Bytes → Nat → Bool → Except Exn (List Transaction)

/-- The crypto manager, by the contract of the crypto adapter: `signECDSA(hash)` and
`verifyECDSA(hash, sig, proposerIndex)`. -/
structure CryptoManager where
  signECDSA : SHAHash → Bytes
  verifyECDSA : SHAHash → Bytes → Nat → Bool

/-! ## Collaborators modelled from the specification -/

/-- Modelled from the spec: `Utils::u256ToBigEndianArray`, which is outside the files at hand;
the state root is a "big-endian 32-byte" value. -/
def u256ToBigEndianArray (x : Nat) : Bytes := natToBe 32 x

/-- Modelled from the spec: `Utils::carray2Hex`, which is outside the files at hand; the hex
encoding is "lowercase, no prefix", two characters per byte. -/
def carray2Hex (a : Bytes) : Bytes :=
  (a.map fun b => [hexDigit (b.val / 16), hexDigit b.val]).flatten

/-- Modelled from the spec: `SHAHash::toHex`, which is outside the files at hand; `hashHex` is
the hex text of the 32 hash bytes. -/
def SHAHash.toHex (h : SHAHash) : Bytes := carray2Hex h.val

/-- Modelled from the spec: `BasicHeader::toBuffer`, which is outside the files at hand; a
message is `len: u64 little-endian ‖ headerJSON`, and the counter of the buffer is the number
of bytes written. -/
def toBuffer (c : Collaborators) (h : BlockProposalHeader) : Buffer :=
  { buf := natToLe 8 (c.headerJson h).length ++ c.headerJson h
    counter := 8 + (c.headerJson h).length }

/-- Modelled from the spec: `CryptoManager::signProposalECDSA`, which is outside the files at
hand; "an ECDSA signature over the computed hash is produced and stored". -/
def signProposalECDSA (m : CryptoManager) (p : BlockProposal) : Except Exn BlockProposal :=
  match p.hash with
  | none => .error .assertion
  | some h => .ok { p with signature := some (m.signECDSA h) }

/-- Modelled from the spec: `CryptoManager::verifyProposalECDSA`, which is outside the files at
hand; it "verifies ECDSA signature against the proposer's public key as resolved by crypto" and
fails with the signature error. -/
def verifyProposalECDSA (m : CryptoManager) (p : BlockProposal) (_hashStr : Bytes)
    (sig : Bytes) : Except Exn Unit :=
  match p.hash with
  | none => .error .assertion
  | some h => if m.verifyECDSA h sig p.proposerIndex then .ok () else .error .invalidSignature

/-! ## `BlockProposal.cpp` -/

/-- Method `BlockProposal::getHash`: `assert(hash); return hash;`. -/
def getHash (p : BlockProposal) : Except Exn SHAHash :=
  match p.hash with
  | none => .error .assertion
  | some h => .ok h

/-- The bytes of the first eight `Update` calls of `BlockProposal::calculateHash`: the seven
integer members in native byte order, then the hex text of the big-endian state root. -/
def hashPreimageFields (p : BlockProposal) : Bytes :=
  natToLe 8 p.proposerIndex ++ natToLe 8 p.proposerNodeID ++ natToLe 8 p.schainID ++
  natToLe 8 p.blockID ++ natToLe 8 p.transactionCount ++ natToLe 8 p.timeStamp ++
  natToLe 4 p.timeStampMs ++ carray2Hex (u256ToBigEndianArray p.stateRoot)

/-- The bytes that `BlockProposal::calculateHash` feeds to SHA-256, in the order of its
`Update` calls; the last call is guarded by `transactionList->size() > 0`. -/
def hashPreimage (c : Collaborators) (p : BlockProposal) : Bytes :=
  hashPreimageFields p ++
  (if p.transactionList.length > 0 then (c.merkleRoot p.transactionList).val.take SHA_HASH_LEN
   else [])

/-- Method `BlockProposal::calculateHash`. -/
def calculateHash (c : Collaborators) (p : BlockProposal) : BlockProposal :=
  { p with hash := some (c.sha256 (hashPreimage c p)) }

/-- The ten-argument constructor `BlockProposal::BlockProposal`. -/
def newBlockProposal (c : Collaborators) (sChainId proposerNodeId blockID proposerIndex : Nat)
    (transactions : List Transaction) (stateRoot timeStamp timeStampMs : Nat)
    (signature : Option Bytes) (cryptoManager : Option CryptoManager) :
    Except Exn BlockProposal := do
  let p0 : BlockProposal :=
    { schainID := sChainId, proposerNodeID := proposerNodeId, blockID := blockID,
      proposerIndex := proposerIndex, transactionCount := 0, timeStamp := timeStamp,
      timeStampMs := timeStampMs, stateRoot := stateRoot, transactionList := transactions,
      hash := none, signature := signature, serializedProposal := none }
  CHECK_ARGUMENT (cryptoManager.isSome || signature.isSome)
  CHECK_ARGUMENT (cryptoManager.isNone || signature.isNone)
  ASSERT (decide (timeStamp > c.MODERN_TIME))
  let p1 := { p0 with transactionCount := transactions.length }
  let p2 := calculateHash c p1
  match cryptoManager with
  | some m => signProposalECDSA m p2
  | none => .ok { p2 with signature := signature }

/-- Method `BlockProposal::createPartialHashesList`. The size `s` and the index
`i * PARTIAL_SHA_HASH_LEN + j` are `uint64_t` values. The statement under `s > MAX_BUFFER_SIZE`
constructs an `InvalidArgumentException` and drops it: it has no `throw`. -/
def createPartialHashesList (c : Collaborators) (p : BlockProposal) :
    Except Exn PartialHashesList := do
  let s := (p.transactionCount * PARTIAL_SHA_HASH_LEN) % U64
  let t := p.transactionList
  let _dropped : Option Exn :=
    if s > c.MAX_BUFFER_SIZE then some .invalidArgument else none
  let partialHashes : Bytes := List.replicate s 0
  let partialHashes ← (List.range p.transactionCount).foldlM (fun (ph : Bytes) i =>
    (List.range PARTIAL_SHA_HASH_LEN).foldlM (fun (ph : Bytes) j => do
      let tx ← vecAt t i
      let b ← vecAt (c.txHash tx).val j
      vecSet ph ((i * PARTIAL_SHA_HASH_LEN + j) % U64) b) ph) partialHashes
  return { transactionCount := p.transactionCount, partialHashes := partialHashes }

/-- Method `BlockProposal::addSignature`; the second component is the proposal after the
call. -/
def addSignature (p : BlockProposal) (signature : Option Bytes) :
    Except Exn Unit × BlockProposal :=
  match CHECK_ARGUMENT signature.isSome with
  | .error e => (.error e, p)
  | .ok _ =>
    match CHECK_STATE p.signature.isNone with
    | .error e => (.error e, p)
    | .ok _ => (.ok (), { p with signature := signature })

/-- Method `BlockProposal::getSignature`. -/
def getSignature (p : BlockProposal) : Option Bytes := p.signature

/-- The two-argument constructor `BlockProposal::BlockProposal(_timeStamp, _timeStampMs)`. It
sets the two time stamps and `proposerNodeID = 0`; the members it leaves unset are 0 here. -/
def newTimedBlockProposal (timeStamp timeStampMs : Nat) : BlockProposal :=
  { schainID := 0, proposerNodeID := 0, blockID := 0, proposerIndex := 0, transactionCount := 0,
    timeStamp := timeStamp, timeStampMs := timeStampMs, stateRoot := 0, transactionList := [],
    hash := none, signature := none, serializedProposal := none }

/-- Modelled from the spec: the constructor `BlockProposalHeader(BlockProposal&)` behind
`BlockProposal::createHeader`, which is outside the files at hand; the header carries the
fields of the proposal, the sizes of its transactions, its hash in hex and its signature. -/
def createHeader (c : Collaborators) (p : BlockProposal) : Except Exn BlockProposalHeader := do
  let h ← getHash p
  return { schainID := p.schainID, proposerNodeID := p.proposerNodeID, blockID := p.blockID,
           proposerIndex := p.proposerIndex, timeStamp := p.timeStamp,
           timeStampMs := p.timeStampMs, stateRoot := p.stateRoot,
           transactionSizes := p.transactionList.map fun t => c.txSerializedSize t true,
           blockHash := h.toHex, signature := p.signature }

/-- Method `BlockProposal::serialize`; the second component is the proposal with its cache
`serializedProposal` filled. The C `assert`s are taken as enabled. -/
def serialize (c : Collaborators) (p : BlockProposal) : Except Exn (Bytes × BlockProposal) :=
  match p.serializedProposal with
  | some block => .ok (block, p)
  | none => do
    let blockHeader ← createHeader c p
    let buf := toBuffer c blockHeader
    let b0 ← vecAt buf.buf 8
    CHECK_STATE (b0 == chOpenBrace)
    let b1 ← vecAt buf.buf (buf.counter - 1)
    CHECK_STATE (b1 == chCloseBrace)
    let block : Bytes := []
    let block := vecInsert block block.length (buf.buf.take buf.counter)
    let serializedList := c.txListSerialize p.transactionList true
    cassert (serializedList.head? == some chLess)
    cassert (serializedList.getLast? == some chGreater)
    let block := vecInsert block block.length serializedList
    if p.transactionList.length = 0 then
      CHECK_STATE (decide (block.length = buf.counter + 2))
    cassert (block[8]? == some chOpenBrace)
    cassert (block.getLast? == some chGreater)
    return (block, { p with serializedProposal := some block })

/-- Method `BlockProposal::extractHeader`. The stream `in` starts at offset 0: the first `read`
takes bytes 0..7, the second the bytes that follow, into a string of `headerSize` blanks. -/
def extractHeader (c : Collaborators) (serializedBlock : Bytes) : Except Exn Bytes := do
  let size := serializedBlock.length
  CHECK_ARGUMENT (decide (size ≥ 8 + 2))
  let headerSize := leToNat (serializedBlock.take 8)
  CHECK_STATE (decide (headerSize ≥ 2) && decide ((headerSize + 8) % U64 ≤ serializedBlock.length))
  CHECK_STATE (decide (headerSize ≤ c.MAX_BUFFER_SIZE))
  let b0 ← vecAt serializedBlock ((headerSize + 8) % U64)
  CHECK_STATE (b0 == chLess)
  let b1 ← vecAt serializedBlock 8
  CHECK_STATE (b1 == chOpenBrace)
  CHECK_STATE (serializedBlock.getLast? == some chGreater)
  let read := (serializedBlock.drop 8).take headerSize
  return read ++ List.replicate (headerSize - read.length) chSpace

/-- Method `BlockProposal::parseBlockHeader`. -/
def parseBlockHeader (c : Collaborators) (header : Bytes) : Except Exn BlockProposalHeader := do
  CHECK_ARGUMENT (decide (header.length > 2))
  let b0 ← vecAt header 0
  CHECK_ARGUMENT (b0 == chOpenBrace)
  let b1 ← vecAt header (header.length - 1)
  CHECK_ARGUMENT (b1 == chCloseBrace)
  c.jsonToHeader header

/-- Method `BlockProposal::deserializeTransactions`: a failure that is an `Exception` of the
repository is rethrown nested in a `ParsingException`. -/
def deserializeTransactions (c : Collaborators) (header : BlockProposalHeader)
    (headerString serializedBlock : Bytes) : Except Exn (List Transaction) :=
  let headerSize := headerString.length
  match c.txListDeserialize header.transactionSizes serializedBlock (headerSize + 8) true with
  | .ok list => .ok list
  | .error e => if e.isSkaleException then .error .parsing else .error e

/-- Method `BlockProposal::deserialize`. -/
def deserialize (c : Collaborators) (serializedProposal : Bytes) (manager : CryptoManager) :
    Except Exn BlockProposal := do
  let headerStr ← extractHeader c serializedProposal
  let blockHeader ←
    match parseBlockHeader c headerStr with
    | .ok h => (.ok h : Except Exn BlockProposalHeader)
    | .error .exitRequested => .error .exitRequested
    | .error e => if e.isCppException then .error .parsing else .error e
  let list ← deserializeTransactions c blockHeader headerStr serializedProposal
  let sig := blockHeader.signature
  ASSERT sig.isSome
  let proposal ← newBlockProposal c blockHeader.schainID blockHeader.proposerNodeID
    blockHeader.blockID blockHeader.proposerIndex list blockHeader.stateRoot
    blockHeader.timeStamp blockHeader.timeStampMs blockHeader.signature none
  verifyProposalECDSA manager proposal blockHeader.blockHash (blockHeader.signature.getD [])
  return { proposal with serializedProposal := some serializedProposal }

/-- The value of `fragmentStandardSize` in `BlockProposal::getFragment`: the block size divided
by the number of fragments, rounded up. -/
def fragmentStandardSize (blockSize totalFragments : Nat) : Nat :=
  if blockSize % totalFragments = 0 then blockSize / totalFragments
  else blockSize / totalFragments + 1

/-- The value of `startIndex` in `BlockProposal::getFragment`:
`fragmentStandardSize * ((uint64_t) _index - 1)` in `uint64_t` arithmetic. -/
def fragmentStartIndex (standardSize index : Nat) : Nat :=
  (standardSize * ((index + U64 - 1) % U64)) % U64

/-- Method `BlockProposal::getFragment`; the second component is the proposal after the call
of `serialize`. The constructor of `BlockProposalFragment` is outside the files at hand and
stores its arguments. -/
def getFragment (c : Collaborators) (p : BlockProposal) (totalFragments index : Nat) :
    Except Exn (BlockProposalFragment × BlockProposal) := do
  CHECK_ARGUMENT (decide (totalFragments > 0))
  CHECK_ARGUMENT (decide (index ≤ totalFragments))
  let (sBlock, p1) ← serialize c p
  let blockSize := sBlock.length
  let standardSize := fragmentStandardSize blockSize totalFragments
  let startIndex := fragmentStartIndex standardSize index
  let fragmentData : Bytes := []
  let fragmentData := fragmentData ++ [chLess]
  let slice ←
    if index = totalFragments then iterRange sBlock startIndex sBlock.length
    else iterRange sBlock startIndex (startIndex + standardSize)
  let fragmentData := vecInsert fragmentData 1 slice
  let fragmentData := fragmentData ++ [chGreater]
  let h ← getHash p1
  return ({ blockId := p1.blockID, totalFragments := totalFragments, fragmentIndex := index,
            data := fragmentData, blockSize := sBlock.length, blockHash := h.toHex }, p1)

/-- Modelled from the spec: `BlockProposalFragmentList::serialize`, which is outside the files
at hand; it "concatenates fragments `1..total` (stripping outer `<>` of each)". The fragments
are given in index order. -/
def assembleFragments (fragments : List BlockProposalFragment) : Bytes :=
  (fragments.map fun f => (f.data.drop 1).dropLast).flatten

/-- Method `BlockProposal::defragment`: an exception of `deserialize` is rethrown nested in an
`InvalidStateException`. -/
def defragment (c : Collaborators) (fragmentList : List BlockProposalFragment)
    (cryptoManager : CryptoManager) : Except Exn BlockProposal :=
  match deserialize c (assembleFragments fragmentList) cryptoManager with
  | .ok p => .ok p
  | .error e => if e.isCppException then .error .invalidState else .error e

/-- The fragment with the metadata that `getFragment` records and the data `'<' ‖ slice ‖ '>'`. -/
def fragmentOf (p : BlockProposal) (total index size : Nat) (hsh : SHAHash) (slice : Bytes) :
    BlockProposalFragment :=
  { blockId := p.blockID, totalFragments := total, fragmentIndex := index,
    data := [chLess] ++ slice ++ [chGreater], blockSize := size, blockHash := hsh.toHex }

/-- The fragments `getFragment(total, 1), ..., getFragment(total, total)` in index order. -/
def allFragments (c : Collaborators) (p : BlockProposal) (total : Nat) :
    Except Exn (List BlockProposalFragment) :=
  (List.range total).mapM fun i => (getFragment c p total (i + 1)).map Prod.fst

/-! ## `DAProofDB.cpp` -/

/-- Class `DAProof`, with the values its getters return in `addDAProof`; `thresholdSig` is the
text of `getThresholdSig()->toString()`. -/
structure DAProof where
  blockId : Nat
  proposerIndex : Nat
  thresholdSig : Bytes
  deriving DecidableEq

/-- Class `DAProofDB` over `CacheLevelDB`: the members `totalSigners` and `requiredSigners`, and
the entries of its sets as `(blockID, index, value)` in the order they were written. -/
structure DAProofDB where
  totalSigners : Nat
  requiredSigners : Nat
  entries : List (Nat × Nat × Bytes)
  deriving DecidableEq

/-- Class `BooleanProposalVector`: a bit for each of the proposers `1..N`. -/
abbrev BooleanProposalVector := List Bool

/-- The set of a block: its entries `(index, value)`. -/
def DAProofDB.setOf (db : DAProofDB) (blockId : Nat) : List (Nat × Bytes) :=
  (db.entries.filter fun e => e.1 == blockId).map fun e => e.2

/-- Modelled from the spec: `CacheLevelDB::writeStringToSet`, which is outside the files at
hand. With the threshold `t = requiredSigners`: "If `signerIndex` already present → error
`DuplicateShare`"; "If set already at size `t` → return `None`"; "Insert; if new size `< t` →
return `None`"; at `t` the set is returned. The aggregation of the shares is not part of this
function: `addDAProof` receives the set. The second component is the database after the
call. -/
def writeStringToSet (db : DAProofDB) (value : Bytes) (blockId index : Nat) :
    Except Exn (Option (List (Nat × Bytes))) × DAProofDB :=
  let set := db.setOf blockId
  if (set.map Prod.fst).contains index then (.error .duplicateShare, db)
  else if set.length = db.requiredSigners then (.ok none, db)
  else
    let db1 := { db with entries := db.entries ++ [(blockId, index, value)] }
    if (db1.setOf blockId).length < db.requiredSigners then (.ok none, db1)
    else (.ok (some (db1.setOf blockId)), db1)

/-- Modelled from the spec: the constructor `BooleanProposalVector(node_count, set)`, which is
outside the files at hand; a "bit vector of length `N`; bit `i` set ⇔ proposer `i` has a
committed DA-proof for the current block", the proposers being numbered from 1. -/
def newBooleanProposalVector (nodeCount : Nat) (set : List (Nat × Bytes)) :
    BooleanProposalVector :=
  (List.range nodeCount).map fun i => (set.map Prod.fst).contains (i + 1)

/-- Method `DAProofDB::addDAProof`; the second component is the database after the call. The
proof is a plain value, so `CHECK_ARGUMENT(_daProof != nullptr)` cannot fail. -/
def addDAProof (db : DAProofDB) (daProof : DAProof) :
    Except Exn (Option BooleanProposalVector) × DAProofDB :=
  match writeStringToSet db daProof.thresholdSig daProof.blockId daProof.proposerIndex with
  | (.error e, db1) => (.error e, db1)
  | (.ok none, db1) => (.ok none, db1)
  | (.ok (some daProofSet), db1) =>
    match CHECK_STATE (decide (daProofSet.length = db.requiredSigners)) with
    | .error e => (.error e, db1)
    | .ok _ => (.ok (some (newBooleanProposalVector db.totalSigners daProofSet)), db1)

/-- The outcomes of `addDAProof` on the proofs of a list, one call after the other, and the
database after the last call. -/
def addDAProofs (db : DAProofDB) :
    List DAProof → List (Except Exn (Option BooleanProposalVector)) × DAProofDB
  | [] => ([], db)
  | d :: ds => ((addDAProof db d).1 :: (addDAProofs (addDAProof db d).2 ds).1,
                (addDAProofs (addDAProof db d).2 ds).2)

/-! ## `BlockProposalDB.h` -/

/-- Class `TestMessageGeneratorAgent`: whether `*sChain->getBlockProposerTest()` is
`SchainTest::NONE`, and the member `counter`, a `uint64_t`. -/
structure TestMessageGeneratorAgent where
  blockProposerTestIsNone : Bool
  counter : Nat
  deriving DecidableEq

/-- The body of the loop over `i` in `TestMessageGeneratorAgent::pendingTransactions`: a
vector of `messageSize` zero bytes in which `transaction.at(2 * j + k) = bytes[k]` for
`j < messageSize / 8` and `k < 7`, where `bytes` are the eight bytes of the counter in memory
order. -/
def testTransaction (messageSize counter : Nat) : Except Exn Bytes :=
  let bytes := natToLe 8 counter
  (List.range (messageSize / 8)).foldlM (fun (transaction : Bytes) j =>
    (List.range 7).foldlM (fun (transaction : Bytes) k =>
      vecSet transaction (2 * j + k) (bytes.getD k 0)) transaction)
    (List.replicate messageSize 0)

/-- The bytes that the loop of `testTransaction` leaves in a transaction of 200 bytes: the
writes of round `j` cover the bytes `2 * j .. 2 * j + 6`, so each round but the last keeps its
first two bytes, the last round, `j = 24`, keeps its seven, and the rest stays zero. -/
def testTransactionBytes (bytes : Bytes) : Bytes :=
  (List.replicate 24 [bytes.getD 0 0, bytes.getD 1 0]).flatten ++
    (List.range 7).map (fun k => bytes.getD k 0) ++ List.replicate 145 0

/-- The loop over `i` in `TestMessageGeneratorAgent::pendingTransactions`, with the number of
rounds that are left, the counter and the result so far. -/
def pendingTransactionsLoop (messageSize : Nat) :
    Nat → Nat → List Bytes → Except Exn (List Bytes × Nat)
  | 0, counter, result => .ok (result, counter)
  | n + 1, counter, result => do
    let transaction ← testTransaction messageSize counter
    pendingTransactionsLoop messageSize n ((counter + 1) % U64) (result ++ [transaction])

/-- Method `TestMessageGeneratorAgent::pendingTransactions`; the second component is the agent
after the call. -/
def pendingTransactions (a : TestMessageGeneratorAgent) (limit : Nat) :
    Except Exn (List Bytes × TestMessageGeneratorAgent) :=
  let messageSize := 200
  let result : List Bytes := []
  if a.blockProposerTestIsNone then .ok (result, a)
  else do
    let (result, counter) ← pendingTransactionsLoop messageSize limit a.counter result
    return (result, { a with counter := counter })

/-! ## `AbstractServerAgent.cpp` -/

/-- Class `ServerConnection`: the arguments of its constructor, the descriptor and the text of
the peer address. -/
structure ServerConnection where
  descriptor : Int
  ip : Bytes
  deriving DecidableEq

/-- What a thread does that another one can observe. -/
inductive ServerEvent where
  /-- Function `accept` returned the value `fd`. -/
  | accepted (fd : Int)
  /-- Call of `pushToQueueAndNotifyWorkers`. -/
  | pushed (c : ServerConnection)
  /-- Method `workerThreadWaitandPopConnection` returned `c`. -/
  | popped (c : ServerConnection)
  /-- Call of `processNextAvailableConnection(c)`. -/
  | processed (c : ServerConnection)
  /-- Call of `c->closeConnection()`. -/
  | closed (c : ServerConnection)
  /-- Call of `Exception::logNested(e)`. -/
  | logged (e : Exn)
  deriving DecidableEq

/-- How the observation of a thread function ends. -/
inductive ThreadEnd where
  /-- The function returned. -/
  | returned
  /-- An exception left the function, or the process was aborted. -/
  | threw (e : Exn)
  /-- The thread is in `wait` and is not woken again. -/
  | waiting
  /-- The thread is in its loop and the observation stops. -/
  | running
  deriving DecidableEq

/-- Method `AbstractServerAgent::pushToQueueAndNotifyWorkers`, on the queue
`incomingTCPConnections`. The member is declared outside the files at hand; the calls `push`,
`empty`, `front` and `pop` on it are those of a `std::queue`, a first-in first-out container
without a capacity, and its head is the head of the list. -/
def pushToQueueAndNotifyWorkers (queue : List ServerConnection)
    (connectionEnvelope : ServerConnection) : List ServerConnection :=
  queue ++ [connectionEnvelope]

/-- What a worker finds when `incomingTCPConnectionsCond.wait` returns: the queue, which other
threads may have changed while the mutex was released, and whether the exit is requested. -/
structure Wake where
  queue : List ServerConnection
  exitRequested : Bool
  deriving DecidableEq

/-- Modelled from the spec: `Node::exitCheck`, which is outside the files at hand; "on each
condvar wake, the worker checks `exitRequested` and exits": the check throws
`ExitRequestedException` when the exit is requested. -/
def exitCheck (exitRequested : Bool) : Except Exn Unit :=
  if exitRequested then .error .exitRequested else .ok ()

/-- Method `AbstractServerAgent::workerThreadWaitandPopConnection`. `queue` is the queue when
the worker has locked the mutex and `wakes` is what it finds at each return of `wait`. The
outcome is `none` when the worker stays in `wait`; the second component is the queue that the
call leaves. -/
def workerThreadWaitandPopConnection :
    List ServerConnection → List Wake →
      Option (Except Exn ServerConnection) × List ServerConnection
  | ce :: rest, _ =>
    match ASSERT (!(ce :: rest).isEmpty) with
    | .error e => (some (.error e), ce :: rest)
    | .ok _ => (some (.ok ce), rest)
  | [], [] => (none, [])
  | [], w :: ws =>
    match exitCheck w.exitRequested with
    | .error e => (some (.error e), w.queue)
    | .ok _ => workerThreadWaitandPopConnection w.queue ws

/-- One round of the loop of a worker, as its surroundings decide it: the value of
`isExitRequested()` in the loop condition, the queue when the worker locks the mutex, what it
finds at each return of `wait`, and the outcome of `processNextAvailableConnection`. -/
structure WorkerRound where
  exitRequested : Bool
  queue : List ServerConnection
  wakes : List Wake
  processNextAvailableConnection : ServerConnection → Except Exn Unit

/-- Method `AbstractServerAgent::workerThreadConnectionProcessingLoop`, after the start
barrier: the events of the worker and how the observation ends. -/
def workerThreadConnectionProcessingLoop : List WorkerRound → List ServerEvent × ThreadEnd
  | [] => ([], .running)
  | r :: rs =>
    if r.exitRequested then ([], .returned)
    else
      match (workerThreadWaitandPopConnection r.queue r.wakes).1 with
      | none => ([], .waiting)
      | some (.error e) =>
        if e.isStdException then
          (.logged e :: (workerThreadConnectionProcessingLoop rs).1,
            (workerThreadConnectionProcessingLoop rs).2)
        else ([], .threw e)
      | some (.ok connection) =>
        match r.processNextAvailableConnection connection with
        | .ok _ =>
          (.popped connection :: .processed connection :: .closed connection ::
            (workerThreadConnectionProcessingLoop rs).1,
            (workerThreadConnectionProcessingLoop rs).2)
        | .error e =>
          if e.isStdException then
            (.popped connection :: .processed connection :: .logged e :: .closed connection ::
              (workerThreadConnectionProcessingLoop rs).1,
              (workerThreadConnectionProcessingLoop rs).2)
          else ([.popped connection, .processed connection], .threw e)

/-- One round of the loop of the listener, as its surroundings decide it: the value of
`isExitRequested()` in the loop condition, the value and the peer address that `accept`
returns, and the value of `isExitRequested()` after `accept` returned. -/
structure AcceptRound where
  exitBefore : Bool
  newConnection : Int
  ip : Bytes
  exitAfter : Bool
  deriving DecidableEq

/-- The loop of `AbstractServerAgent::acceptTCPConnectionsLoop`: the events of the listener,
the queue with what it pushed, and how the observation ends. -/
def acceptLoop (queue : List ServerConnection) :
    List AcceptRound → List ServerEvent × List ServerConnection × ThreadEnd
  | [] => ([], queue, .running)
  | r :: rs =>
    if r.exitBefore then ([], queue, .returned)
    else if r.exitAfter then ([.accepted r.newConnection], queue, .returned)
    else if r.newConnection < 0 then
      ([.accepted r.newConnection], queue, .threw .networkProtocol)
    else
      let connection : ServerConnection := { descriptor := r.newConnection, ip := r.ip }
      let next := acceptLoop (pushToQueueAndNotifyWorkers queue connection) rs
      (.accepted r.newConnection :: .pushed connection :: next.1, next.2)

/-- Method `AbstractServerAgent::acceptTCPConnectionsLoop`, after the start barrier; `s` is the
descriptor of the server socket, and the socket is a plain value, so `ASSERT(this->socket > 0)`
cannot fail. The handler `catch (FatalError *e)` is for a thrown pointer, which nothing in the
loop throws. -/
def acceptTCPConnectionsLoop (s : Int) (queue : List ServerConnection)
    (rounds : List AcceptRound) : List ServerEvent × List ServerConnection × ThreadEnd :=
  match ASSERT (decide (s > 0)) with
  | .error e => ([], queue, .threw e)
  | .ok _ => acceptLoop queue rounds

/-- An operation on the queue of incoming connections. -/
inductive QueueOp where
  /-- The listener calls `pushToQueueAndNotifyWorkers(c)`. -/
  | push (c : ServerConnection)
  /-- A worker calls `workerThreadWaitandPopConnection` and is not woken. -/
  | pop
  deriving DecidableEq

/-- The connections that the workers received, in the order of the calls, and the queue after
a sequence of operations; a worker that finds the queue empty stays in `wait`. -/
def runQueueOps (queue : List ServerConnection) :
    List QueueOp → List ServerConnection × List ServerConnection
  | [] => ([], queue)
  | .push c :: ops => runQueueOps (pushToQueueAndNotifyWorkers queue c) ops
  | .pop :: ops =>
    match workerThreadWaitandPopConnection queue [] with
    | (some (.ok ce), rest) => (ce :: (runQueueOps rest ops).1, (runQueueOps rest ops).2)
    | (_, rest) => runQueueOps rest ops

/-- The connections of the calls of `pushToQueueAndNotifyWorkers`, in their order. -/
def pushedConnections : List QueueOp → List ServerConnection
  | [] => []
  | .push c :: ops => c :: pushedConnections ops
  | .pop :: ops => pushedConnections ops

/-- Whether, in a list of events, every connection that is popped is closed before the next
one is popped; `current` is the connection that is popped and not yet closed. -/
def closedBeforeNext : Option ServerConnection → List ServerEvent → Bool
  | current, [] => current.isNone
  | current, .popped c :: events => current.isNone && closedBeforeNext (some c) events
  | current, .closed c :: events => (current == some c) && closedBeforeNext none events
  | current, _ :: events => closedBeforeNext current events

/-- The number of calls of `pushToQueueAndNotifyWorkers` in a list of events. -/
def pushCount (events : List ServerEvent) : Nat :=
  (events.filter fun e => match e with | .pushed _ => true | _ => false).length

/-- The number of calls of `accept` that returned in a list of events. -/
def acceptCount (events : List ServerEvent) : Nat :=
  (events.filter fun e => match e with | .accepted _ => true | _ => false).length

/-! ## Collaborators for the examples -/

/-- The bytes of an ASCII text. -/
def ascii (s : String) : Bytes := s.toList.map fun ch => Fin.ofNat ch.toNat

/-- Character `'"'`. -/
def chQuote : Byte := 34
/-- Character `','`. -/
def chComma : Byte := 44
/-- Character `':'`. -/
def chColon : Byte := 58
/-- Character `'['`. -/
def chOpenBracket : Byte := 91
/-- Character `']'`. -/
def chCloseBracket : Byte := 93

/-- Decimal digits of `n`, most significant first, prepended to `acc`. -/
def natToDecAux : Nat → Nat → Bytes → Bytes
  | 0, _, acc => acc
  | fuel + 1, n, acc =>
    if n < 10 then Fin.ofNat (48 + n) :: acc
    else natToDecAux fuel (n / 10) (Fin.ofNat (48 + n % 10) :: acc)

/-- The ASCII decimal text of `n`. -/
def natToDec (n : Nat) : Bytes := natToDecAux (n + 1) n []

/-- The value of an ASCII decimal text; `none` when it is empty or has another character. -/
def decToNat (s : Bytes) : Option Nat :=
  if s = [] then none
  else s.foldl (fun acc b =>
    match acc with
    | none => none
    | some n => if 48 ≤ b.val ∧ b.val ≤ 57 then some (10 * n + (b.val - 48)) else none) (some 0)

/-- The value of a lowercase hexadecimal text; `none` when it has another character. -/
def hexToNat (s : Bytes) : Option Nat :=
  s.foldl (fun acc b =>
    match acc with
    | none => none
    | some n =>
      if 48 ≤ b.val ∧ b.val ≤ 57 then some (16 * n + (b.val - 48))
      else if 97 ≤ b.val ∧ b.val ≤ 102 then some (16 * n + (b.val - 87))
      else none) (some 0)

/-- A JSON value of a header: a string or an array of integers. -/
inductive JVal where
  | str (s : Bytes)
  | arr (xs : List Nat)
  deriving DecidableEq

/-- The position of the header reader inside the JSON object. -/
inductive JMode where
  | expectKey | inKey | expectColon | expectValue | inStr | inArr | afterValue | failed
  deriving DecidableEq

/-- The state of the header reader. -/
structure JState where
  mode : JMode
  key : Bytes
  str : Bytes
  num : Option Nat
  arr : List Nat
  members : List (Bytes × JVal)

/-- One step of the header reader over the text between the braces. -/
def jStep (s : JState) (b : Byte) : JState :=
  match s.mode with
  | .expectKey => if b = chQuote then { s with mode := .inKey, key := [] }
                  else { s with mode := .failed }
  | .inKey => if b = chQuote then { s with mode := .expectColon }
              else { s with key := s.key ++ [b] }
  | .expectColon => if b = chColon then { s with mode := .expectValue }
                    else { s with mode := .failed }
  | .expectValue =>
    if b = chQuote then { s with mode := .inStr, str := [] }
    else if b = chOpenBracket then { s with mode := .inArr, arr := [], num := none }
    else { s with mode := .failed }
  | .inStr =>
    if b = chQuote then
      { s with mode := .afterValue, members := s.members ++ [(s.key, .str s.str)] }
    else { s with str := s.str ++ [b] }
  | .inArr =>
    if 48 ≤ b.val ∧ b.val ≤ 57 then { s with num := some (10 * s.num.getD 0 + (b.val - 48)) }
    else if b = chComma then
      match s.num with
      | some n => { s with arr := s.arr ++ [n], num := none }
      | none => { s with mode := .failed }
    else if b = chCloseBracket then
      match s.num with
      | some n =>
        { s with mode := .afterValue, members := s.members ++ [(s.key, .arr (s.arr ++ [n]))] }
      | none =>
        if s.arr = [] then
          { s with mode := .afterValue, members := s.members ++ [(s.key, .arr [])] }
        else { s with mode := .failed }
    else { s with mode := .failed }
  | .afterValue => if b = chComma then { s with mode := .expectKey }
                   else { s with mode := .failed }
  | .failed => s

/-- The members of a flat JSON object without white space and without escapes. -/
def jsonMembers (text : Bytes) : Option (List (Bytes × JVal)) :=
  if text.head? = some chOpenBrace ∧ text.getLast? = some chCloseBrace ∧ 2 ≤ text.length then
    let s := ((text.drop 1).dropLast).foldl jStep
      { mode := .expectKey, key := [], str := [], num := none, arr := [], members := [] }
    if s.mode = .afterValue then some s.members else none
  else none

/-- The string member `key`. -/
def jStr (ms : List (Bytes × JVal)) (key : String) : Option Bytes :=
  match ms.lookup (ascii key) with
  | some (.str s) => some s
  | _ => none

/-- The array member `key`. -/
def jArr (ms : List (Bytes × JVal)) (key : String) : Option (List Nat) :=
  match ms.lookup (ascii key) with
  | some (.arr xs) => some xs
  | _ => none

/-- The member `"key":"value"`. -/
def jMemberStr (key : String) (value : Bytes) : Bytes :=
  [chQuote] ++ ascii key ++ [chQuote, chColon, chQuote] ++ value ++ [chQuote]

/-- The elements of an integer array, separated by commas. -/
def jInts : List Nat → Bytes
  | [] => []
  | [n] => natToDec n
  | n :: ns => natToDec n ++ [chComma] ++ jInts ns

/-- Modelled from the spec: the JSON text of a block proposal header, whose writer is outside
the files at hand. The integers are decimal strings, the state root is 64 hex characters,
`txSizes` is an array of integers, and the hash and the signature are strings. -/
def specHeaderJson (h : BlockProposalHeader) : Bytes :=
  [chOpenBrace] ++
  jMemberStr "schainID" (natToDec h.schainID) ++ [chComma] ++
  jMemberStr "proposerNodeID" (natToDec h.proposerNodeID) ++ [chComma] ++
  jMemberStr "blockID" (natToDec h.blockID) ++ [chComma] ++
  jMemberStr "proposerIndex" (natToDec h.proposerIndex) ++ [chComma] ++
  jMemberStr "transactionCount" (natToDec h.transactionSizes.length) ++ [chComma] ++
  jMemberStr "timeStamp" (natToDec h.timeStamp) ++ [chComma] ++
  jMemberStr "timeStampMs" (natToDec h.timeStampMs) ++ [chComma] ++
  jMemberStr "stateRoot" (carray2Hex (u256ToBigEndianArray h.stateRoot)) ++ [chComma] ++
  [chQuote] ++ ascii "txSizes" ++ [chQuote, chColon, chOpenBracket] ++
    jInts h.transactionSizes ++ [chCloseBracket] ++ [chComma] ++
  jMemberStr "hash" h.blockHash ++
  (match h.signature with
   | some sig => [chComma] ++ jMemberStr "signature" sig
   | none => []) ++
  [chCloseBrace]

/-- Modelled from the spec: the reader of the JSON text of a block proposal header, which is
outside the files at hand. Every field but the signature is required; a text that is not a
flat JSON object, or lacks a field, is a parse error. -/
def specJsonToHeader (text : Bytes) : Except Exn BlockProposalHeader :=
  match jsonMembers text with
  | none => .error (.other 0)
  | some ms =>
    match (jStr ms "schainID").bind decToNat, (jStr ms "proposerNodeID").bind decToNat,
      (jStr ms "blockID").bind decToNat, (jStr ms "proposerIndex").bind decToNat,
      (jStr ms "transactionCount").bind decToNat, (jStr ms "timeStamp").bind decToNat,
      (jStr ms "timeStampMs").bind decToNat, (jStr ms "stateRoot").bind hexToNat,
      jArr ms "txSizes", jStr ms "hash" with
    | some sc, some nd, some bl, some ix, some _, some ts, some ms', some sr, some sizes,
      some hash =>
      .ok { schainID := sc, proposerNodeID := nd, blockID := bl, proposerIndex := ix,
            timeStamp := ts, timeStampMs := ms', stateRoot := sr, transactionSizes := sizes,
            blockHash := hash, signature := jStr ms "signature" }
    | _, _, _, _, _, _, _, _, _, _ => .error (.other 0)

/-- Modelled from the spec: `TransactionList::serialize`, which is outside the files at hand;
the payload is `'<' ‖ serializedTransactionList ‖ '>'` and the transactions are "raw bytes
concatenated in list order". -/
def specTxListSerialize (txs : List Transaction) (_flag : Bool) : Bytes :=
  [chLess] ++ txs.flatten ++ [chGreater]

/-- The transactions cut from `bytes` with the lengths `sizes`, and the bytes that are left. -/
def cutTransactions : List Nat → Bytes → Option (List Transaction × Bytes)
  | [], bytes => some ([], bytes)
  | n :: ns, bytes =>
    if n ≤ bytes.length then
      match cutTransactions ns (bytes.drop n) with
      | some (txs, rest) => some (bytes.take n :: txs, rest)
      | none => none
    else none

/-- Modelled from the spec: `TransactionList::deserialize`, which is outside the files at hand;
the payload starts at `startIndex` with `'<'`, the transactions follow "with lengths drawn from
`txSizes`", and `'>'` ends the input. -/
def specTxListDeserialize (sizes : List Nat) (bytes : Bytes) (startIndex : Nat)
    (_flag : Bool) : Except Exn (List Transaction) :=
  match bytes.drop startIndex with
  | b :: rest =>
    if b = chLess then
      match cutTransactions sizes rest with
      | some (txs, tail) => if tail = [chGreater] then .ok txs else .error .parsing
      | none => .error .parsing
    else .error .parsing
  | [] => .error .parsing

/-- A stand-in for SHA-256 in the examples: 32 bytes that depend on every input byte. The
theorems use no property of it. -/
def exampleDigest (b : Bytes) : SHAHash :=
  ⟨natToLe 32 (b.foldl (fun acc x => (acc * 257 + x.val + 1) % 2 ^ 256) 0), by
    simp [natToLe, SHA_HASH_LEN]⟩

/-- The collaborators of the examples: the codecs modelled from the specification, the
stand-in digest, `MODERN_TIME = 1546300800` as the specification suggests, and a buffer limit
of 10000000 bytes. -/
def specCollaborators : Collaborators :=
  { MODERN_TIME := 1546300800
    MAX_BUFFER_SIZE := 10000000
    sha256 := exampleDigest
    txHash := exampleDigest
    merkleRoot := fun txs => exampleDigest (txs.map fun t => (exampleDigest t).val).flatten
    headerJson := specHeaderJson
    jsonToHeader := specJsonToHeader
    txSerializedSize := fun t _ => t.length
    txListSerialize := specTxListSerialize
    txListDeserialize := specTxListDeserialize }

/-- A crypto manager for the examples: the signature of a hash is the text `sig:` followed by
the hex of the hash, and only that signature verifies. -/
def exampleCryptoManager : CryptoManager :=
  { signECDSA := fun h => ascii "sig:" ++ h.toHex
    verifyECDSA := fun h sig _ => sig == ascii "sig:" ++ h.toHex }

/-- The proposal of scenario S1: `schainID=1, proposerNodeID=7, blockID=42, proposerIndex=3,
txs=[], stateRoot=0, tsSec=1600000000, tsMs=0`, signed by the example crypto manager. -/
def scenarioS1 : Except Exn BlockProposal :=
  newBlockProposal specCollaborators 1 7 42 3 [] 0 1600000000 0 none (some exampleCryptoManager)


/-- Equality of outcomes is decidable. -/
instance instDecidableEqExcept {ε α : Type} [DecidableEq ε] [DecidableEq α] :
    DecidableEq (Except ε α)
  | .ok a, .ok b =>
    if h : a = b then isTrue (by rw [h]) else isFalse (by intro e; cases e; exact h rfl)
  | .error a, .error b =>
    if h : a = b then isTrue (by rw [h]) else isFalse (by intro e; cases e; exact h rfl)
  | .ok _, .error _ => isFalse (by intro e; cases e)
  | .error _, .ok _ => isFalse (by intro e; cases e)

/-- An envelope with the two-byte header `{}` and an empty payload. -/
def smallEnvelope : Bytes :=
  natToLe 8 2 ++ [chOpenBrace, chCloseBrace, chLess, chGreater]

/-- Whether a byte is one of the characters `0-9a-f`. -/
def isLowerHex (b : Byte) : Bool :=
  (decide (48 ≤ b.val) && decide (b.val ≤ 57)) || (decide (97 ≤ b.val) && decide (b.val ≤ 102))

/-- The value of a successful outcome; `d` when the outcome is an exception. -/
def okOr {α : Type} (x : Except Exn α) (d : α) : α :=
  match x with
  | .ok a => a
  | .error _ => d

/-- The header with every field empty. -/
def emptyHeader : BlockProposalHeader :=
  { schainID := 0, proposerNodeID := 0, blockID := 0, proposerIndex := 0, timeStamp := 0,
    timeStampMs := 0, stateRoot := 0, transactionSizes := [], blockHash := [], signature := none }

/-- The proposal of scenario S1. -/
def s1 : BlockProposal := okOr scenarioS1 (newTimedBlockProposal 0 0)

/-- The header of the proposal of scenario S1. -/
def s1Header : BlockProposalHeader := okOr (createHeader specCollaborators s1) emptyHeader

/-- The serialized form of the proposal of scenario S1. -/
def s1Bytes : Bytes := okOr ((serialize specCollaborators s1).map Prod.fst) []

/-- The fields of scenario S1 with a signature supplied from outside, which the example crypto
manager did not produce. -/
def forgedS1 : BlockProposal :=
  okOr (newBlockProposal specCollaborators 1 7 42 3 [] 0 1600000000 0 (some (ascii "forged"))
    none) (newTimedBlockProposal 0 0)

/-- The serialized form of `forgedS1`. -/
def forgedS1Bytes : Bytes := okOr ((serialize specCollaborators forgedS1).map Prod.fst) []

/-- A proposal with the fields of scenario S1 and one transaction of 600 zero bytes; its
serialized form has 1000 bytes. -/
def kilobyteProposal : BlockProposal :=
  okOr (newBlockProposal specCollaborators 1 7 42 3 [List.replicate 600 0] 0 1600000000 0 none
    (some exampleCryptoManager)) (newTimedBlockProposal 0 0)

/-- The serialized form of `kilobyteProposal`. -/
def kilobyteBytes : Bytes := okOr ((serialize specCollaborators kilobyteProposal).map Prod.fst) []

/-- A proposal with the fields of scenario S1 and the two transactions `ab` and `c`. -/
def pairProposal : BlockProposal :=
  okOr (newBlockProposal specCollaborators 1 7 42 3 [ascii "ab", ascii "c"] 0 1600000000 0 none
    (some exampleCryptoManager)) (newTimedBlockProposal 0 0)

/-- The DA proof database of scenario S4: committee `N = 4`, threshold `t = 3`, no entry. -/
def s4Database : DAProofDB := { totalSigners := 4, requiredSigners := 3, entries := [] }

/-- The entry of signer `i` for block 42 in the scenarios S4 and S5. -/
def s4Proof (i : Nat) : DAProof :=
  { blockId := 42, proposerIndex := i, thresholdSig := ascii "share" ++ natToDec i }

/-- The database of scenario S5: the one of scenario S4 after the entries of the signers 1
and 2. -/
def s5Database : DAProofDB := (addDAProofs s4Database [s4Proof 1, s4Proof 2]).2

/-- A proposal with the fields of scenario S1, the signature `sig` and 625001 transactions of
one zero byte: `625001 * 16 = 10000016` is above the buffer limit 10000000 of the examples. -/
def oversizedProposal : BlockProposal :=
  okOr (newBlockProposal specCollaborators 1 7 42 3 (List.replicate 625001 [0]) 0 1600000000 0
    (some (ascii "sig")) none) (newTimedBlockProposal 0 0)

/-- The connection with the descriptor `fd` from the peer `10.0.0.1`. -/
def exampleConnection (fd : Int) : ServerConnection :=
  { descriptor := fd, ip := ascii "10.0.0.1" }

/-- Four rounds of a worker: the connection 4, whose processing throws a `ParsingException`,
the connection 5, whose processing returns, a wait that ends with the exit requested, and a
loop condition that sees the exit request. -/
def exampleWorkerRounds : List WorkerRound :=
  [{ exitRequested := false, queue := [exampleConnection 4, exampleConnection 5], wakes := [],
     processNextAvailableConnection := fun _ => .error .parsing },
   { exitRequested := false, queue := [exampleConnection 5], wakes := [],
     processNextAvailableConnection := fun _ => .ok () },
   { exitRequested := false, queue := [],
     wakes := [{ queue := [exampleConnection 6], exitRequested := true }],
     processNextAvailableConnection := fun _ => .ok () },
   { exitRequested := true, queue := [exampleConnection 6], wakes := [],
     processNextAvailableConnection := fun _ => .ok () }]

/-- Three rounds of the listener: `accept` returns the descriptor 4, then the descriptor 5
with the exit requested in the meantime, and a third round that is never reached. -/
def exampleAcceptRounds : List AcceptRound :=
  [{ exitBefore := false, newConnection := 4, ip := ascii "10.0.0.1", exitAfter := false },
   { exitBefore := false, newConnection := 5, ip := ascii "10.0.0.1", exitAfter := true },
   { exitBefore := false, newConnection := 6, ip := ascii "10.0.0.1", exitAfter := false }]

/-- The hash of the proposal of scenario S1. -/
def s1Hash : SHAHash := okOr (getHash s1) (exampleDigest [])

/-- The hash of `kilobyteProposal`. -/
def kilobyteHash : SHAHash := okOr (getHash kilobyteProposal) (exampleDigest [])

/-! ## Lemmas on the monad and on the byte codecs -/

theorem bind_ok_eq {α β : Type} (a : α) (f : α → Except Exn β) :
    (Except.ok a >>= f) = f a := rfl

theorem bind_error_eq {α β : Type} (e : Exn) (f : α → Except Exn β) :
    ((Except.error e : Except Exn α) >>= f) = Except.error e := rfl

theorem CHECK_ARGUMENT_bind {β : Type} (cond : Bool) (f : Unit → Except Exn β) :
    (CHECK_ARGUMENT cond >>= f) = if cond then f () else .error .invalidArgument := by
  cases cond <;> rfl

theorem CHECK_STATE_bind {β : Type} (cond : Bool) (f : Unit → Except Exn β) :
    (CHECK_STATE cond >>= f) = if cond then f () else .error .invalidState := by
  cases cond <;> rfl

theorem ASSERT_bind {β : Type} (cond : Bool) (f : Unit → Except Exn β) :
    (ASSERT cond >>= f) = if cond then f () else .error .fatal := by
  cases cond <;> rfl

theorem cassert_bind {β : Type} (cond : Bool) (f : Unit → Except Exn β) :
    (cassert cond >>= f) = if cond then f () else .error .assertion := by
  cases cond <;> rfl

theorem vecAt_bind {α β : Type} (v : List α) (i : Nat) (f : α → Except Exn β) :
    (vecAt v i >>= f) = match v[i]? with
      | some x => f x
      | none => .error .outOfRange := by
  unfold vecAt
  cases v[i]? <;> rfl

theorem leToNat_lt (b : Bytes) : leToNat b < 256 ^ b.length := by
  induction b with
  | nil => simp [leToNat]
  | cons x xs ih =>
    simp only [leToNat, List.length_cons, pow_succ]
    have := x.isLt
    omega

/-! ## Lemmas on `extractHeader`, `serialize` and `deserialize` -/

/-- The header is returned exactly when every check of `extractHeader` passes. -/
theorem extractHeader_ok_iff (c : Collaborators) (b : Bytes) (h : Bytes) :
    extractHeader c b = .ok h ↔
      (10 ≤ b.length ∧ 2 ≤ leToNat (b.take 8) ∧ (leToNat (b.take 8) + 8) % U64 ≤ b.length ∧
        leToNat (b.take 8) ≤ c.MAX_BUFFER_SIZE ∧
        b[(leToNat (b.take 8) + 8) % U64]? = some chLess ∧ b[8]? = some chOpenBrace ∧
        b.getLast? = some chGreater ∧
        h = (b.drop 8).take (leToNat (b.take 8)) ++
          List.replicate (leToNat (b.take 8) - ((b.drop 8).take (leToNat (b.take 8))).length)
            chSpace) := by
  unfold extractHeader
  simp only [CHECK_ARGUMENT_bind, CHECK_STATE_bind, vecAt_bind, pure, Except.pure]
  by_cases h1 : 10 ≤ b.length <;> simp [h1]
  by_cases h2 : 2 ≤ leToNat (b.take 8) <;> simp [h2]
  by_cases h3 : (leToNat (b.take 8) + 8) % U64 ≤ b.length <;> simp [h3]
  by_cases h4 : leToNat (b.take 8) ≤ c.MAX_BUFFER_SIZE <;> simp [h4]
  cases hx : b[(leToNat (List.take 8 b) + 8) % U64]? with
  | none => simp
  | some x =>
    by_cases e1 : x = chLess <;> simp [e1]
    cases hy : b[8]? with
    | none => simp
    | some y =>
      by_cases e2 : y = chOpenBrace <;> simp [e2]
      by_cases e3 : b.getLast? = some chGreater <;> simp [e3]
      exact eq_comm

/-- A failure of `extractHeader` leaves `deserialize` unchanged. -/
theorem deserialize_of_extractHeader_error (c : Collaborators) (b : Bytes) (m : CryptoManager)
    (e : Exn) (h : extractHeader c b = .error e) : deserialize c b m = .error e := by
  unfold deserialize
  rw [h]
  rfl

/-- A success of `deserialize` is a success of `extractHeader`. -/
theorem extractHeader_ok_of_deserialize (c : Collaborators) (b : Bytes) (m : CryptoManager)
    (p : BlockProposal) (h : deserialize c b m = .ok p) : ∃ hdr, extractHeader c b = .ok hdr := by
  cases hx : extractHeader c b with
  | ok hdr => exact ⟨hdr, rfl⟩
  | error e =>
    rw [deserialize_of_extractHeader_error c b m e hx] at h
    cases h

/-- The steps of `deserialize` after a header was extracted and parsed. -/
theorem deserialize_of_parsed (c : Collaborators) (b : Bytes) (m : CryptoManager)
    (hdr : Bytes) (h : BlockProposalHeader) (list : List Transaction) (sig : Bytes)
    (p : BlockProposal)
    (h1 : extractHeader c b = .ok hdr) (h2 : parseBlockHeader c hdr = .ok h)
    (h3 : deserializeTransactions c h hdr b = .ok list) (h4 : h.signature = some sig)
    (h5 : newBlockProposal c h.schainID h.proposerNodeID h.blockID h.proposerIndex list
      h.stateRoot h.timeStamp h.timeStampMs (some sig) none = .ok p) :
    deserialize c b m =
      (verifyProposalECDSA m p h.blockHash sig).map
        fun _ => { p with serializedProposal := some b } := by
  unfold deserialize
  rw [h1]
  simp only [bind_ok_eq, h2, h3, h4, ASSERT_bind, Option.isSome_some, if_true, h5, Option.getD_some]
  cases verifyProposalECDSA m p h.blockHash sig <;> rfl

theorem natToLe_length (w x : Nat) : (natToLe w x).length = w := by
  induction w generalizing x with
  | zero => rfl
  | succ w ih => simp [natToLe, ih]

theorem leToNat_natToLe (w x : Nat) : leToNat (natToLe w x) = x % 256 ^ w := by
  induction w generalizing x with
  | zero => simp [natToLe, leToNat, Nat.mod_one]
  | succ w ih =>
    simp only [natToLe, leToNat, ih, Fin.ofNat, pow_succ]
    have h1 : x % (256 ^ w * 256) = x % 256 + 256 * (x / 256 % 256 ^ w) := by
      rw [Nat.mul_comm, Nat.mod_mul]
    omega

theorem vecInsert_end (v xs : Bytes) : vecInsert v v.length xs = v ++ xs := by
  simp [vecInsert]

theorem take_buffer (J : Bytes) :
    List.take (8 + J.length) (natToLe 8 J.length ++ J) = natToLe 8 J.length ++ J := by
  apply List.take_of_length_le
  simp [natToLe_length]

theorem buffer_getElem_8 (J : Bytes) : (natToLe 8 J.length ++ J)[8]? = J.head? := by
  rw [List.getElem?_append_right (by simp [natToLe_length])]
  simp [natToLe_length, List.head?_eq_getElem?]

theorem buffer_getElem_last (J : Bytes) (hne : J ≠ []) :
    (natToLe 8 J.length ++ J)[8 + J.length - 1]? = J.getLast? := by
  have hpos : 0 < J.length := List.length_pos.mpr hne
  rw [List.getElem?_append_right (by simp [natToLe_length]; omega)]
  simp only [natToLe_length, List.getLast?_eq_getElem?]
  congr 1
  omega

theorem vecInsert_nil (xs : Bytes) : vecInsert [] 0 xs = xs := by
  simp [vecInsert]


/-- What `serialize` computes for a proposal whose cache is empty. -/
theorem serialize_fresh (c : Collaborators) (p p1 : BlockProposal) (block : Bytes)
    (hc : p.serializedProposal = none) (h : serialize c p = .ok (block, p1)) :
    ∃ hd, createHeader c p = .ok hd ∧
      (c.headerJson hd).head? = some chOpenBrace ∧
      (c.headerJson hd).getLast? = some chCloseBrace ∧
      (c.txListSerialize p.transactionList true).head? = some chLess ∧
      (c.txListSerialize p.transactionList true).getLast? = some chGreater ∧
      block = natToLe 8 (c.headerJson hd).length ++ c.headerJson hd ++
        c.txListSerialize p.transactionList true ∧
      (p.transactionList.length = 0 → block.length = 8 + (c.headerJson hd).length + 2) ∧
      p1 = { p with serializedProposal := some block } := by
  unfold serialize at h
  rw [hc] at h
  simp only [] at h
  cases hh : createHeader c p with
  | error e => rw [hh] at h; cases h
  | ok hd =>
    rw [hh] at h
    simp only [bind_ok_eq, vecAt_bind, CHECK_STATE_bind, cassert_bind, toBuffer,
      List.length_nil, take_buffer, vecInsert_end, vecInsert_nil, buffer_getElem_8] at h
    refine ⟨hd, rfl, ?_⟩
    cases hJ0 : (c.headerJson hd).head? with
    | none => rw [hJ0] at h; cases h
    | some b0 =>
      have hne : c.headerJson hd ≠ [] := by intro e; rw [e] at hJ0; cases hJ0
      rw [hJ0, buffer_getElem_last _ hne] at h
      simp only [] at h
      by_cases e0 : b0 = chOpenBrace
      · subst e0
        simp only [beq_self_eq_true, if_true] at h
        cases hJ1 : (c.headerJson hd).getLast? with
        | none => rw [hJ1] at h; cases h
        | some b1 =>
          rw [hJ1] at h
          simp only [] at h
          by_cases e1 : b1 = chCloseBrace
          · subst e1
            simp only [beq_self_eq_true, if_true] at h
            by_cases e2 : (c.txListSerialize p.transactionList true).head? = some chLess
            · by_cases e3 : (c.txListSerialize p.transactionList true).getLast? = some chGreater
              · simp only [e2, e3, beq_self_eq_true, if_true] at h
                refine ⟨rfl, rfl, e2, e3, ?_⟩
                by_cases e4 : p.transactionList.length = 0
                · simp only [e4, if_true] at h
                  split at h
                  · rename_i e5
                    split at h
                    · split at h
                      · cases h
                        exact ⟨rfl, fun _ => by simpa using e5, rfl⟩
                      · cases h
                    · cases h
                  · cases h
                · simp only [e4, if_false, bind_ok_eq, pure, Except.pure] at h
                  split at h
                  · split at h
                    · cases h
                      exact ⟨rfl, fun e => absurd e e4, rfl⟩
                    · cases h
                  · cases h
              · simp [e2, e3] at h
            · simp [e2] at h
          · simp [e1] at h
      · simp [e0] at h


/-- What the constructor checks, and the proposal it builds. -/
theorem newBlockProposal_ok (c : Collaborators) (sc nd bl ix : Nat) (txs : List Transaction)
    (sr ts tsMs : Nat) (sig : Option Bytes) (mgr : Option CryptoManager) (p : BlockProposal)
    (h : newBlockProposal c sc nd bl ix txs sr ts tsMs sig mgr = .ok p) :
    (mgr.isSome = true ∨ sig.isSome = true) ∧ (mgr.isNone = true ∨ sig.isNone = true) ∧
    c.MODERN_TIME < ts ∧
    p = { calculateHash c
            { schainID := sc, proposerNodeID := nd, blockID := bl, proposerIndex := ix,
              transactionCount := txs.length, timeStamp := ts, timeStampMs := tsMs,
              stateRoot := sr, transactionList := txs, hash := none, signature := sig,
              serializedProposal := none } with
          signature := match mgr with
            | some m => some (m.signECDSA (c.sha256 (hashPreimage c
                { schainID := sc, proposerNodeID := nd, blockID := bl, proposerIndex := ix,
                  transactionCount := txs.length, timeStamp := ts, timeStampMs := tsMs,
                  stateRoot := sr, transactionList := txs, hash := none, signature := sig,
                  serializedProposal := none })))
            | none => sig } := by
  unfold newBlockProposal at h
  simp only [CHECK_ARGUMENT_bind, ASSERT_bind] at h
  split at h
  · rename_i h1
    split at h
    · rename_i h2
      split at h
      · rename_i h3
        refine ⟨by simpa using h1, by simpa using h2, by simpa using h3, ?_⟩
        cases mgr with
        | none =>
          simp only [] at h
          cases h
          rfl
        | some m =>
          simp only [signProposalECDSA, calculateHash] at h
          cases h
          rfl
      · cases h
    · cases h
  · cases h

/-- The constructor succeeds on a signature supplied from outside when the time stamp is modern. -/
theorem newBlockProposal_of_signature (c : Collaborators) (sc nd bl ix : Nat)
    (txs : List Transaction) (sr ts tsMs : Nat) (sig : Bytes) (hts : c.MODERN_TIME < ts) :
    newBlockProposal c sc nd bl ix txs sr ts tsMs (some sig) none =
      .ok { calculateHash c
              { schainID := sc, proposerNodeID := nd, blockID := bl, proposerIndex := ix,
                transactionCount := txs.length, timeStamp := ts, timeStampMs := tsMs,
                stateRoot := sr, transactionList := txs, hash := none, signature := some sig,
                serializedProposal := none } with signature := some sig } := by
  unfold newBlockProposal
  simp [CHECK_ARGUMENT_bind, ASSERT_bind, hts]

/-- On a header buffer followed by a framed payload, `extractHeader` returns the header text. -/
theorem extractHeader_framed (c : Collaborators) (J L : Bytes)
    (hJ2 : 2 ≤ J.length) (hJmax : J.length ≤ c.MAX_BUFFER_SIZE)
    (hmax : c.MAX_BUFFER_SIZE + 8 < 2 ^ 64)
    (hJ0 : J.head? = some chOpenBrace) (hL0 : L.head? = some chLess)
    (hL1 : L.getLast? = some chGreater) :
    extractHeader c (natToLe 8 J.length ++ J ++ L) = .ok J := by
  have hLne : L ≠ [] := by intro e; rw [e] at hL0; cases hL0
  have hLpos : 0 < L.length := List.length_pos.mpr hLne
  have hlen : leToNat ((natToLe 8 J.length ++ J ++ L).take 8) = J.length := by
    rw [List.append_assoc, List.take_append_of_le_length (by simp [natToLe_length])]
    rw [List.take_of_length_le (by simp [natToLe_length]), leToNat_natToLe]
    apply Nat.mod_eq_of_lt
    have : (256 : Nat) ^ 8 = 2 ^ 64 := by norm_num
    omega
  have hmod : (J.length + 8) % U64 = J.length + 8 := Nat.mod_eq_of_lt (by unfold U64; omega)
  rw [extractHeader_ok_iff, hlen, hmod]
  refine ⟨?_, hJ2, ?_, hJmax, ?_, ?_, ?_, ?_⟩
  · simp [natToLe_length]; omega
  · simp [natToLe_length]; omega
  · rw [List.getElem?_append_right (by simp [natToLe_length]; omega)]
    simp [natToLe_length, Nat.add_comm, ← List.head?_eq_getElem?, hL0]
  · rw [List.append_assoc, List.getElem?_append_right (by simp [natToLe_length])]
    simp only [natToLe_length, Nat.sub_self]
    rw [List.getElem?_append_left (by omega), ← List.head?_eq_getElem?, hJ0]
  · rw [List.getLast?_append_of_ne_nil _ hLne, hL1]
  · rw [List.append_assoc, List.drop_append_of_le_length (by simp [natToLe_length])]
    rw [List.drop_of_length_le (by simp [natToLe_length])]
    simp


/-- The round trip for a constructed proposal. -/
theorem deserialize_serialize_aux (c : Collaborators) (m : CryptoManager)
    (sc nd bl ix : Nat) (txs : List Transaction) (sr ts tsMs : Nat) (sig : Option Bytes)
    (mgr : Option CryptoManager) (p p1 : BlockProposal) (b : Bytes) (hd : BlockProposalHeader)
    (hnew : newBlockProposal c sc nd bl ix txs sr ts tsMs sig mgr = .ok p)
    (hser : serialize c p = .ok (b, p1))
    (hhd : createHeader c p = .ok hd)
    (hlen : 2 < (c.headerJson hd).length ∧ (c.headerJson hd).length ≤ c.MAX_BUFFER_SIZE)
    (hmax : c.MAX_BUFFER_SIZE + 8 < 2 ^ 64)
    (hjson : c.jsonToHeader (c.headerJson hd) = .ok hd)
    (htx : c.txListDeserialize hd.transactionSizes b ((c.headerJson hd).length + 8) true =
      .ok p.transactionList)
    (hsh : SHAHash) (sg : Bytes) (hh : p.hash = some hsh) (hsg : p.signature = some sg)
    (hverify : m.verifyECDSA hsh sg p.proposerIndex = true) :
    deserialize c b m = .ok p1 ∧ p1 = { p with serializedProposal := some b } := by
  have hver : ∀ h s, p.hash = some h → p.signature = some s →
      m.verifyECDSA h s p.proposerIndex = true := by
    intro h s e1 e2
    rw [hh] at e1
    rw [hsg] at e2
    cases e1
    cases e2
    exact hverify
  obtain ⟨hone, hnot, hts, hp⟩ := newBlockProposal_ok c sc nd bl ix txs sr ts tsMs sig mgr p hnew
  have hcache : p.serializedProposal = none := by rw [hp]; rfl
  obtain ⟨hd', hhd', hJ0, hJ1, hL0, hL1, hb, _, hp1⟩ := serialize_fresh c p p1 b hcache hser
  rw [hhd] at hhd'
  cases hhd'
  -- the signature of a constructed proposal is present
  obtain ⟨s, hs⟩ : ∃ s, p.signature = some s := by
    rw [hp]
    cases mgr with
    | some m' => exact ⟨_, rfl⟩
    | none =>
      cases sig with
      | some s => exact ⟨s, rfl⟩
      | none => simp at hone
  have hhash : p.hash = some (c.sha256 (hashPreimage c
      { schainID := sc, proposerNodeID := nd, blockID := bl, proposerIndex := ix,
        transactionCount := txs.length, timeStamp := ts, timeStampMs := tsMs,
        stateRoot := sr, transactionList := txs, hash := none, signature := sig,
        serializedProposal := none })) := by rw [hp]; rfl
  -- the header carries the fields of the proposal
  have hfields : hd.schainID = sc ∧ hd.proposerNodeID = nd ∧ hd.blockID = bl ∧
      hd.proposerIndex = ix ∧ hd.stateRoot = sr ∧ hd.timeStamp = ts ∧ hd.timeStampMs = tsMs ∧
      hd.signature = some s ∧ p.transactionList = txs := by
    unfold createHeader getHash at hhd
    rw [hhash] at hhd
    simp only [bind_ok_eq, pure, Except.pure] at hhd
    cases hhd
    simp only [hs]
    rw [hp]
    simp [calculateHash]
  obtain ⟨f1, f2, f3, f4, f5, f6, f7, f8, f9⟩ := hfields
  have hx : extractHeader c b = .ok (c.headerJson hd) := by
    rw [hb]
    exact extractHeader_framed c _ _ (by omega) hlen.2 hmax hJ0 hL0 hL1
  have hparse : parseBlockHeader c (c.headerJson hd) = .ok hd := by
    unfold parseBlockHeader
    have hne : c.headerJson hd ≠ [] := by intro e; rw [e] at hJ0; cases hJ0
    have h0 : (c.headerJson hd)[0]? = some chOpenBrace := by
      rw [← List.head?_eq_getElem?, hJ0]
    have h1 : (c.headerJson hd)[(c.headerJson hd).length - 1]? = some chCloseBrace := by
      rw [← List.getLast?_eq_getElem?, hJ1]
    simp [CHECK_ARGUMENT_bind, vecAt_bind, hlen.1, h0, h1, hjson]
  have htxs : deserializeTransactions c hd (c.headerJson hd) b = .ok txs := by
    unfold deserializeTransactions
    simp only [htx, f9]
  have hnew' : newBlockProposal c hd.schainID hd.proposerNodeID hd.blockID hd.proposerIndex txs
      hd.stateRoot hd.timeStamp hd.timeStampMs (some s) none = .ok p := by
    rw [f1, f2, f3, f4, f5, f6, f7, newBlockProposal_of_signature c sc nd bl ix txs sr ts tsMs s hts]
    congr 1
    rw [hp] at hs ⊢
    simp only [calculateHash, hashPreimage, hashPreimageFields] at hs ⊢
    simp only [BlockProposal.mk.injEq, true_and]
    exact ⟨hs.symm, trivial⟩
  have hv : verifyProposalECDSA m p hd.blockHash s = .ok () := by
    unfold verifyProposalECDSA
    rw [hhash]
    simp only []
    rw [hver _ s hhash hs]
    rfl
  rw [deserialize_of_parsed c b m _ hd txs s p hx hparse htxs f8 hnew', hv, hp1]
  exact ⟨rfl, rfl⟩

/-- The call of `serialize` changes nothing but the cache of the proposal. -/
theorem serialize_cache (c : Collaborators) (p p1 : BlockProposal) (b : Bytes)
    (h : serialize c p = .ok (b, p1)) : p1 = { p with serializedProposal := some b } := by
  cases hc : p.serializedProposal with
  | none =>
    obtain ⟨_, _, _, _, _, _, _, _, hp1⟩ := serialize_fresh c p p1 b hc h
    exact hp1
  | some b' =>
    unfold serialize at h
    rw [hc] at h
    simp only [] at h
    cases h
    cases p
    simp only [BlockProposal.mk.injEq, true_and]
    exact hc

/-- The steps of `getFragment` after its argument checks and the call of `serialize`. -/
theorem getFragment_of_serialize (c : Collaborators) (p p1 : BlockProposal) (sBlock : Bytes)
    (hsh : SHAHash) (total index : Nat) (hser : serialize c p = .ok (sBlock, p1))
    (hh : p1.hash = some hsh) (ht : 0 < total) (hi : index ≤ total) :
    getFragment c p total index =
      (if index = total then
        iterRange sBlock (fragmentStartIndex (fragmentStandardSize sBlock.length total) index)
          sBlock.length
      else
        iterRange sBlock (fragmentStartIndex (fragmentStandardSize sBlock.length total) index)
          (fragmentStartIndex (fragmentStandardSize sBlock.length total) index +
            fragmentStandardSize sBlock.length total)).map
        fun slice => (fragmentOf p1 total index sBlock.length hsh slice, p1) := by
  unfold getFragment
  simp only [CHECK_ARGUMENT_bind, gt_iff_lt, ht, hi, decide_True, if_true, hser, bind_ok_eq,
    getHash, hh]
  split <;> rename_i hidx
  · cases iterRange sBlock _ sBlock.length <;>
      simp [vecInsert, fragmentOf, Except.map, bind, Except.bind, pure, Except.pure]
  · cases iterRange sBlock _ _ <;>
      simp [vecInsert, fragmentOf, Except.map, bind, Except.bind, pure, Except.pure]

/-- A success of `getFragment` passed the argument checks, serialized the proposal and found
its hash. -/
theorem getFragment_ok (c : Collaborators) (p p1 : BlockProposal) (total index : Nat)
    (frag : BlockProposalFragment) (h : getFragment c p total index = .ok (frag, p1)) :
    0 < total ∧ index ≤ total ∧
    ∃ sBlock hsh, serialize c p = .ok (sBlock, p1) ∧ p1.hash = some hsh := by
  unfold getFragment at h
  simp only [CHECK_ARGUMENT_bind] at h
  split at h
  · rename_i h1
    split at h
    · rename_i h2
      cases hs : serialize c p with
      | error e => rw [hs] at h; cases h
      | ok r =>
        obtain ⟨sBlock, q⟩ := r
        rw [hs] at h
        simp only [bind_ok_eq] at h
        refine ⟨by simpa using h1, by simpa using h2, sBlock, ?_⟩
        cases hq : q.hash with
        | none =>
          simp only [getHash, hq] at h
          split at h <;> (cases hr : iterRange sBlock _ _ <;> rw [hr] at h <;> cases h)
        | some hsh =>
          simp only [getHash, hq] at h
          split at h <;> (cases hr : iterRange sBlock _ _ <;> rw [hr] at h <;>
            first | (cases h; exact ⟨hsh, rfl, hq⟩) | cases h)
    · cases h
  · cases h

/-- The standard fragment size is the ceiling of `n / total`. -/
theorem fragmentStandardSize_eq_ceil (n total : Nat) (ht : 0 < total) :
    fragmentStandardSize n total = (n + total - 1) / total := by
  unfold fragmentStandardSize
  have hdm := Nat.div_add_mod n total
  have hlt := Nat.mod_lt n ht
  split
  · rename_i h0
    symm
    apply Nat.div_eq_of_lt_le
    · have : n / total * total = total * (n / total) := Nat.mul_comm _ _
      omega
    · have : (n / total + 1) * total = total * (n / total) + total := by ring
      omega
  · rename_i h0
    symm
    apply Nat.div_eq_of_lt_le
    · have : (n / total + 1) * total = total * (n / total) + total := by ring
      omega
    · have : (n / total + 1 + 1) * total = total * (n / total) + total + total := by ring
      omega

/-- The start index does not wrap when every fragment lies inside the block. -/
theorem fragmentStartIndex_eq (s index total n : Nat) (h1 : 1 ≤ index) (hi : index ≤ total)
    (hr : s * (total - 1) ≤ n) (hn : n < 2 ^ 64) :
    fragmentStartIndex s index = s * (index - 1) := by
  unfold fragmentStartIndex U64
  rcases Nat.eq_zero_or_pos s with hs | hs
  · subst hs
    simp
  · have hle : s * (index - 1) ≤ s * (total - 1) := Nat.mul_le_mul_left s (by omega)
    have ht : total - 1 ≤ s * (total - 1) := Nat.le_mul_of_pos_left _ hs
    have hidx : (index + 2 ^ 64 - 1) % 2 ^ 64 = index - 1 := by
      have : index + 2 ^ 64 - 1 = (index - 1) + 2 ^ 64 := by omega
      rw [this, Nat.add_mod_right]
      exact Nat.mod_eq_of_lt (by omega)
    rw [hidx]
    exact Nat.mod_eq_of_lt (by omega)

/-- A successful iterator range is the slice between its bounds. -/
theorem iterRange_ok (v slice : Bytes) (first last : Nat) (h : iterRange v first last = .ok slice) :
    first ≤ last ∧ last ≤ v.length ∧ slice = (v.drop first).take (last - first) ∧
    slice.length = last - first := by
  unfold iterRange at h
  split at h
  · rename_i hb
    cases h
    refine ⟨hb.1, hb.2, rfl, ?_⟩
    simp
    omega
  · cases h

theorem carray2Hex_length (a : Bytes) : (carray2Hex a).length = 2 * a.length := by
  induction a with
  | nil => rfl
  | cons x xs ih =>
    simp only [carray2Hex, List.map_cons, List.flatten_cons, List.length_append,
      List.length_cons, List.length_nil] at ih ⊢
    omega

theorem natToBe_length (w x : Nat) : (natToBe w x).length = w := by
  simp [natToBe, natToLe_length]

theorem hexDigit_isLowerHex (n : Nat) : isLowerHex (hexDigit n) = true := by
  unfold isLowerHex hexDigit
  have h : n % 16 < 16 := Nat.mod_lt _ (by decide)
  split
  · simp only [Fin.ofNat, Fin.val_mk]
    simp
    omega
  · simp only [Fin.ofNat, Fin.val_mk]
    simp
    omega

theorem carray2Hex_isLowerHex (a : Bytes) : (carray2Hex a).all isLowerHex = true := by
  induction a with
  | nil => rfl
  | cons x xs ih =>
    simp only [carray2Hex, List.map_cons, List.flatten_cons, List.all_append, List.all_cons,
      List.all_nil, Bool.and_true, hexDigit_isLowerHex, Bool.true_and] at ih ⊢
    exact ih

/-- The pieces of a concatenation of blocks of 8, 8, 8, 8, 8, 8, 4 and 64 bytes. -/
theorem pieces_of_append (a1 a2 a3 a4 a5 a6 a7 hx m : Bytes)
    (h1 : a1.length = 8) (h2 : a2.length = 8) (h3 : a3.length = 8) (h4 : a4.length = 8)
    (h5 : a5.length = 8) (h6 : a6.length = 8) (h7 : a7.length = 4) (h8 : hx.length = 64) :
    (a1 ++ a2 ++ a3 ++ a4 ++ a5 ++ a6 ++ a7 ++ hx ++ m).take 8 = a1 ∧
    ((a1 ++ a2 ++ a3 ++ a4 ++ a5 ++ a6 ++ a7 ++ hx ++ m).drop 8).take 8 = a2 ∧
    ((a1 ++ a2 ++ a3 ++ a4 ++ a5 ++ a6 ++ a7 ++ hx ++ m).drop 16).take 8 = a3 ∧
    ((a1 ++ a2 ++ a3 ++ a4 ++ a5 ++ a6 ++ a7 ++ hx ++ m).drop 24).take 8 = a4 ∧
    ((a1 ++ a2 ++ a3 ++ a4 ++ a5 ++ a6 ++ a7 ++ hx ++ m).drop 32).take 8 = a5 ∧
    ((a1 ++ a2 ++ a3 ++ a4 ++ a5 ++ a6 ++ a7 ++ hx ++ m).drop 40).take 8 = a6 ∧
    ((a1 ++ a2 ++ a3 ++ a4 ++ a5 ++ a6 ++ a7 ++ hx ++ m).drop 48).take 4 = a7 ∧
    ((a1 ++ a2 ++ a3 ++ a4 ++ a5 ++ a6 ++ a7 ++ hx ++ m).drop 52).take 64 = hx ∧
    (a1 ++ a2 ++ a3 ++ a4 ++ a5 ++ a6 ++ a7 ++ hx ++ m).drop 116 = m ∧
    (a1 ++ a2 ++ a3 ++ a4 ++ a5 ++ a6 ++ a7 ++ hx).length = 116 := by
  simp only [List.append_assoc]
  refine ⟨?_, ?_, ?_, ?_, ?_, ?_, ?_, ?_, ?_, ?_⟩ <;>
    simp [List.take_append_eq_append_take, List.drop_append_eq_append_drop, h1, h2, h3, h4, h5,
      h6, h7, h8, List.take_of_length_le, List.drop_of_length_le]

theorem hashPreimage_fields_length (p : BlockProposal) : (hashPreimageFields p).length = 116 := by
  simp [hashPreimageFields, natToLe_length, carray2Hex_length, u256ToBigEndianArray,
    natToBe_length]

/-- The fragment that `getFragment` returns when every fragment lies inside the block. -/
theorem getFragment_in_block (c : Collaborators) (p p1 : BlockProposal) (sBlock : Bytes)
    (hsh : SHAHash) (total index : Nat)
    (hser : serialize c p = .ok (sBlock, p1)) (hh : p.hash = some hsh)
    (hn : sBlock.length < 2 ^ 64) (h1 : 1 ≤ index) (hi : index ≤ total)
    (hr : (sBlock.length + total - 1) / total * (total - 1) ≤ sBlock.length) :
    ∃ slice, getFragment c p total index =
        .ok (fragmentOf p total index sBlock.length hsh slice, p1) ∧
      (fragmentOf p total index sBlock.length hsh slice).data =
        [chLess] ++ slice ++ [chGreater] ∧
      (index < total →
        slice = (sBlock.drop ((sBlock.length + total - 1) / total * (index - 1))).take
          ((sBlock.length + total - 1) / total) ∧
        slice.length = (sBlock.length + total - 1) / total) ∧
      (index = total →
        slice = sBlock.drop ((sBlock.length + total - 1) / total * (total - 1)) ∧
        slice.length = sBlock.length - (sBlock.length + total - 1) / total * (total - 1)) := by
  have ht : 0 < total := by omega
  have hp1 := serialize_cache c p p1 sBlock hser
  have hh1 : p1.hash = some hsh := by rw [hp1]; exact hh
  have hfrag : ∀ slice, fragmentOf p1 total index sBlock.length hsh slice =
      fragmentOf p total index sBlock.length hsh slice := by
    intro slice; rw [hp1]; rfl
  rw [getFragment_of_serialize c p p1 sBlock hsh total index hser hh1 ht hi,
    fragmentStandardSize_eq_ceil _ _ ht]
  generalize hs : (sBlock.length + total - 1) / total = s at hr ⊢
  rw [fragmentStartIndex_eq s index total sBlock.length h1 hi hr hn]
  have hle : s * (index - 1) ≤ s * (total - 1) := Nat.mul_le_mul_left s (by omega)
  by_cases hidx : index = total
  · subst hidx
    refine ⟨sBlock.drop (s * (index - 1)), ?_, rfl, fun hlt => absurd hlt (by omega), fun _ => ?_⟩
    · simp only [if_true, iterRange]
      rw [if_pos ⟨by omega, le_refl _⟩]
      simp only [Except.map, hfrag]
      congr 3
      apply List.take_of_length_le
      simp
    · exact ⟨rfl, by simp⟩
  · have hlt : index < total := by omega
    have hnext : s * (index - 1) + s ≤ s * (total - 1) := by
      have : s * (index - 1) + s = s * index := by
        have : index = (index - 1) + 1 := by omega
        conv_rhs => rw [this, Nat.mul_add, Nat.mul_one]
      rw [this]
      exact Nat.mul_le_mul_left s (by omega)
    refine ⟨(sBlock.drop (s * (index - 1))).take s, ?_, rfl, fun _ => ⟨rfl, ?_⟩,
      fun e => absurd e hidx⟩
    · simp only [if_neg hidx, iterRange]
      rw [if_pos ⟨by omega, by omega⟩]
      simp only [Except.map, hfrag, Nat.add_sub_cancel_left]
    · simp
      omega

/-- Consecutive chunks of `s` bytes, followed by the rest, make up the list. -/
theorem chunks_append_rest (l : Bytes) (s k : Nat) :
    ((List.range k).map fun i => (l.drop (s * i)).take s).flatten ++ l.drop (s * k) = l := by
  induction k with
  | zero => simp
  | succ k ih =>
    rw [List.range_succ, List.map_append, List.flatten_append, List.append_assoc]
    simp only [List.map_cons, List.map_nil, List.flatten_cons, List.flatten_nil,
      List.append_nil]
    have h : (l.drop (s * k)).take s ++ l.drop (s * (k + 1)) = l.drop (s * k) := by
      have : l.drop (s * (k + 1)) = (l.drop (s * k)).drop s := by
        rw [List.drop_drop]
        congr 1
      rw [this, List.take_append_drop]
    rw [h, ih]

/-- A monadic map whose every step succeeds returns the list of the results. -/
theorem mapM_ok_of_forall {α β : Type} (f : α → Except Exn β) (g : α → β) (l : List α)
    (h : ∀ a ∈ l, f a = .ok (g a)) : l.mapM f = .ok (l.map g) := by
  rw [← List.mapM'_eq_mapM]
  induction l with
  | nil => rfl
  | cons a as ih =>
    have ha := h a (List.mem_cons_self a as)
    have has := ih (fun x hx => h x (List.mem_cons_of_mem a hx))
    simp only [List.mapM', ha, has, List.map_cons]
    rfl

/-- When every fragment lies inside the serialized proposal, the fragments `1..total`, each
without its first and last byte, concatenate in index order to the serialized proposal, and
each of them records its length. -/
theorem allFragments_assemble (c : Collaborators) (p p1 : BlockProposal) (sBlock : Bytes)
    (hsh : SHAHash) (total : Nat)
    (hser : serialize c p = .ok (sBlock, p1)) (hh : p.hash = some hsh)
    (hn : sBlock.length < 2 ^ 64) (ht : 1 ≤ total)
    (hr : (sBlock.length + total - 1) / total * (total - 1) ≤ sBlock.length) :
    ∃ frags, allFragments c p total = .ok frags ∧ frags.length = total ∧
      assembleFragments frags = sBlock ∧ ∀ f ∈ frags, f.blockSize = sBlock.length := by
  generalize hs : (sBlock.length + total - 1) / total = s at hr
  let sliceAt : Nat → Bytes := fun i =>
    if i + 1 = total then sBlock.drop (s * i) else (sBlock.drop (s * i)).take s
  let g : Nat → BlockProposalFragment := fun i =>
    fragmentOf p total (i + 1) sBlock.length hsh (sliceAt i)
  have hstep : ∀ i ∈ List.range total,
      (getFragment c p total (i + 1)).map Prod.fst = .ok (g i) := by
    intro i hi
    have hi' : i < total := List.mem_range.mp hi
    obtain ⟨slice, hg, _, hlt, heq⟩ := getFragment_in_block c p p1 sBlock hsh total (i + 1) hser hh
      hn (by omega) (by omega) (by rw [hs]; exact hr)
    rw [hg]
    simp only [Except.map, g, sliceAt]
    congr 2
    by_cases hlast : i + 1 = total
    · rw [if_pos hlast]
      have := (heq hlast).1
      rw [hs] at this
      rw [this]
      congr 2
      omega
    · rw [if_neg hlast]
      have := (hlt (by omega)).1
      rw [hs] at this
      rw [this]
      simp
  refine ⟨(List.range total).map g, mapM_ok_of_forall _ g _ hstep, by simp, ?_, ?_⟩
  · obtain ⟨k, rfl⟩ : ∃ k, total = k + 1 := ⟨total - 1, by omega⟩
    simp only [assembleFragments, List.map_map]
    have hstrip : ∀ i, ((fun f : BlockProposalFragment => (f.data.drop 1).dropLast) ∘ g) i =
        sliceAt i := by
      intro i
      simp [g, fragmentOf]
    rw [List.map_congr_left (fun i _ => hstrip i)]
    rw [List.range_succ, List.map_append, List.flatten_append]
    have hfront : (List.range k).map sliceAt =
        (List.range k).map fun i => (sBlock.drop (s * i)).take s := by
      apply List.map_congr_left
      intro i hi
      have : i < k := List.mem_range.mp hi
      simp only [sliceAt]
      rw [if_neg (by omega)]
    rw [hfront]
    simp only [List.map_cons, List.map_nil, List.flatten_cons, List.flatten_nil,
      List.append_nil, sliceAt, if_true]
    exact chunks_append_rest sBlock s k
  · intro f hf
    obtain ⟨i, _, rfl⟩ := List.mem_map.mp hf
    rfl

/-- A length whose sum with 8 reaches `2^64` has the bytes `f8..ff, ff, ..., ff`, so the byte
that `extractHeader` compares with `<` at the wrapped offset is one of them. -/
theorem no_wrap_of_less (b : Bytes) (hlen : 10 ≤ b.length)
    (h : b[(leToNat (b.take 8) + 8) % U64]? = some chLess) :
    leToNat (b.take 8) + 8 < 2 ^ 64 := by
  rcases b with _ | ⟨b0, _ | ⟨b1, _ | ⟨b2, _ | ⟨b3, _ | ⟨b4, _ | ⟨b5, _ | ⟨b6, _ | ⟨b7, rest⟩⟩⟩⟩⟩⟩⟩⟩
  case cons.cons.cons.cons.cons.cons.cons.cons =>
    by_contra hge
    simp only [List.take, leToNat, U64] at h hge
    have e0 := b0.isLt
    have e1 := b1.isLt
    have e2 := b2.isLt
    have e3 := b3.isLt
    have e4 := b4.isLt
    have e5 := b5.isLt
    have e6 := b6.isLt
    have e7 := b7.isLt
    have hb : b1.val = 255 ∧ b2.val = 255 ∧ b3.val = 255 ∧ b4.val = 255 ∧ b5.val = 255 ∧
        b6.val = 255 ∧ b7.val = 255 ∧ 248 ≤ b0.val := by omega
    obtain ⟨c1, c2, c3, c4, c5, c6, c7, c0⟩ := hb
    have hk : (b0.val + 256 * (b1.val + 256 * (b2.val + 256 * (b3.val + 256 * (b4.val + 256 *
        (b5.val + 256 * (b6.val + 256 * (b7.val + 256 * 0))))))) + 8) % 2 ^ 64 = b0.val - 248 := by
      omega
    rw [hk] at h
    have h60 : (chLess : Byte).val = 60 := rfl
    have hcases : b0.val - 248 = 0 ∨ b0.val - 248 = 1 ∨ b0.val - 248 = 2 ∨ b0.val - 248 = 3 ∨
        b0.val - 248 = 4 ∨ b0.val - 248 = 5 ∨ b0.val - 248 = 6 ∨ b0.val - 248 = 7 := by omega
    rcases hcases with k | k | k | k | k | k | k | k <;> rw [k] at h <;>
      simp only [List.getElem?_cons_zero, List.getElem?_cons_succ, Option.some.injEq] at h <;>
      (have hv := congrArg Fin.val h
       omega)
  all_goals (simp only [List.length_nil, List.length_cons] at hlen; omega)

/-- The two argument checks of `getFragment`: a call with `total = 0` or with `index > total`
fails with the invalid-argument error. -/
theorem getFragment_invalidArgument (c : Collaborators) (p : BlockProposal) (total index : Nat)
    (h : total = 0 ∨ total < index) : getFragment c p total index = .error .invalidArgument := by
  unfold getFragment
  simp only [CHECK_ARGUMENT_bind]
  rcases h with h | h
  · subst h
    rfl
  · by_cases ht : total > 0
    · have : ¬ index ≤ total := by omega
      simp [ht, this]
    · simp [ht]

/-- The index 0 passes the argument checks of `getFragment`; for a serialized proposal of
`0 < n < 2^63` bytes the start index wraps to `2^64 - s`, and the iterator range lies outside
the block. -/
theorem getFragment_of_index_zero (c : Collaborators) (p p1 : BlockProposal) (sBlock : Bytes)
    (hsh : SHAHash) (total : Nat) (hser : serialize c p = .ok (sBlock, p1))
    (hh : p.hash = some hsh) (hn0 : 0 < sBlock.length) (hn : sBlock.length < 2 ^ 63)
    (ht : 1 ≤ total) :
    getFragment c p total 0 = .error .undefinedBehaviour := by
  have hp1 := serialize_cache c p p1 sBlock hser
  have hh1 : p1.hash = some hsh := by rw [hp1]; exact hh
  rw [getFragment_of_serialize c p p1 sBlock hsh total 0 hser hh1 (by omega) (by omega),
    fragmentStandardSize_eq_ceil _ _ (by omega)]
  have hs1 : 1 ≤ (sBlock.length + total - 1) / total := by
    apply (Nat.le_div_iff_mul_le (by omega)).mpr
    omega
  have hs2 : (sBlock.length + total - 1) / total ≤ sBlock.length := by
    apply Nat.div_le_of_le_mul
    obtain ⟨a, rfl⟩ : ∃ a, total = a + 1 := ⟨total - 1, by omega⟩
    obtain ⟨b, hb⟩ : ∃ b, sBlock.length = b + 1 := ⟨sBlock.length - 1, by omega⟩
    rw [hb]
    have : (a + 1) * (b + 1) = a * b + a + b + 1 := by ring
    omega
  generalize (sBlock.length + total - 1) / total = s at hs1 hs2
  have hstart : fragmentStartIndex s 0 = 2 ^ 64 - s := by
    unfold fragmentStartIndex U64
    have h1 : (0 + 2 ^ 64 - 1) % 2 ^ 64 = 2 ^ 64 - 1 := by norm_num
    rw [h1]
    have h2 : s * (2 ^ 64 - 1) = (2 ^ 64 - s) + (s - 1) * 2 ^ 64 := by
      obtain ⟨k, rfl⟩ : ∃ k, s = k + 1 := ⟨s - 1, by omega⟩
      simp only [Nat.add_sub_cancel]
      have : (k + 1) * (2 ^ 64 - 1) = k * 2 ^ 64 + 2 ^ 64 - (k + 1) := by
        rw [Nat.mul_sub, Nat.mul_one, Nat.add_mul, Nat.one_mul]
      omega
    rw [h2, Nat.add_mul_mod_self_right]
    exact Nat.mod_eq_of_lt (by omega)
  rw [hstart, if_neg (by omega), iterRange, if_neg (by omega)]
  rfl

/-- When the last fragment would start behind the end of the serialized proposal, its iterator
range lies outside the block. -/
theorem getFragment_last_outside_block (c : Collaborators) (p p1 : BlockProposal)
    (sBlock : Bytes) (hsh : SHAHash) (total : Nat) (hser : serialize c p = .ok (sBlock, p1))
    (hh : p.hash = some hsh) (ht : 1 ≤ total) (ht2 : total ≤ 2 ^ 64)
    (hr : sBlock.length < (sBlock.length + total - 1) / total * (total - 1))
    (hw : (sBlock.length + total - 1) / total * (total - 1) < 2 ^ 64) :
    getFragment c p total total = .error .undefinedBehaviour := by
  have hp1 := serialize_cache c p p1 sBlock hser
  have hh1 : p1.hash = some hsh := by rw [hp1]; exact hh
  rw [getFragment_of_serialize c p p1 sBlock hsh total total hser hh1 (by omega) (le_refl _),
    fragmentStandardSize_eq_ceil _ _ (by omega)]
  generalize (sBlock.length + total - 1) / total = s at hr hw
  have hstart : fragmentStartIndex s total = s * (total - 1) := by
    unfold fragmentStartIndex U64
    have h1 : (total + 2 ^ 64 - 1) % 2 ^ 64 = total - 1 := by
      have : total + 2 ^ 64 - 1 = (total - 1) + 2 ^ 64 := by omega
      rw [this, Nat.add_mod_right]
      exact Nat.mod_eq_of_lt (by omega)
    rw [h1]
    exact Nat.mod_eq_of_lt hw
  rw [hstart, if_pos rfl, iterRange, if_neg (by omega)]
  rfl

/-- The steps behind a success of `deserialize`. -/
theorem deserialize_ok_inv (c : Collaborators) (b : Bytes) (m : CryptoManager)
    (p : BlockProposal) (h : deserialize c b m = .ok p) :
    ∃ hdr hd list sig q, extractHeader c b = .ok hdr ∧ parseBlockHeader c hdr = .ok hd ∧
      deserializeTransactions c hd hdr b = .ok list ∧ hd.signature = some sig ∧
      newBlockProposal c hd.schainID hd.proposerNodeID hd.blockID hd.proposerIndex list
        hd.stateRoot hd.timeStamp hd.timeStampMs (some sig) none = .ok q ∧
      verifyProposalECDSA m q hd.blockHash sig = .ok () ∧
      p = { q with serializedProposal := some b } := by
  obtain ⟨hdr, hx⟩ := extractHeader_ok_of_deserialize c b m p h
  unfold deserialize at h
  rw [hx] at h
  simp only [bind_ok_eq] at h
  cases hp : parseBlockHeader c hdr with
  | error e =>
    rw [hp] at h
    cases e <;> simp [bind_error_eq, Exn.isCppException] at h
  | ok hd =>
    rw [hp] at h
    simp only [bind_ok_eq] at h
    cases ht : deserializeTransactions c hd hdr b with
    | error e =>
      rw [ht] at h
      cases h
    | ok list =>
      rw [ht] at h
      simp only [bind_ok_eq, ASSERT_bind] at h
      cases hs : hd.signature with
      | none =>
        rw [hs] at h
        simp at h
      | some sig =>
        rw [hs] at h
        simp only [Option.isSome_some, if_true, Option.getD_some] at h
        cases hn : newBlockProposal c hd.schainID hd.proposerNodeID hd.blockID hd.proposerIndex
            list hd.stateRoot hd.timeStamp hd.timeStampMs (some sig) none with
        | error e =>
          rw [hn] at h
          cases h
        | ok q =>
          rw [hn] at h
          simp only [bind_ok_eq] at h
          cases hv : verifyProposalECDSA m q hd.blockHash sig with
          | error e =>
            rw [hv] at h
            cases h
          | ok u =>
            rw [hv] at h
            cases h
            exact ⟨hdr, hd, list, sig, q, hx, hp, ht, hs, hn, hv, rfl⟩

/-- A header whose time stamp is not modern makes `deserialize` fail. -/
theorem deserialize_old_timeStamp (c : Collaborators) (b : Bytes) (m : CryptoManager)
    (hdr : Bytes) (hd : BlockProposalHeader) (hx : extractHeader c b = .ok hdr)
    (hp : parseBlockHeader c hdr = .ok hd) (hts : hd.timeStamp ≤ c.MODERN_TIME) :
    ∃ e, deserialize c b m = .error e := by
  cases hd' : deserialize c b m with
  | error e => exact ⟨e, rfl⟩
  | ok p =>
    obtain ⟨hdr', hd2, list, sig, q, h1, h2, _, _, h5, _, _⟩ := deserialize_ok_inv c b m p hd'
    rw [hx] at h1
    cases h1
    rw [hp] at h2
    cases h2
    have := (newBlockProposal_ok c _ _ _ _ _ _ _ _ _ _ q h5).2.2.1
    omega

/-- A counted loop whose state after `i` rounds is `g i`. -/
theorem foldlM_range_ok {σ : Type} (f : σ → Nat → Except Exn σ) (g : Nat → σ) (n : Nat)
    (h : ∀ i, i < n → f (g i) i = .ok (g (i + 1))) :
    (List.range n).foldlM f (g 0) = .ok (g n) := by
  induction n with
  | zero => rfl
  | succ n ih =>
    rw [List.range_succ, List.foldlM_append, ih fun i hi => h i (by omega)]
    simp only [bind_ok_eq, List.foldlM_cons, List.foldlM_nil, h n (by omega)]
    rfl

/-- Assignment to the element that follows a prefix. -/
theorem set_after_prefix {α : Type} (A : List α) (x y : α) (rest : List α) :
    (A ++ y :: rest).set A.length x = A ++ x :: rest := by
  induction A with
  | nil => rfl
  | cons a A ih => simp [ih]

/-- One round of the inner loop of `createPartialHashesList`. -/
theorem vecSet_fill (A H : Bytes) (R j : Nat) (b : Byte) (hj : j < R) (hH : H[j]? = some b) :
    vecSet (A ++ H.take j ++ List.replicate (R - j) 0) (A.length + j) b =
      .ok (A ++ H.take (j + 1) ++ List.replicate (R - (j + 1)) 0) := by
  have hjH : j < H.length := by
    rcases List.getElem?_eq_some_iff.mp hH with ⟨h, _⟩
    exact h
  have hlen : (A ++ H.take j).length = A.length + j := by
    simp [List.length_take, Nat.min_eq_left (Nat.le_of_lt hjH)]
  have hrep : List.replicate (R - j) (0 : Byte) = 0 :: List.replicate (R - (j + 1)) 0 := by
    have : R - j = (R - (j + 1)) + 1 := by omega
    rw [this, List.replicate_succ]
  have htake : H.take (j + 1) = H.take j ++ [b] := by
    rw [List.take_succ, hH]
    rfl
  unfold vecSet
  rw [if_pos (by simp [List.length_take]; omega)]
  rw [hrep, ← hlen, set_after_prefix, htake]
  simp

/-- The partial hash of a transaction: the first `PARTIAL_SHA_HASH_LEN` bytes of its hash. -/
theorem partialHash_length (c : Collaborators) (t : Transaction) :
    ((c.txHash t).val.take PARTIAL_SHA_HASH_LEN).length = PARTIAL_SHA_HASH_LEN := by
  simp [(c.txHash t).property, SHA_HASH_LEN, PARTIAL_SHA_HASH_LEN]

/-- The length of the concatenation of lists of one length. -/
theorem flatten_uniform_length {α : Type} (L : List (List α)) (k : Nat)
    (hL : ∀ x ∈ L, x.length = k) : L.flatten.length = k * L.length := by
  induction L with
  | nil => simp
  | cons x xs ih =>
    simp only [List.flatten_cons, List.length_append, List.length_cons]
    rw [ih fun y hy => hL y (List.mem_cons_of_mem _ hy), hL x (List.mem_cons_self _ _)]
    ring

/-- The elements of the concatenation of lists of one length. -/
theorem flatten_uniform_getElem {α : Type} (L : List (List α)) (k : Nat)
    (hL : ∀ x ∈ L, x.length = k) (i j : Nat) (x : List α) (hx : L[i]? = some x) (hj : j < k) :
    L.flatten[k * i + j]? = x[j]? := by
  induction L generalizing i with
  | nil => simp at hx
  | cons y ys ih =>
    have hy : y.length = k := hL y (List.mem_cons_self _ _)
    cases i with
    | zero =>
      simp only [List.getElem?_cons_zero, Option.some.injEq] at hx
      subst hx
      simp only [List.flatten_cons, Nat.mul_zero, Nat.zero_add]
      rw [List.getElem?_append_left (by omega)]
    | succ i =>
      simp only [List.getElem?_cons_succ] at hx
      simp only [List.flatten_cons]
      rw [List.getElem?_append_right (by rw [hy]; nlinarith)]
      have : k * (i + 1) + j - y.length = k * i + j := by
        rw [hy, Nat.mul_succ]
        omega
      rw [this]
      exact ih (fun z hz => hL z (List.mem_cons_of_mem _ hz)) i hx
/-- The list that `createPartialHashesList` returns: the count of the proposal and the partial
hashes of its transactions in list order. -/
theorem createPartialHashesList_ok (c : Collaborators) (p : BlockProposal)
    (hcount : p.transactionCount = p.transactionList.length)
    (hsize : p.transactionList.length * PARTIAL_SHA_HASH_LEN < U64) :
    createPartialHashesList c p =
      .ok { transactionCount := p.transactionList.length
            partialHashes := (p.transactionList.map fun t =>
              (c.txHash t).val.take PARTIAL_SHA_HASH_LEN).flatten } := by
  have hflat : ∀ i, i ≤ p.transactionList.length →
      ((p.transactionList.take i).map fun t =>
        (c.txHash t).val.take PARTIAL_SHA_HASH_LEN).flatten.length = PARTIAL_SHA_HASH_LEN * i := by
    intro i hi
    rw [flatten_uniform_length _ PARTIAL_SHA_HASH_LEN]
    · simp [Nat.min_eq_left hi]
    · intro x hx
      obtain ⟨t, _, rfl⟩ := List.mem_map.mp hx
      exact partialHash_length c t
  have houter := foldlM_range_ok
    (fun (ph : Bytes) i =>
      (List.range PARTIAL_SHA_HASH_LEN).foldlM (fun (ph : Bytes) j => do
        let tx ← vecAt p.transactionList i
        let b ← vecAt (c.txHash tx).val j
        vecSet ph ((i * PARTIAL_SHA_HASH_LEN + j) % U64) b) ph)
    (fun i => ((p.transactionList.take i).map fun t =>
        (c.txHash t).val.take PARTIAL_SHA_HASH_LEN).flatten ++
      List.replicate (PARTIAL_SHA_HASH_LEN * (p.transactionList.length - i)) 0)
    p.transactionList.length
    (by
      intro i hi
      obtain ⟨tx, htx⟩ : ∃ tx, p.transactionList[i]? = some tx :=
        ⟨p.transactionList[i], List.getElem?_eq_getElem hi⟩
      have hinner := foldlM_range_ok
        (fun (ph : Bytes) j => do
          let tx ← vecAt p.transactionList i
          let b ← vecAt (c.txHash tx).val j
          vecSet ph ((i * PARTIAL_SHA_HASH_LEN + j) % U64) b)
        (fun j => ((p.transactionList.take i).map fun t =>
            (c.txHash t).val.take PARTIAL_SHA_HASH_LEN).flatten ++
          (c.txHash tx).val.take j ++
          List.replicate (PARTIAL_SHA_HASH_LEN * (p.transactionList.length - i) - j) 0)
        PARTIAL_SHA_HASH_LEN
        (by
          intro j hj
          have hjH : j < (c.txHash tx).val.length := by
            rw [(c.txHash tx).property]
            simp only [PARTIAL_SHA_HASH_LEN, SHA_HASH_LEN] at hj ⊢
            omega
          have hb : (c.txHash tx).val[j]? = some ((c.txHash tx).val[j]) :=
            List.getElem?_eq_getElem hjH
          have hidx : (i * PARTIAL_SHA_HASH_LEN + j) % U64 =
              ((p.transactionList.take i).map fun t =>
                (c.txHash t).val.take PARTIAL_SHA_HASH_LEN).flatten.length + j := by
            rw [hflat i (by omega), Nat.mod_eq_of_lt]
            · rw [Nat.mul_comm]
            · simp only [PARTIAL_SHA_HASH_LEN] at hj hsize ⊢
              omega
          simp only [vecAt, htx, hb, bind_ok_eq, hidx]
          exact vecSet_fill _ _ _ j _ (by
            simp only [PARTIAL_SHA_HASH_LEN] at hj ⊢
            omega) hb)
      simp only [List.take_zero, List.append_nil, Nat.sub_zero] at hinner
      beta_reduce
      rw [hinner]
      congr 1
      rw [List.take_succ, htx]
      simp only [Option.toList_some, List.map_append, List.map_cons, List.map_nil,
        List.flatten_append, List.flatten_cons, List.flatten_nil, List.append_nil,
        List.append_assoc]
      congr 2
      congr 1
      simp only [PARTIAL_SHA_HASH_LEN]
      omega)
  simp only [List.take_zero, List.map_nil, List.flatten_nil, List.nil_append, Nat.sub_zero,
    Nat.sub_self, Nat.mul_zero, List.replicate_zero, List.append_nil, List.take_length]
    at houter
  unfold createPartialHashesList
  rw [hcount, Nat.mod_eq_of_lt hsize, Nat.mul_comm]
  simp only [houter, bind_ok_eq]
  rfl

/-- The outcome of `addDAProof` on a proof whose index is already in the set of its block. -/
theorem addDAProof_present (db : DAProofDB) (d : DAProof)
    (h : d.proposerIndex ∈ (db.setOf d.blockId).map Prod.fst) :
    addDAProof db d = (.error .duplicateShare, db) := by
  have h' : ((db.setOf d.blockId).map Prod.fst).contains d.proposerIndex = true := by
    simpa using h
  simp only [addDAProof, writeStringToSet, h', if_true]

/-- A loop over a list keeps an invariant that each of its rounds keeps. -/
theorem foldlM_invariant {σ α : Type} (P : σ → Prop) (f : σ → α → Except Exn σ) (l : List α)
    (hstep : ∀ s a, a ∈ l → P s → ∃ s', f s a = .ok s' ∧ P s') :
    ∀ s, P s → ∃ s', l.foldlM f s = .ok s' ∧ P s' := by
  induction l with
  | nil => exact fun s hs => ⟨s, rfl, hs⟩
  | cons a l ih =>
    intro s hs
    obtain ⟨s1, h1, hs1⟩ := hstep s a (List.mem_cons_self _ _) hs
    obtain ⟨s2, h2, hs2⟩ := ih (fun s a ha => hstep s a (List.mem_cons_of_mem _ ha)) s1 hs1
    exact ⟨s2, by rw [List.foldlM_cons, h1]; exact h2, hs2⟩

/-- The transaction of one round of `pendingTransactions` has 200 bytes. -/
theorem testTransaction_length (counter : Nat) :
    ∃ tr, testTransaction 200 counter = .ok tr ∧ tr.length = 200 := by
  unfold testTransaction
  refine foldlM_invariant (fun (tr : Bytes) => tr.length = 200) _ _ ?_ _ (by simp)
  intro tr j hj htr
  refine foldlM_invariant (fun (tr : Bytes) => tr.length = 200) _ _ ?_ tr htr
  intro tr' k hk htr'
  simp only [List.mem_range] at hj hk
  refine ⟨tr'.set (2 * j + k) ((natToLe 8 counter).getD k 0), ?_, by simpa using htr'⟩
  unfold vecSet
  rw [if_pos (by omega)]

/-- The loop of `pendingTransactions` runs its rounds: it appends one transaction of 200 bytes
in each and counts modulo `2 ^ 64`. -/
theorem pendingTransactionsLoop_ok (n : Nat) : ∀ (counter : Nat) (result : List Bytes),
    counter < U64 →
    ∃ added, pendingTransactionsLoop 200 n counter result =
        .ok (result ++ added, (counter + n) % U64) ∧
      added.length = n ∧ ∀ t ∈ added, t.length = 200 := by
  induction n with
  | zero =>
    intro counter result hc
    exact ⟨[], by simp [pendingTransactionsLoop, Nat.mod_eq_of_lt hc], rfl, by simp⟩
  | succ n ih =>
    intro counter result hc
    obtain ⟨tr, htr, hlen⟩ := testTransaction_length counter
    obtain ⟨added, hadd, hl, hall⟩ :=
      ih ((counter + 1) % U64) (result ++ [tr]) (Nat.mod_lt _ (by simp [U64]))
    refine ⟨tr :: added, ?_, by simp [hl], ?_⟩
    · simp only [pendingTransactionsLoop, htr, bind_ok_eq, hadd, List.append_assoc,
        List.singleton_append]
      rw [Nat.mod_add_mod, Nat.add_assoc, Nat.add_comm 1 n]
    · intro t ht
      rcases List.mem_cons.mp ht with h | h
      · rw [h]
        exact hlen
      · exact hall t h

/-- The list of partial hashes of a proposal that the constructor built with a signature: its
count and its number of bytes, whatever `MAX_BUFFER_SIZE` is. -/
theorem createPartialHashesList_of_new (c : Collaborators) (sc nd bl ix : Nat)
    (txs : List Transaction) (sr ts tsMs : Nat) (sig : Bytes) (d : BlockProposal)
    (hts : c.MODERN_TIME < ts) (hsize : txs.length * PARTIAL_SHA_HASH_LEN < U64) :
    (okOr (newBlockProposal c sc nd bl ix txs sr ts tsMs (some sig) none) d).transactionCount =
      txs.length ∧
    (createPartialHashesList c
      (okOr (newBlockProposal c sc nd bl ix txs sr ts tsMs (some sig) none) d)).map
      (fun l => (l.transactionCount, l.partialHashes.length)) =
        .ok (txs.length, 16 * txs.length) := by
  rw [newBlockProposal_of_signature c sc nd bl ix txs sr ts tsMs sig hts]
  simp only [okOr]
  refine ⟨rfl, ?_⟩
  have h := createPartialHashesList_ok c
    { calculateHash c
        { schainID := sc, proposerNodeID := nd, blockID := bl, proposerIndex := ix,
          transactionCount := txs.length, timeStamp := ts, timeStampMs := tsMs,
          stateRoot := sr, transactionList := txs, hash := none, signature := some sig,
          serializedProposal := none } with signature := some sig } rfl hsize
  rw [h]
  simp only [Except.map, calculateHash, Except.ok.injEq, Prod.mk.injEq, true_and]
  rw [flatten_uniform_length _ 16, List.length_map]
  intro x hx
  obtain ⟨t, _, rfl⟩ := List.mem_map.mp hx
  exact partialHash_length c t

/-- A loop that assigns `f k` to the element `base + k` for `k < n` replaces the `n` elements
that follow a prefix of `base` elements. -/
theorem foldlM_overwrite (f : Nat → Byte) (n base : Nat) (pre xs post : Bytes)
    (hxs : xs.length = n) (hbase : pre.length = base) :
    (List.range n).foldlM (fun (tr : Bytes) k => vecSet tr (base + k) (f k))
      (pre ++ xs ++ post) = .ok (pre ++ (List.range n).map f ++ post) := by
  have h := foldlM_range_ok (fun (tr : Bytes) k => vecSet tr (base + k) (f k))
    (fun k => pre ++ (List.range k).map f ++ (xs.drop k ++ post)) n
    (by
      intro k hk
      beta_reduce
      have hd : xs.drop k = xs[k] :: xs.drop (k + 1) := List.drop_eq_getElem_cons (by omega)
      have hl : (pre ++ (List.range k).map f).length = base + k := by simp [hbase]
      rw [hd]
      unfold vecSet
      rw [if_pos (by simp; omega), ← hl, List.cons_append, set_after_prefix]
      simp [List.range_succ])
  simp only [List.range_zero, List.map_nil, List.append_nil, List.drop_zero] at h
  rw [← List.append_assoc] at h
  rw [h, List.drop_of_length_le (by omega), List.nil_append]
/-- The two loops of `testTransaction` on a transaction of 200 zero bytes. -/
theorem testTransaction_fill (f : Nat → Byte) :
    (List.range 25).foldlM (fun (transaction : Bytes) j =>
      (List.range 7).foldlM (fun (transaction : Bytes) k =>
        vecSet transaction (2 * j + k) (f k)) transaction) (List.replicate 200 0) =
      .ok ((List.replicate 24 [f 0, f 1]).flatten ++ (List.range 7).map f ++
        List.replicate 145 0) := by
  have hF : (List.range 7).map f = [f 0, f 1, f 2, f 3, f 4, f 5, f 6] := by
    simp [List.range, List.range.loop]
  have hround0 := foldlM_overwrite f 7 0 [] (List.replicate 7 0) (List.replicate 193 0)
    (by simp) rfl
  rw [List.nil_append, ← List.replicate_add, List.nil_append] at hround0
  have houter := foldlM_range_ok
    (fun (transaction : Bytes) j =>
      (List.range 7).foldlM (fun (transaction : Bytes) k =>
        vecSet transaction (2 * (j + 1) + k) (f k)) transaction)
    (fun j => (List.replicate j [f 0, f 1]).flatten ++ (List.range 7).map f ++
      List.replicate (193 - 2 * j) 0) 24
    (by
      intro j hj
      beta_reduce
      have hz : List.replicate (193 - 2 * j) (0 : Byte) =
          0 :: 0 :: List.replicate (191 - 2 * j) 0 := by
        have : 193 - 2 * j = (191 - 2 * j) + 1 + 1 := by omega
        rw [this, List.replicate_succ, List.replicate_succ]
      have hpre : ((List.replicate j [f 0, f 1]).flatten ++ [f 0, f 1]).length =
          2 * (j + 1) := by
        rw [List.length_append, flatten_uniform_length _ 2 (by
          intro x hx
          rw [List.eq_of_mem_replicate hx]
          rfl), List.length_replicate]
        simp
        omega
      have hstep := foldlM_overwrite f 7 (2 * (j + 1))
        ((List.replicate j [f 0, f 1]).flatten ++ [f 0, f 1]) [f 2, f 3, f 4, f 5, f 6, 0, 0]
        (List.replicate (191 - 2 * j) 0) rfl hpre
      have hstate : (List.replicate j [f 0, f 1]).flatten ++ (List.range 7).map f ++
          List.replicate (193 - 2 * j) 0 =
          ((List.replicate j [f 0, f 1]).flatten ++ [f 0, f 1]) ++
            [f 2, f 3, f 4, f 5, f 6, 0, 0] ++ List.replicate (191 - 2 * j) 0 := by
        rw [hF, hz]
        simp
      have hnext : (List.replicate (j + 1) [f 0, f 1]).flatten =
          (List.replicate j [f 0, f 1]).flatten ++ [f 0, f 1] := by
        rw [List.replicate_succ', List.flatten_append]
        simp
      have h191 : 193 - 2 * (j + 1) = 191 - 2 * j := by omega
      rw [hstate, hstep, hnext, h191])
  simp only [List.replicate_zero, List.flatten_nil, List.nil_append, Nat.mul_zero,
    Nat.sub_zero] at houter
  have h25 : List.range 25 = 0 :: (List.range 24).map Nat.succ := List.range_succ_eq_map 24
  rw [h25, List.foldlM_cons]
  simp only [Nat.mul_zero]
  rw [show (7 + 193 : Nat) = 200 from rfl] at hround0
  rw [hround0, bind_ok_eq, List.foldlM_map]
  rw [show (193 - 2 * 24 : Nat) = 145 from rfl] at houter
  exact houter
/-- The transaction of one round of `pendingTransactions`. -/
theorem testTransaction_eq (counter : Nat) :
    testTransaction 200 counter = .ok (testTransactionBytes (natToLe 8 counter)) := by
  unfold testTransaction
  rw [show (200 / 8 : Nat) = 25 from rfl]
  exact testTransaction_fill fun k => (natToLe 8 counter).getD k 0

/-- The little-endian bytes of a number depend on its remainder only. -/
theorem natToLe_mod (w x : Nat) : natToLe w (x % 256 ^ w) = natToLe w x := by
  induction w generalizing x with
  | zero => rfl
  | succ w ih =>
    simp only [natToLe]
    have h1 : x % 256 ^ (w + 1) / 256 = x / 256 % 256 ^ w := by
      rw [pow_succ, Nat.mul_comm, Nat.mod_mul_right_div_self]
    have h2 : (Fin.ofNat (x % 256 ^ (w + 1)) : Byte) = Fin.ofNat x := by
      apply Fin.ext
      simp only [Fin.ofNat]
      exact Nat.mod_mod_of_dvd x (Dvd.intro_left (256 ^ w) (by rw [pow_succ]))
    rw [h1, h2, ih]

/-- Bytes 48 to 54 of a generated transaction are the seven low-order bytes of the counter. -/
theorem testTransactionBytes_low (x : Nat) :
    ((testTransactionBytes (natToLe 8 x)).drop 48).take 7 = natToLe 7 x := by
  simp [testTransactionBytes, natToLe, List.range, List.range.loop]

/-- A generated transaction depends on the seven low-order bytes of the counter only. -/
theorem testTransactionBytes_of_low (x : Nat) :
    testTransactionBytes (natToLe 8 x) =
      (List.replicate 24 [(natToLe 7 x).getD 0 0, (natToLe 7 x).getD 1 0]).flatten ++
        natToLe 7 x ++ List.replicate 145 0 := by
  simp [testTransactionBytes, natToLe, List.range, List.range.loop]

/-- Two generated transactions are equal exactly when the counters agree modulo `2 ^ 56`. -/
theorem testTransactionBytes_eq_iff (x y : Nat) :
    testTransactionBytes (natToLe 8 x) = testTransactionBytes (natToLe 8 y) ↔
      x % 2 ^ 56 = y % 2 ^ 56 := by
  constructor
  · intro h
    have h7 : natToLe 7 x = natToLe 7 y := by
      rw [← testTransactionBytes_low x, ← testTransactionBytes_low y, h]
    have := congrArg leToNat h7
    rw [leToNat_natToLe, leToNat_natToLe] at this
    simpa using this
  · intro h
    have h7 : natToLe 7 x = natToLe 7 y := by
      rw [← natToLe_mod 7 x, ← natToLe_mod 7 y]
      have e : (256 : Nat) ^ 7 = 2 ^ 56 := by norm_num
      rw [e, h]
    rw [testTransactionBytes_of_low, testTransactionBytes_of_low, h7]
/-- The loop of `pendingTransactions`: round `i` appends the transaction of the counter
`counter + i`, taken modulo `2 ^ 64`. -/
theorem pendingTransactionsLoop_eq (n : Nat) : ∀ (counter : Nat) (result : List Bytes),
    counter < U64 →
    pendingTransactionsLoop 200 n counter result =
      .ok (result ++ (List.range n).map (fun i =>
        testTransactionBytes (natToLe 8 ((counter + i) % U64))), (counter + n) % U64) := by
  induction n with
  | zero =>
    intro counter result hc
    simp [pendingTransactionsLoop, Nat.mod_eq_of_lt hc]
  | succ n ih =>
    intro counter result hc
    simp only [pendingTransactionsLoop, testTransaction_eq, bind_ok_eq]
    rw [ih ((counter + 1) % U64) _ (Nat.mod_lt _ (by simp [U64])), List.range_succ_eq_map,
      List.map_cons, List.map_map, List.append_assoc, List.singleton_append]
    have e0 : (counter + 0) % U64 = counter := by rw [Nat.add_zero, Nat.mod_eq_of_lt hc]
    have e2 : ∀ i, ((counter + 1) % U64 + i) % U64 = (counter + (i + 1)) % U64 := by
      intro i
      rw [Nat.mod_add_mod, Nat.add_assoc, Nat.add_comm 1 i]
    simp only [e0, e2]
    rfl

/-- The transactions of fewer than `2 ^ 56` rounds in a row are pairwise distinct. -/
theorem testTransactions_nodup (counter limit : Nat) (hl : limit ≤ 2 ^ 56) :
    ((List.range limit).map fun i =>
      testTransactionBytes (natToLe 8 ((counter + i) % U64))).Nodup := by
  refine List.Nodup.map_on ?_ (List.nodup_range limit)
  intro i hi j hj h
  rw [testTransactionBytes_eq_iff] at h
  simp only [List.mem_range] at hi hj
  have e : ∀ x, x % U64 % 2 ^ 56 = x % 2 ^ 56 := fun x =>
    Nat.mod_mod_of_dvd x (by simp only [U64]; exact Dvd.intro (2 ^ 8) (by norm_num))
  rw [e, e] at h
  have h56 : (2 : Nat) ^ 56 = 72057594037927936 := by norm_num
  rw [h56] at h hl
  omega
/-- The first 55 bytes of a generated transaction. -/
theorem testTransactionBytes_head_length (bytes : Bytes) :
    ((List.replicate 24 [bytes.getD 0 0, bytes.getD 1 0]).flatten ++
      (List.range 7).map (fun k => bytes.getD k 0)).length = 55 := by
  rw [List.length_append, flatten_uniform_length _ 2 (by
    intro x hx
    rw [List.eq_of_mem_replicate hx]
    rfl), List.length_replicate, List.length_map, List.length_range]

/-- A generated transaction has 200 bytes, and its bytes from 55 on are zero. -/
theorem testTransactionBytes_tail (bytes : Bytes) :
    (testTransactionBytes bytes).length = 200 ∧
    ∀ i, 55 ≤ i → i < 200 → (testTransactionBytes bytes)[i]? = some 0 := by
  have h55 := testTransactionBytes_head_length bytes
  refine ⟨by unfold testTransactionBytes; rw [List.length_append, h55, List.length_replicate],
    ?_⟩
  intro i h1 h2
  unfold testTransactionBytes
  rw [List.getElem?_append_right (by omega), h55, List.getElem?_replicate]
  rw [if_pos (by omega)]

/-- The connections received and the queue left are the queue and the pushed connections. -/
theorem runQueueOps_fifo (ops : List QueueOp) : ∀ queue : List ServerConnection,
    (runQueueOps queue ops).1 ++ (runQueueOps queue ops).2 = queue ++ pushedConnections ops := by
  induction ops with
  | nil => intro queue; simp [runQueueOps, pushedConnections]
  | cons op ops ih =>
    intro queue
    cases op with
    | push c =>
      simp only [runQueueOps, pushedConnections, ih, pushToQueueAndNotifyWorkers]
      simp
    | pop =>
      cases queue with
      | nil => simpa [runQueueOps, pushedConnections, workerThreadWaitandPopConnection] using ih []
      | cons ce rest =>
        simpa [runQueueOps, pushedConnections, workerThreadWaitandPopConnection, ASSERT]
          using ih rest

/-- With nothing but pushes the queue grows by one connection for each. -/
theorem runQueueOps_pushes (c : ServerConnection) (n : Nat) :
    ∀ queue : List ServerConnection,
      (runQueueOps queue (List.replicate n (.push c))).2.length = queue.length + n := by
  induction n with
  | zero => intro queue; simp [runQueueOps]
  | succ n ih =>
    intro queue
    simp only [List.replicate_succ, runQueueOps, ih, pushToQueueAndNotifyWorkers,
      List.length_append, List.length_singleton]
    omega

/-- The events of the worker loop close each popped connection before the next is popped. -/
theorem workerLoop_closedBeforeNext (rounds : List WorkerRound)
    (hexc : ∀ r ∈ rounds, ∀ c e, r.processNextAvailableConnection c = .error e →
      e.isStdException = true) :
    closedBeforeNext none (workerThreadConnectionProcessingLoop rounds).1 = true := by
  induction rounds with
  | nil => rfl
  | cons r rs ih =>
    have ih' := ih fun r' hr' => hexc r' (List.mem_cons_of_mem _ hr')
    have hr := hexc r (List.mem_cons_self _ _)
    unfold workerThreadConnectionProcessingLoop
    by_cases hx : r.exitRequested = true
    · simp [hx, closedBeforeNext]
    · simp only [hx, Bool.false_eq_true, if_false]
      cases hp : (workerThreadWaitandPopConnection r.queue r.wakes).1 with
      | none => simp [closedBeforeNext]
      | some out =>
        cases out with
        | error e =>
          by_cases he : e.isStdException = true
          · simp [he, closedBeforeNext, ih']
          · simp [he, closedBeforeNext]
        | ok c =>
          cases hq : r.processNextAvailableConnection c with
          | ok u => simp [hq, closedBeforeNext, ih']
          | error e => simp [hq, hr c e hq, closedBeforeNext, ih']

/-- The counts of pushes and of accepts in a list of events, event by event. -/
theorem eventCounts (events : List ServerEvent) (fd : Int) (c : ServerConnection) :
    pushCount (.accepted fd :: events) = pushCount events ∧
    pushCount (.pushed c :: events) = pushCount events + 1 ∧
    acceptCount (.accepted fd :: events) = acceptCount events + 1 ∧
    acceptCount (.pushed c :: events) = acceptCount events ∧
    pushCount [] = 0 ∧ acceptCount [] = 0 := by
  simp [pushCount, acceptCount]

/-- A round of the listener in which no check sees the exit request and `accept` returns a
descriptor: the connection is pushed and the loop goes on. -/
theorem acceptLoop_round (queue : List ServerConnection) (p : AcceptRound)
    (rs : List AcceptRound) (h1 : p.exitBefore = false) (h2 : p.exitAfter = false)
    (h3 : ¬ p.newConnection < 0) :
    acceptLoop queue (p :: rs) =
      (.accepted p.newConnection :: .pushed { descriptor := p.newConnection, ip := p.ip } ::
        (acceptLoop (pushToQueueAndNotifyWorkers queue
          { descriptor := p.newConnection, ip := p.ip }) rs).1,
       (acceptLoop (pushToQueueAndNotifyWorkers queue
          { descriptor := p.newConnection, ip := p.ip }) rs).2) := by
  simp [acceptLoop, h1, h2, h3]

/-- Once a check of the listener sees the exit request, the rounds that follow change nothing:
it has pushed at most one connection for each earlier round and has returned or thrown. -/
theorem acceptLoop_after_exit (pre : List AcceptRound) (r : AcceptRound)
    (post : List AcceptRound) (hr : r.exitBefore = true ∨ r.exitAfter = true) :
    ∀ queue : List ServerConnection,
      acceptLoop queue (pre ++ r :: post) = acceptLoop queue (pre ++ [r]) ∧
      pushCount (acceptLoop queue (pre ++ r :: post)).1 ≤ pre.length ∧
      acceptCount (acceptLoop queue (pre ++ r :: post)).1 ≤ pre.length + 1 ∧
      (acceptLoop queue (pre ++ r :: post)).2.2 ≠ .running := by
  induction pre with
  | nil =>
    intro queue
    by_cases h1 : r.exitBefore = true
    · simp [acceptLoop, h1, pushCount, acceptCount]
    · have h2 : r.exitAfter = true := by
        rcases hr with h | h
        · exact absurd h h1
        · exact h
      simp [acceptLoop, h1, h2, pushCount, acceptCount]
  | cons p pre ih =>
    intro queue
    by_cases h1 : p.exitBefore = true
    · simp [acceptLoop, h1, pushCount, acceptCount]
    · by_cases h2 : p.exitAfter = true
      · simp [acceptLoop, h1, h2, pushCount, acceptCount]
      · by_cases h3 : p.newConnection < 0
        · simp [acceptLoop, h1, h2, h3, pushCount, acceptCount]
        · obtain ⟨e1, e2, e3, e4⟩ := ih (pushToQueueAndNotifyWorkers queue
            { descriptor := p.newConnection, ip := p.ip })
          have h1' : p.exitBefore = false := by simpa using h1
          have h2' : p.exitAfter = false := by simpa using h2
          rw [List.cons_append, List.cons_append, acceptLoop_round queue p _ h1' h2' h3,
            acceptLoop_round queue p _ h1' h2' h3, e1]
          rw [e1] at e2 e3 e4
          refine ⟨rfl, ?_, ?_, e4⟩
          · rw [(eventCounts _ p.newConnection { descriptor := p.newConnection, ip := p.ip }).1,
              (eventCounts _ p.newConnection { descriptor := p.newConnection, ip := p.ip }).2.1,
              List.length_cons]
            omega
          · rw [(eventCounts _ p.newConnection
                { descriptor := p.newConnection, ip := p.ip }).2.2.1,
              (eventCounts _ p.newConnection
                { descriptor := p.newConnection, ip := p.ip }).2.2.2.1, List.length_cons]
            omega

/-- The fragment that `getFragment` returns when the bytes of this one fragment lie inside the
block: for `index < total` the range `[s*(index-1), s*index)`, for `index = total` the range
from `s*(total-1)` to the end. -/
theorem getFragment_in_range (c : Collaborators) (p p1 : BlockProposal) (sBlock : Bytes)
    (hsh : SHAHash) (total index : Nat)
    (hser : serialize c p = .ok (sBlock, p1)) (hh : p.hash = some hsh)
    (hn : sBlock.length < 2 ^ 64) (h1 : 1 ≤ index) (hi : index ≤ total)
    (hmid : index < total → (sBlock.length + total - 1) / total * index ≤ sBlock.length)
    (hlast : index = total →
      (sBlock.length + total - 1) / total * (total - 1) ≤ sBlock.length) :
    ∃ slice, getFragment c p total index =
        .ok (fragmentOf p total index sBlock.length hsh slice, p1) ∧
      (fragmentOf p total index sBlock.length hsh slice).data =
        [chLess] ++ slice ++ [chGreater] ∧
      (index < total →
        slice = (sBlock.drop ((sBlock.length + total - 1) / total * (index - 1))).take
          ((sBlock.length + total - 1) / total) ∧
        slice.length = (sBlock.length + total - 1) / total) ∧
      (index = total →
        slice = sBlock.drop ((sBlock.length + total - 1) / total * (total - 1)) ∧
        slice.length = sBlock.length - (sBlock.length + total - 1) / total * (total - 1)) := by
  have ht : 0 < total := by omega
  have hp1 := serialize_cache c p p1 sBlock hser
  have hh1 : p1.hash = some hsh := by rw [hp1]; exact hh
  have hfrag : ∀ slice, fragmentOf p1 total index sBlock.length hsh slice =
      fragmentOf p total index sBlock.length hsh slice := by
    intro slice; rw [hp1]; rfl
  rw [getFragment_of_serialize c p p1 sBlock hsh total index hser hh1 ht hi,
    fragmentStandardSize_eq_ceil _ _ ht]
  generalize hs : (sBlock.length + total - 1) / total = s at hmid hlast ⊢
  have hstep : s * (index - 1) + s = s * index := by
    have : index = (index - 1) + 1 := by omega
    conv_rhs => rw [this, Nat.mul_add, Nat.mul_one]
  by_cases hidx : index = total
  · have hlo : s * (index - 1) ≤ sBlock.length := by rw [hidx]; exact hlast hidx
    rw [fragmentStartIndex_eq s index index sBlock.length h1 (le_refl _) hlo hn]
    subst hidx
    refine ⟨sBlock.drop (s * (index - 1)), ?_, rfl, fun hlt => absurd hlt (by omega), fun _ => ?_⟩
    · simp only [if_true, iterRange]
      rw [if_pos ⟨by omega, le_refl _⟩]
      simp only [Except.map, hfrag]
      congr 3
      apply List.take_of_length_le
      simp
    · exact ⟨rfl, by simp⟩
  · have hlt : index < total := by omega
    have hup := hmid hlt
    have hlo : s * (index - 1) ≤ sBlock.length := by omega
    rw [fragmentStartIndex_eq s index index sBlock.length h1 (le_refl _) hlo hn]
    refine ⟨(sBlock.drop (s * (index - 1))).take s, ?_, rfl, fun _ => ⟨rfl, ?_⟩,
      fun e => absurd e hidx⟩
    · simp only [if_neg hidx, iterRange]
      rw [if_pos ⟨by omega, by omega⟩]
      simp only [Except.map, hfrag, Nat.add_sub_cancel_left]
    · simp
      omega
/-- C2: when `extractHeader` (or `deserialize`) does not fail on `b`, the length `len` in the
first 8 bytes satisfies `len ≥ 2` and `len + 8 ≤ |b|`, byte 8 is `{`, byte `8 + len` is `<` and
the last byte is `>`; an input that violates one of the five conditions is rejected by both,
as are inputs shorter than 10 bytes, inputs with `len + 8 = |b|`, and inputs whose `len + 8`
reaches `2^64`. This holds for every value of `MAX_BUFFER_SIZE`. -/
theorem extractHeader_framing (c : Collaborators) (b : Bytes) :
    (((∃ hdr, extractHeader c b = .ok hdr) ∨ (∃ m p, deserialize c b m = .ok p)) →
      2 ≤ leToNat (b.take 8) ∧ leToNat (b.take 8) + 8 ≤ b.length ∧
      b[8]? = some chOpenBrace ∧ b[8 + leToNat (b.take 8)]? = some chLess ∧
      b.getLast? = some chGreater) ∧
    (¬ (2 ≤ leToNat (b.take 8) ∧ leToNat (b.take 8) + 8 ≤ b.length ∧
        b[8]? = some chOpenBrace ∧ b[8 + leToNat (b.take 8)]? = some chLess ∧
        b.getLast? = some chGreater) →
      ∃ e, extractHeader c b = .error e ∧ ∀ m, deserialize c b m = .error e) ∧
    (b.length < 10 → ∃ e, extractHeader c b = .error e) ∧
    (leToNat (b.take 8) + 8 = b.length → ∃ e, extractHeader c b = .error e) ∧
    (2 ^ 64 ≤ leToNat (b.take 8) + 8 → ∃ e, extractHeader c b = .error e) := by
  have key : ∀ hdr, extractHeader c b = .ok hdr →
      2 ≤ leToNat (b.take 8) ∧ leToNat (b.take 8) + 8 < b.length ∧
      leToNat (b.take 8) + 8 < 2 ^ 64 ∧ 10 ≤ b.length ∧
      b[8]? = some chOpenBrace ∧ b[8 + leToNat (b.take 8)]? = some chLess ∧
      b.getLast? = some chGreater := by
    intro hdr h
    obtain ⟨h1, h2, _, _, h5, h6, h7, _⟩ := (extractHeader_ok_iff c b hdr).mp h
    have hlt : leToNat (b.take 8) + 8 < 2 ^ 64 := no_wrap_of_less b h1 h5
    have hmod : (leToNat (b.take 8) + 8) % U64 = leToNat (b.take 8) + 8 :=
      Nat.mod_eq_of_lt hlt
    rw [hmod] at h5
    have hlen := (List.getElem?_eq_some_iff.mp h5).1
    refine ⟨h2, hlen, hlt, h1, h6, ?_, h7⟩
    rw [Nat.add_comm]
    exact h5
  have fails : ∀ (P : Prop), (∀ hdr, extractHeader c b = .ok hdr → P) → ¬ P →
      ∃ e, extractHeader c b = .error e := by
    intro P hP hn
    cases hx : extractHeader c b with
    | ok hdr => exact absurd (hP hdr hx) hn
    | error e => exact ⟨e, rfl⟩
  refine ⟨?_, ?_, ?_, ?_, ?_⟩
  · rintro (⟨hdr, h⟩ | ⟨m, p, h⟩)
    · obtain ⟨a1, a2, _, _, a5, a6, a7⟩ := key hdr h
      exact ⟨a1, by omega, a5, a6, a7⟩
    · obtain ⟨hdr, h⟩ := extractHeader_ok_of_deserialize c b m p h
      obtain ⟨a1, a2, _, _, a5, a6, a7⟩ := key hdr h
      exact ⟨a1, by omega, a5, a6, a7⟩
  · intro hn
    obtain ⟨e, he⟩ := fails _ (fun hdr h => by
      obtain ⟨a1, a2, _, _, a5, a6, a7⟩ := key hdr h
      exact (⟨a1, by omega, a5, a6, a7⟩ : 2 ≤ leToNat (b.take 8) ∧
        leToNat (b.take 8) + 8 ≤ b.length ∧ b[8]? = some chOpenBrace ∧
        b[8 + leToNat (b.take 8)]? = some chLess ∧ b.getLast? = some chGreater)) hn
    exact ⟨e, he, fun m => deserialize_of_extractHeader_error c b m e he⟩
  · intro hlt
    exact fails (10 ≤ b.length) (fun hdr h => (key hdr h).2.2.2.1) (by omega)
  · intro heq
    exact fails (leToNat (b.take 8) + 8 < b.length) (fun hdr h => (key hdr h).2.1) (by omega)
  · intro hge
    exact fails (leToNat (b.take 8) + 8 < 2 ^ 64) (fun hdr h => (key hdr h).2.2.1) (by omega)

/-- C2, witness: the envelope `smallEnvelope` passes `extractHeader`, which returns its header
`{}`, and the five conditions of C2 hold for it; the same envelope without its payload has
`len + 8 = |b|` and is rejected, and so is an envelope whose length field is `2^64 - 8`. -/
theorem extractHeader_framing_witness :
    extractHeader specCollaborators smallEnvelope = .ok [chOpenBrace, chCloseBrace] ∧
    (2 ≤ leToNat (smallEnvelope.take 8) ∧ leToNat (smallEnvelope.take 8) + 8 ≤
        smallEnvelope.length ∧
      smallEnvelope[8]? = some chOpenBrace ∧
      smallEnvelope[8 + leToNat (smallEnvelope.take 8)]? = some chLess ∧
      smallEnvelope.getLast? = some chGreater) ∧
    (extractHeader specCollaborators (natToLe 8 2 ++ [chOpenBrace, chGreater])).toBool = false ∧
    (extractHeader specCollaborators
      (natToLe 8 (2 ^ 64 - 8) ++ [chOpenBrace, chCloseBrace, chLess, chGreater])).toBool =
      false :=
  ⟨by decide,
    (extractHeader_framing specCollaborators smallEnvelope).1
      (Or.inl ⟨[chOpenBrace, chCloseBrace], by decide⟩),
    match (extractHeader_framing specCollaborators
      (natToLe 8 2 ++ [chOpenBrace, chGreater])).2.2.2.1 (by decide) with
    | ⟨_, he⟩ => by rw [he]; rfl,
    match (extractHeader_framing specCollaborators
      (natToLe 8 (2 ^ 64 - 8) ++ [chOpenBrace, chCloseBrace, chLess, chGreater])).2.2.2.2
      (by decide) with
    | ⟨_, he⟩ => by rw [he]; rfl⟩

/-- C1, as amended: for every proposal `p` built by the constructor (exactly one signature
source, `timeStamp > MODERN_TIME`) whose signature the crypto manager accepts for its hash,
`deserialize` applied to the bytes of `serialize` succeeds, and the proposal it yields has the
hash, the identifiers, the time stamps, the state root, the transaction list and the signature
of `p`. The collaborators are taken by their contracts at `p`: the header text has more than 2
and at most `MAX_BUFFER_SIZE` bytes and parses back to the header, and the transaction list
parses back from its place in the bytes. -/
theorem deserialize_serialize_roundtrip (c : Collaborators) (m : CryptoManager)
    (sc nd bl ix : Nat) (txs : List Transaction) (sr ts tsMs : Nat) (sig : Option Bytes)
    (mgr : Option CryptoManager) (p p1 : BlockProposal) (b : Bytes) (hd : BlockProposalHeader)
    (hsh : SHAHash) (sg : Bytes)
    (hnew : newBlockProposal c sc nd bl ix txs sr ts tsMs sig mgr = .ok p)
    (hser : serialize c p = .ok (b, p1))
    (hhd : createHeader c p = .ok hd)
    (hlen : 2 < (c.headerJson hd).length ∧ (c.headerJson hd).length ≤ c.MAX_BUFFER_SIZE)
    (hmax : c.MAX_BUFFER_SIZE + 8 < 2 ^ 64)
    (hjson : c.jsonToHeader (c.headerJson hd) = .ok hd)
    (htx : c.txListDeserialize hd.transactionSizes b ((c.headerJson hd).length + 8) true =
      .ok p.transactionList)
    (hh : p.hash = some hsh) (hsg : p.signature = some sg)
    (hverify : m.verifyECDSA hsh sg p.proposerIndex = true) :
    ∃ q, deserialize c b m = .ok q ∧ q.hash = p.hash ∧ q.schainID = p.schainID ∧
      q.proposerNodeID = p.proposerNodeID ∧ q.blockID = p.blockID ∧
      q.proposerIndex = p.proposerIndex ∧ q.timeStamp = p.timeStamp ∧
      q.timeStampMs = p.timeStampMs ∧ q.stateRoot = p.stateRoot ∧
      q.transactionCount = p.transactionCount ∧ q.transactionList = p.transactionList ∧
      q.signature = p.signature := by
  obtain ⟨h1, h2⟩ := deserialize_serialize_aux c m sc nd bl ix txs sr ts tsMs sig mgr p p1 b hd
    hnew hser hhd hlen hmax hjson htx hsh sg hh hsg hverify
  refine ⟨p1, h1, ?_⟩
  rw [h2]
  exact ⟨rfl, rfl, rfl, rfl, rfl, rfl, rfl, rfl, rfl, rfl, rfl⟩

/-- C1, witness: the round trip of the proposal of scenario S1, signed and verified by the
example crypto manager, under the collaborators modelled from the specification. -/
theorem deserialize_serialize_roundtrip_witness :
    newBlockProposal specCollaborators 1 7 42 3 [] 0 1600000000 0 none
      (some exampleCryptoManager) = .ok s1 ∧
    serialize specCollaborators s1 = .ok (s1Bytes, { s1 with serializedProposal := some s1Bytes }) ∧
    (deserialize specCollaborators s1Bytes exampleCryptoManager).map
        (fun q => (q.hash, q.schainID, q.proposerNodeID, q.blockID, q.proposerIndex, q.timeStamp,
          q.timeStampMs, q.stateRoot, q.transactionCount, q.transactionList, q.signature)) =
      .ok (s1.hash, 1, 7, 42, 3, 1600000000, 0, 0, 0, [], s1.signature) :=
  ⟨by decide, by decide,
    match deserialize_serialize_roundtrip specCollaborators exampleCryptoManager 1 7 42 3 [] 0
      1600000000 0 none (some exampleCryptoManager) s1
      { s1 with serializedProposal := some s1Bytes } s1Bytes s1Header s1Hash
      (exampleCryptoManager.signECDSA s1Hash)
      (by decide) (by decide) (by decide) (by decide) (by decide) (by decide) (by decide)
      (by decide) (by decide) (by decide) with
    | ⟨q, hq, e1, e2, e3, e4, e5, e6, e7, e8, e9, e10, e11⟩ => by
      rw [hq]
      simp only [Except.map, e1, e2, e3, e4, e5, e6, e7, e8, e9, e10, e11]
      rfl⟩

/-- C1, counterexample: the proposal `forgedS1` has the fields of scenario S1 and exactly one
signature source, a signature supplied from outside; the constructor accepts it, `serialize`
succeeds, and `deserialize` rejects the bytes because the crypto manager does not accept the
signature. -/
theorem deserialize_serialize_forged_signature :
    newBlockProposal specCollaborators 1 7 42 3 [] 0 1600000000 0 (some (ascii "forged")) none =
      .ok forgedS1 ∧
    serialize specCollaborators forgedS1 =
      .ok (forgedS1Bytes, { forgedS1 with serializedProposal := some forgedS1Bytes }) ∧
    deserialize specCollaborators forgedS1Bytes exampleCryptoManager =
      .error .invalidSignature := by
  decide

/-! ## The layout of the serialized proposal -/

/-- C5, as amended: writing `n` for the length of `serialize()` and `s = ceil(n / total)`,
`getFragment(total, index)` with `1 ≤ index ≤ total` returns the fragment whose data is `<`, a
slice, `>`, whenever the bytes named for this index lie inside the serialized proposal: for
`index < total` with `s * index ≤ n` the slice is the `s` bytes of `serialize()` at offsets
`[s*(index-1), s*index)`, for `index = total` with `s * (total - 1) ≤ n` it is the remaining
`n - s*(total-1)` bytes from offset `s*(total-1)`. For `n = 1000` and `total = 3` the slices
have 334, 334 and 332 bytes. -/
theorem getFragment_slice (c : Collaborators) (p p1 : BlockProposal) (sBlock : Bytes)
    (hsh : SHAHash) (total index : Nat)
    (hser : serialize c p = .ok (sBlock, p1)) (hh : p.hash = some hsh)
    (hn : sBlock.length < 2 ^ 64) (h1 : 1 ≤ index) (hi : index ≤ total)
    (hmid : index < total → (sBlock.length + total - 1) / total * index ≤ sBlock.length)
    (hlast : index = total →
      (sBlock.length + total - 1) / total * (total - 1) ≤ sBlock.length) :
    (sBlock.length ≤ (sBlock.length + total - 1) / total * total ∧
      (sBlock.length + total - 1) / total * total < sBlock.length + total) ∧
    fragmentStandardSize sBlock.length total = (sBlock.length + total - 1) / total ∧
    ∃ slice, getFragment c p total index =
        .ok (fragmentOf p total index sBlock.length hsh slice, p1) ∧
      (fragmentOf p total index sBlock.length hsh slice).data =
        [chLess] ++ slice ++ [chGreater] ∧
      (fragmentOf p total index sBlock.length hsh slice).data.length = slice.length + 2 ∧
      (index < total →
        slice = (sBlock.drop ((sBlock.length + total - 1) / total * (index - 1))).take
          ((sBlock.length + total - 1) / total) ∧
        slice.length = (sBlock.length + total - 1) / total) ∧
      (index = total →
        slice = sBlock.drop ((sBlock.length + total - 1) / total * (total - 1)) ∧
        slice.length = sBlock.length - (sBlock.length + total - 1) / total * (total - 1)) ∧
      (sBlock.length = 1000 → total = 3 → slice.length = if index = 3 then 332 else 334) := by
  have ht : 0 < total := by omega
  have hceil : sBlock.length ≤ (sBlock.length + total - 1) / total * total ∧
      (sBlock.length + total - 1) / total * total < sBlock.length + total := by
    have hdm := Nat.div_add_mod (sBlock.length + total - 1) total
    have hlt := Nat.mod_lt (sBlock.length + total - 1) ht
    rw [Nat.mul_comm] at hdm
    constructor <;> omega
  obtain ⟨slice, hg, hdata, hlt, heq⟩ :=
    getFragment_in_range c p p1 sBlock hsh total index hser hh hn h1 hi hmid hlast
  refine ⟨hceil, fragmentStandardSize_eq_ceil _ _ ht, slice, hg, hdata, ?_, hlt, heq, ?_⟩
  · rw [hdata]
    simp only [List.length_append, List.length_singleton]
    omega
  · intro h1000 h3
    subst h3
    rw [h1000] at hlt heq
    by_cases hidx : index = 3
    · rw [if_pos hidx, (heq hidx).2]
    · rw [if_neg hidx, (hlt (by omega)).2]

/-- C5, witness: the three fragments of the 1000-byte serialized `kilobyteProposal` for
`total = 3`: the slices are the 334 bytes from offset 0, the 334 bytes from offset 334 and the
332 bytes from offset 668, and the data of the last fragment has 334 bytes with its two framing
bytes. And fragment 20 of 22 of the 397-byte serialized proposal of scenario S1, where
`s = 19`: it lies inside the block, `19 * 20 ≤ 397`, and carries the 19 bytes from offset 361,
although fragments 21 and 22 do not lie inside the block. -/
theorem getFragment_slice_witness :
    kilobyteBytes.length = 1000 ∧
    ((getFragment specCollaborators kilobyteProposal 3 1).map (fun r => r.1.data) =
        .ok ([chLess] ++ (kilobyteBytes.drop 0).take 334 ++ [chGreater]) ∧
      ((kilobyteBytes.drop 0).take 334).length = 334) ∧
    ((getFragment specCollaborators kilobyteProposal 3 2).map (fun r => r.1.data) =
        .ok ([chLess] ++ (kilobyteBytes.drop 334).take 334 ++ [chGreater]) ∧
      ((kilobyteBytes.drop 334).take 334).length = 334) ∧
    ((getFragment specCollaborators kilobyteProposal 3 3).map (fun r => r.1.data) =
        .ok ([chLess] ++ kilobyteBytes.drop 668 ++ [chGreater]) ∧
      (kilobyteBytes.drop 668).length = 332 ∧
      ([chLess] ++ kilobyteBytes.drop 668 ++ [chGreater]).length = 334) ∧
    (s1Bytes.length = 397 ∧ (397 + 22 - 1) / 22 = 19 ∧ ¬ (19 * (22 - 1) ≤ 397) ∧
      (getFragment specCollaborators s1 22 20).map (fun r => r.1.data) =
        .ok ([chLess] ++ (s1Bytes.drop 361).take 19 ++ [chGreater]) ∧
      ((s1Bytes.drop 361).take 19).length = 19) := by
  have hlen : kilobyteBytes.length = 1000 := by decide
  have hser : serialize specCollaborators kilobyteProposal =
      .ok (kilobyteBytes, { kilobyteProposal with serializedProposal := some kilobyteBytes }) := by
    rfl
  have hh : kilobyteProposal.hash = some kilobyteHash := by
    rfl
  have hn : kilobyteBytes.length < 2 ^ 64 := by rw [hlen]; decide
  refine ⟨hlen, ?_, ?_, ?_, ?_⟩
  · obtain ⟨_, _, slice, hg, _, _, hlt, _, _⟩ := getFragment_slice specCollaborators
      kilobyteProposal _ kilobyteBytes _ 3 1 hser hh hn (by decide) (by decide)
      (fun _ => by rw [hlen]; decide) (fun _ => by rw [hlen]; decide)
    obtain ⟨e1, e2⟩ := hlt (by decide)
    rw [hlen] at e1 e2
    have e1' : slice = (kilobyteBytes.drop 0).take 334 := e1
    subst e1'
    exact ⟨by rw [hg]; rfl, e2⟩
  · obtain ⟨_, _, slice, hg, _, _, hlt, _, _⟩ := getFragment_slice specCollaborators
      kilobyteProposal _ kilobyteBytes _ 3 2 hser hh hn (by decide) (by decide)
      (fun _ => by rw [hlen]; decide) (fun _ => by rw [hlen]; decide)
    obtain ⟨e1, e2⟩ := hlt (by decide)
    rw [hlen] at e1 e2
    have e1' : slice = (kilobyteBytes.drop 334).take 334 := e1
    subst e1'
    exact ⟨by rw [hg]; rfl, e2⟩
  · obtain ⟨_, _, slice, hg, _, _, _, heq, _⟩ := getFragment_slice specCollaborators
      kilobyteProposal _ kilobyteBytes _ 3 3 hser hh hn (by decide) (by decide)
      (fun h => absurd h (by decide)) (fun _ => by rw [hlen]; decide)
    obtain ⟨e1, e2⟩ := heq rfl
    rw [hlen] at e1 e2
    have e1' : slice = kilobyteBytes.drop 668 := e1
    subst e1'
    refine ⟨by rw [hg]; rfl, e2, ?_⟩
    simp only [List.length_append, List.length_singleton, e2]
  · have hlen1 : s1Bytes.length = 397 := by decide
    have hser1 : serialize specCollaborators s1 =
        .ok (s1Bytes, { s1 with serializedProposal := some s1Bytes }) := by decide
    have hh1 : s1.hash = some s1Hash := by decide
    obtain ⟨_, _, slice, hg, _, _, hlt, _, _⟩ := getFragment_slice specCollaborators
      s1 _ s1Bytes _ 22 20 hser1 hh1 (by rw [hlen1]; decide) (by decide) (by decide)
      (fun _ => by rw [hlen1]; decide) (fun h => absurd h (by decide))
    obtain ⟨e1, e2⟩ := hlt (by decide)
    rw [hlen1] at e1 e2
    have e1' : slice = (s1Bytes.drop 361).take 19 := e1
    subst e1'
    exact ⟨hlen1, by decide, by decide, by rw [hg]; rfl, e2⟩

/-- C5, counterexample: the serialized proposal of scenario S1 has 397 bytes; for `total = 22`
the standard size is 19, so fragment 21 would carry the bytes at offsets `[380, 399)` and
fragment 22 the bytes from offset 399: both iterator ranges leave the block, and `getFragment`
returns no fragment that carries the bytes of the claim. -/
theorem getFragment_slice_outside_block :
    s1Bytes.length = 397 ∧ fragmentStandardSize 397 22 = 19 ∧ (397 + 22 - 1) / 22 = 19 ∧
    getFragment specCollaborators s1 22 21 = .error .undefinedBehaviour ∧
    getFragment specCollaborators s1 22 22 = .error .undefinedBehaviour := by
  decide

/-- C6, the failing input: for the 397-byte serialized proposal of scenario S1 and
`total = 22`, the fragments `1..22` cannot be taken: the iterator range of fragment 21 leaves
the block, so there is nothing to reassemble. -/
theorem allFragments_outside_block :
    allFragments specCollaborators s1 22 = .error .undefinedBehaviour ∧
    (allFragments specCollaborators s1 22).map assembleFragments ≠ .ok s1Bytes := by
  decide

/-- C7, the failing input: `getFragment(3, 0)` passes both argument checks, since `0 ≤ 3`, and
goes on to the iterator range at the wrapped start index `s * (2^64 - 1) mod 2^64`; it does
not fail with the invalid-argument error. The calls with `total = 0` and with
`index > total` do. -/
theorem getFragment_index_zero :
    getFragment specCollaborators s1 3 0 = .error .undefinedBehaviour ∧
    getFragment specCollaborators s1 3 0 ≠ .error .invalidArgument ∧
    fragmentStartIndex (fragmentStandardSize 397 3) 0 = 2 ^ 64 - 133 ∧
    getFragment specCollaborators s1 0 0 = .error .invalidArgument ∧
    getFragment specCollaborators s1 0 1 = .error .invalidArgument ∧
    getFragment specCollaborators s1 3 4 = .error .invalidArgument := by
  decide

/-- C8, the failing input: fragment 21 of 22 of the 397-byte serialized proposal of scenario
S1. Both argument checks pass, the standard size is 19 and the start index 380, so the call
copies the range `[380, 399)`, of which only the 17 bytes at offsets 380 to 396 are bytes of
`serialize()`: the range leaves the block, and the 19 bytes that come to stand between `<` and
`>` are no slice of `serialize()`. -/
theorem getFragment_framing_outside_block :
    s1Bytes.length = 397 ∧ 0 < 22 ∧ 21 ≤ 22 ∧
    fragmentStandardSize s1Bytes.length 22 = 19 ∧
    fragmentStartIndex (fragmentStandardSize s1Bytes.length 22) 21 = 380 ∧
    s1Bytes.length < 380 + 19 ∧
    ((s1Bytes.drop 380).take 19).length = 17 ∧
    iterRange s1Bytes 380 (380 + 19) = .error .undefinedBehaviour ∧
    (getFragment specCollaborators s1 22 21).map (fun r => r.1.data) =
      .error .undefinedBehaviour := by
  decide

/-! ## The hash of a proposal -/

/-- C9: the bytes that `calculateHash` feeds to SHA-256 are, in this order and with nothing in
between: `proposerIndex`, `proposerNodeID`, `schainID`, `blockID`, `transactionCount` and
`timeStamp`, each as 8 little-endian bytes, `timeStampMs` as 4 little-endian bytes, and the 64
lowercase hex characters of the 32-byte big-endian state root, 116 bytes in all before any
Merkle root; for the state root 1 the hex part is 63 characters `0` and then `1`. The bytes,
and so the hash, do not depend on the stored hash, the signature or the cached serialized
form. -/
theorem hashPreimage_layout (c : Collaborators) (p : BlockProposal) :
    (hashPreimage c p).take 116 = hashPreimageFields p ∧
    (hashPreimageFields p).length = 116 ∧
    hashPreimageFields p =
      natToLe 8 p.proposerIndex ++ natToLe 8 p.proposerNodeID ++ natToLe 8 p.schainID ++
      natToLe 8 p.blockID ++ natToLe 8 p.transactionCount ++ natToLe 8 p.timeStamp ++
      natToLe 4 p.timeStampMs ++ carray2Hex (natToBe 32 p.stateRoot) ∧
    leToNat ((hashPreimage c p).take 8) = p.proposerIndex % 2 ^ 64 ∧
    leToNat (((hashPreimage c p).drop 8).take 8) = p.proposerNodeID % 2 ^ 64 ∧
    leToNat (((hashPreimage c p).drop 16).take 8) = p.schainID % 2 ^ 64 ∧
    leToNat (((hashPreimage c p).drop 24).take 8) = p.blockID % 2 ^ 64 ∧
    leToNat (((hashPreimage c p).drop 32).take 8) = p.transactionCount % 2 ^ 64 ∧
    leToNat (((hashPreimage c p).drop 40).take 8) = p.timeStamp % 2 ^ 64 ∧
    leToNat (((hashPreimage c p).drop 48).take 4) = p.timeStampMs % 2 ^ 32 ∧
    ((hashPreimage c p).drop 52).take 64 = carray2Hex (natToBe 32 p.stateRoot) ∧
    (((hashPreimage c p).drop 52).take 64).length = 64 ∧
    (((hashPreimage c p).drop 52).take 64).all isLowerHex = true ∧
    ((hashPreimage c { p with stateRoot := 1 }).drop 52).take 64 =
      List.replicate 63 (48 : Byte) ++ [(49 : Byte)] ∧
    (∀ (h : Option SHAHash) (sig cache : Option Bytes),
      hashPreimage c { p with hash := h, signature := sig, serializedProposal := cache } =
        hashPreimage c p) ∧
    (calculateHash c p).hash = some (c.sha256 (hashPreimage c p)) := by
  have hx : (carray2Hex (natToBe 32 p.stateRoot)).length = 64 := by
    rw [carray2Hex_length, natToBe_length]
  obtain ⟨t1, t2, t3, t4, t5, t6, t7, t8, _, t10⟩ := pieces_of_append
    (natToLe 8 p.proposerIndex) (natToLe 8 p.proposerNodeID) (natToLe 8 p.schainID)
    (natToLe 8 p.blockID) (natToLe 8 p.transactionCount) (natToLe 8 p.timeStamp)
    (natToLe 4 p.timeStampMs) (carray2Hex (natToBe 32 p.stateRoot))
    (if p.transactionList.length > 0 then (c.merkleRoot p.transactionList).val.take SHA_HASH_LEN
      else [])
    (natToLe_length _ _) (natToLe_length _ _) (natToLe_length _ _) (natToLe_length _ _)
    (natToLe_length _ _) (natToLe_length _ _) (natToLe_length _ _) hx
  have hd : hashPreimage c p =
      natToLe 8 p.proposerIndex ++ natToLe 8 p.proposerNodeID ++ natToLe 8 p.schainID ++
      natToLe 8 p.blockID ++ natToLe 8 p.transactionCount ++ natToLe 8 p.timeStamp ++
      natToLe 4 p.timeStampMs ++ carray2Hex (natToBe 32 p.stateRoot) ++
      (if p.transactionList.length > 0 then
        (c.merkleRoot p.transactionList).val.take SHA_HASH_LEN else []) := rfl
  have h64 : (256 : Nat) ^ 8 = 2 ^ 64 := by norm_num
  have h32 : (256 : Nat) ^ 4 = 2 ^ 32 := by norm_num
  refine ⟨?_, t10, rfl, ?_, ?_, ?_, ?_, ?_, ?_, ?_, ?_, ?_, ?_, ?_, ?_, rfl⟩
  · rw [hashPreimage]
    exact List.take_left' t10
  · rw [hd, t1, leToNat_natToLe, h64]
  · rw [hd, t2, leToNat_natToLe, h64]
  · rw [hd, t3, leToNat_natToLe, h64]
  · rw [hd, t4, leToNat_natToLe, h64]
  · rw [hd, t5, leToNat_natToLe, h64]
  · rw [hd, t6, leToNat_natToLe, h64]
  · rw [hd, t7, leToNat_natToLe, h32]
  · rw [hd, t8]
  · rw [hd, t8, hx]
  · rw [hd, t8]
    exact carray2Hex_isLowerHex _
  · have h1 := (pieces_of_append
      (natToLe 8 p.proposerIndex) (natToLe 8 p.proposerNodeID) (natToLe 8 p.schainID)
      (natToLe 8 p.blockID) (natToLe 8 p.transactionCount) (natToLe 8 p.timeStamp)
      (natToLe 4 p.timeStampMs) (carray2Hex (natToBe 32 1))
      (if p.transactionList.length > 0 then
        (c.merkleRoot p.transactionList).val.take SHA_HASH_LEN else [])
      (natToLe_length _ _) (natToLe_length _ _) (natToLe_length _ _) (natToLe_length _ _)
      (natToLe_length _ _) (natToLe_length _ _) (natToLe_length _ _)
      (by rw [carray2Hex_length, natToBe_length])).2.2.2.2.2.2.2.1
    have h2 : carray2Hex (natToBe 32 1) = List.replicate 63 (48 : Byte) ++ [(49 : Byte)] := by
      decide
    rw [← h2]
    exact h1
  · intro h sig cache
    rfl

/-- C10: for every proposal built by the constructor, `transactionCount` is the number of
transactions, the hash is SHA-256 of the preimage, and the 32 bytes of the Merkle root are
appended to the 116 bytes of the fields exactly when `transactionCount > 0`: for an empty
transaction list the preimage ends with the hex text of the state root, for a non-empty one
it is these same 116 bytes followed by the 32 bytes of the Merkle root. -/
theorem hashPreimage_merkleRoot (c : Collaborators) (sc nd bl ix : Nat)
    (txs : List Transaction) (sr ts tsMs : Nat) (sig : Option Bytes)
    (mgr : Option CryptoManager) (p : BlockProposal)
    (hnew : newBlockProposal c sc nd bl ix txs sr ts tsMs sig mgr = .ok p) :
    p.transactionCount = p.transactionList.length ∧
    p.hash = some (c.sha256 (hashPreimage c p)) ∧
    (p.transactionCount = 0 → hashPreimage c p = hashPreimageFields p) ∧
    (0 < p.transactionCount →
      hashPreimage c p = hashPreimageFields p ++ (c.merkleRoot p.transactionList).val) ∧
    (c.merkleRoot p.transactionList).val.length = 32 ∧
    (hashPreimageFields p).length = 116 ∧
    ((hashPreimage c p).length = 116 ↔ p.transactionCount = 0) ∧
    ((hashPreimage c p).length = 148 ↔ 0 < p.transactionCount) := by
  obtain ⟨_, _, _, hp⟩ := newBlockProposal_ok c sc nd bl ix txs sr ts tsMs sig mgr p hnew
  have hcount : p.transactionCount = p.transactionList.length := by rw [hp]; rfl
  have hhash : p.hash = some (c.sha256 (hashPreimage c p)) := by rw [hp]; rfl
  have hm : (c.merkleRoot p.transactionList).val.length = 32 := (c.merkleRoot _).property
  have htake : (c.merkleRoot p.transactionList).val.take SHA_HASH_LEN =
      (c.merkleRoot p.transactionList).val := List.take_of_length_le (by rw [hm]; decide)
  have h116 : (hashPreimageFields p).length = 116 := (hashPreimage_fields_length p)
  have hzero : p.transactionCount = 0 → hashPreimage c p = hashPreimageFields p := by
    intro h0
    have : ¬ p.transactionList.length > 0 := by omega
    simp [hashPreimage, this]
  have hpos : 0 < p.transactionCount →
      hashPreimage c p = hashPreimageFields p ++ (c.merkleRoot p.transactionList).val := by
    intro h0
    have : p.transactionList.length > 0 := by omega
    simp only [hashPreimage, this, if_true, htake]
  refine ⟨hcount, hhash, hzero, hpos, hm, h116, ?_, ?_⟩
  · constructor
    · intro hl
      by_contra hne
      rw [hpos (by omega), List.length_append, hm, h116] at hl
      omega
    · intro h0
      rw [hzero h0, h116]
  · constructor
    · intro hl
      by_contra hne
      rw [hzero (by omega), h116] at hl
      omega
    · intro h0
      rw [hpos h0, List.length_append, hm, h116]

/-- C10, witness: the preimages of the proposal of scenario S1, which has no transaction, and of
`kilobyteProposal`, which has one: 116 bytes in the first case, and the same kind of 116 bytes
followed by the 32 bytes of the Merkle root in the second. -/
theorem hashPreimage_merkleRoot_witness :
    (s1.transactionCount = 0 ∧ hashPreimage specCollaborators s1 = hashPreimageFields s1 ∧
      (hashPreimage specCollaborators s1).length = 116) ∧
    (kilobyteProposal.transactionCount = 1 ∧
      hashPreimage specCollaborators kilobyteProposal =
        hashPreimageFields kilobyteProposal ++
          (specCollaborators.merkleRoot kilobyteProposal.transactionList).val ∧
      (hashPreimage specCollaborators kilobyteProposal).length = 148) :=
  have a := hashPreimage_merkleRoot specCollaborators 1 7 42 3 [] 0 1600000000 0 none
    (some exampleCryptoManager) s1 (by decide)
  have b := hashPreimage_merkleRoot specCollaborators 1 7 42 3 [List.replicate 600 0] 0
    1600000000 0 none (some exampleCryptoManager) kilobyteProposal (by rfl)
  ⟨⟨by decide, a.2.2.1 (by decide), a.2.2.2.2.2.2.1.mpr (by decide)⟩,
    ⟨by rfl, b.2.2.2.1 (by decide), b.2.2.2.2.2.2.2.mpr (by decide)⟩⟩

/-! ## The constructor: signature source and invariants -/

/-- C11: the ten-argument constructor succeeds only when exactly one of the signature and the
crypto manager is supplied. With both, and with neither, it throws the invalid-argument
exception. With the signature alone the proposal carries exactly that signature, and with the
crypto manager alone it carries the signature that the manager produces over the computed
hash; with a modern time stamp the constructor succeeds in both cases. -/
theorem newBlockProposal_signature_source (c : Collaborators) (sc nd bl ix : Nat)
    (txs : List Transaction) (sr ts tsMs : Nat) :
    (∀ sig m, newBlockProposal c sc nd bl ix txs sr ts tsMs (some sig) (some m) =
        .error .invalidArgument) ∧
    newBlockProposal c sc nd bl ix txs sr ts tsMs none none = .error .invalidArgument ∧
    (∀ sig mgr p, newBlockProposal c sc nd bl ix txs sr ts tsMs sig mgr = .ok p →
        (sig.isSome = true ∧ mgr.isNone = true) ∨ (sig.isNone = true ∧ mgr.isSome = true)) ∧
    (∀ sig p, newBlockProposal c sc nd bl ix txs sr ts tsMs (some sig) none = .ok p →
        p.signature = some sig) ∧
    (∀ m p, newBlockProposal c sc nd bl ix txs sr ts tsMs none (some m) = .ok p →
        p.hash = some (c.sha256 (hashPreimage c p)) ∧
        p.signature = some (m.signECDSA (c.sha256 (hashPreimage c p)))) ∧
    (c.MODERN_TIME < ts →
      (∀ sig, ∃ p, newBlockProposal c sc nd bl ix txs sr ts tsMs (some sig) none = .ok p) ∧
      (∀ m, ∃ p, newBlockProposal c sc nd bl ix txs sr ts tsMs none (some m) = .ok p)) := by
  refine ⟨?_, ?_, ?_, ?_, ?_, ?_⟩
  · intro sig m
    simp [newBlockProposal, CHECK_ARGUMENT_bind]
  · simp [newBlockProposal, CHECK_ARGUMENT_bind]
  · intro sig mgr p h
    obtain ⟨h1, h2, _, _⟩ := newBlockProposal_ok c sc nd bl ix txs sr ts tsMs sig mgr p h
    cases sig <;> cases mgr <;> simp_all
  · intro sig p h
    rw [(newBlockProposal_ok c sc nd bl ix txs sr ts tsMs (some sig) none p h).2.2.2]
  · intro m p h
    rw [(newBlockProposal_ok c sc nd bl ix txs sr ts tsMs none (some m) p h).2.2.2]
    exact ⟨rfl, rfl⟩
  · intro hts
    refine ⟨fun sig => ⟨_, newBlockProposal_of_signature c sc nd bl ix txs sr ts tsMs sig hts⟩,
      fun m => ?_⟩
    simp [newBlockProposal, CHECK_ARGUMENT_bind, ASSERT_bind, hts, signProposalECDSA,
      calculateHash]

/-- C11, witness: the proposal of scenario S1, built with the example crypto manager alone,
carries the signature of that manager over its hash; built with the signature `forged` alone
it carries that signature. -/
theorem newBlockProposal_signature_source_witness :
    s1.signature = some (exampleCryptoManager.signECDSA s1Hash) ∧
    s1.hash = some s1Hash ∧
    forgedS1.signature = some (ascii "forged") :=
  ⟨((newBlockProposal_signature_source specCollaborators 1 7 42 3 [] 0 1600000000 0).2.2.2.2.1
      exampleCryptoManager s1 (by rfl)).2,
   ((newBlockProposal_signature_source specCollaborators 1 7 42 3 [] 0 1600000000 0).2.2.2.2.1
      exampleCryptoManager s1 (by rfl)).1,
   (newBlockProposal_signature_source specCollaborators 1 7 42 3 [] 0 1600000000 0).2.2.2.1
      (ascii "forged") forgedS1 (by rfl)⟩

/-- C12: a proposal that the ten-argument constructor or `deserialize` returns has a time stamp
above `MODERN_TIME` and a transaction count equal to the number of transactions of its list.
With a time stamp that is not above `MODERN_TIME` the constructor throws, `FatalError` when
its arguments pass the two earlier checks, and `deserialize` throws on a header that carries
such a time stamp. -/
theorem newBlockProposal_invariants (c : Collaborators) :
    (∀ sc nd bl ix txs sr ts tsMs sig mgr p,
      newBlockProposal c sc nd bl ix txs sr ts tsMs sig mgr = .ok p →
        c.MODERN_TIME < p.timeStamp ∧ p.transactionCount = p.transactionList.length ∧
        p.timeStamp = ts ∧ p.transactionList = txs) ∧
    (∀ b m p, deserialize c b m = .ok p →
        c.MODERN_TIME < p.timeStamp ∧ p.transactionCount = p.transactionList.length) ∧
    (∀ sc nd bl ix txs sr ts tsMs sig mgr, ts ≤ c.MODERN_TIME →
      newBlockProposal c sc nd bl ix txs sr ts tsMs sig mgr =
        .error (if (mgr.isSome || sig.isSome) && (mgr.isNone || sig.isNone) then .fatal
                else .invalidArgument)) ∧
    (∀ b m hdr hd, extractHeader c b = .ok hdr → parseBlockHeader c hdr = .ok hd →
      hd.timeStamp ≤ c.MODERN_TIME → ∃ e, deserialize c b m = .error e) := by
  refine ⟨?_, ?_, ?_, ?_⟩
  · intro sc nd bl ix txs sr ts tsMs sig mgr p h
    obtain ⟨_, _, h3, h4⟩ := newBlockProposal_ok c sc nd bl ix txs sr ts tsMs sig mgr p h
    rw [h4]
    exact ⟨h3, rfl, rfl, rfl⟩
  · intro b m p h
    obtain ⟨hdr, hd, list, sig, q, _, _, _, _, h5, _, h7⟩ := deserialize_ok_inv c b m p h
    obtain ⟨_, _, h3, h4⟩ := newBlockProposal_ok c _ _ _ _ _ _ _ _ _ _ q h5
    rw [h7, h4]
    exact ⟨h3, rfl⟩
  · intro sc nd bl ix txs sr ts tsMs sig mgr hts
    have hts' : ¬ c.MODERN_TIME < ts := by omega
    cases sig <;> cases mgr <;>
      simp [newBlockProposal, CHECK_ARGUMENT_bind, ASSERT_bind, hts']
  · intro b m hdr hd hx hp hts
    exact deserialize_old_timeStamp c b m hdr hd hx hp hts

/-- C12, witness: the proposal of scenario S1 has a time stamp above 1546300800 and the
transaction count 0 of its empty list, also after a round trip through its 397 bytes; with the
time stamp 1546300800 the constructor throws `FatalError`. -/
theorem newBlockProposal_invariants_witness :
    (1546300800 < s1.timeStamp ∧ s1.transactionCount = s1.transactionList.length ∧
      s1.timeStamp = 1600000000 ∧ s1.transactionList = []) ∧
    (1546300800 < (okOr (deserialize specCollaborators s1Bytes exampleCryptoManager)
        (newTimedBlockProposal 0 0)).timeStamp) ∧
    newBlockProposal specCollaborators 1 7 42 3 [] 0 1546300800 0 none
      (some exampleCryptoManager) = .error .fatal :=
  ⟨(newBlockProposal_invariants specCollaborators).1 1 7 42 3 [] 0 1600000000 0 none
      (some exampleCryptoManager) s1 (by rfl),
   ((newBlockProposal_invariants specCollaborators).2.1 s1Bytes exampleCryptoManager
      (okOr (deserialize specCollaborators s1Bytes exampleCryptoManager)
        (newTimedBlockProposal 0 0)) (by rfl)).1,
   (newBlockProposal_invariants specCollaborators).2.2.1 1 7 42 3 [] 0 1546300800 0 none
      (some exampleCryptoManager) (by decide)⟩

/-! ## The list of partial hashes -/

/-- C13: for a proposal whose transaction count is the number `n` of its transactions, as the
constructor sets it, and with `16 * n` below `2 ^ 64`, `createPartialHashesList` returns a list
of count `n` whose byte vector has exactly `16 * n` bytes, and for `i < n` and `j < 16` the
byte at `16 * i + j` is byte `j` of the hash of transaction `i`. -/
theorem createPartialHashesList_layout (c : Collaborators) (p : BlockProposal)
    (hcount : p.transactionCount = p.transactionList.length)
    (hsize : 16 * p.transactionList.length < 2 ^ 64) :
    ∃ l, createPartialHashesList c p = .ok l ∧
      l.transactionCount = p.transactionList.length ∧
      l.partialHashes.length = 16 * p.transactionList.length ∧
      ∀ i j tx, p.transactionList[i]? = some tx → j < 16 →
        16 * i + j < l.partialHashes.length ∧
        l.partialHashes[16 * i + j]? = (c.txHash tx).val[j]? := by
  have hchunk : ∀ x ∈ p.transactionList.map fun t =>
      (c.txHash t).val.take PARTIAL_SHA_HASH_LEN, x.length = 16 := by
    intro x hx
    obtain ⟨t, _, rfl⟩ := List.mem_map.mp hx
    exact partialHash_length c t
  have hlen : (p.transactionList.map fun t =>
      (c.txHash t).val.take PARTIAL_SHA_HASH_LEN).flatten.length =
        16 * p.transactionList.length := by
    rw [flatten_uniform_length _ 16 hchunk, List.length_map]
  refine ⟨_, createPartialHashesList_ok c p hcount
    (by simpa [PARTIAL_SHA_HASH_LEN, U64, Nat.mul_comm] using hsize), rfl, hlen, ?_⟩
  intro i j tx htx hj
  have hi : i < p.transactionList.length := (List.getElem?_eq_some_iff.mp htx).1
  refine ⟨by rw [hlen]; omega, ?_⟩
  show (p.transactionList.map fun t =>
      (c.txHash t).val.take PARTIAL_SHA_HASH_LEN).flatten[16 * i + j]? = _
  rw [flatten_uniform_getElem _ 16 hchunk i j ((c.txHash tx).val.take PARTIAL_SHA_HASH_LEN)
    (by rw [List.getElem?_map, htx]; rfl) hj]
  rw [List.getElem?_take_of_lt (by simpa [PARTIAL_SHA_HASH_LEN] using hj)]

/-- C13, witness: for the proposal with the two transactions `ab` and `c` the list has the
count 2 and 32 bytes, the partial hashes of `ab` and of `c` in this order. -/
theorem createPartialHashesList_layout_witness :
    createPartialHashesList specCollaborators pairProposal =
      .ok { transactionCount := 2
            partialHashes := (exampleDigest (ascii "ab")).val.take 16 ++
              (exampleDigest (ascii "c")).val.take 16 } := by
  obtain ⟨l, h1, h2, h3, h4⟩ :=
    createPartialHashesList_layout specCollaborators pairProposal (by rfl) (by decide)
  rw [h1]
  have : createPartialHashesList specCollaborators pairProposal =
      .ok { transactionCount := 2
            partialHashes := (exampleDigest (ascii "ab")).val.take 16 ++
              (exampleDigest (ascii "c")).val.take 16 } := by rfl
  rw [h1] at this
  exact this

/-! ## The sets of DA proofs -/

/-- C15: an entry whose index is already in the set of its block makes `addDAProof` fail with
`DuplicateShare`, and the database, with it every set, is as before the call. The set
operation `writeStringToSet` is modelled from the specification. -/
theorem addDAProof_duplicate (db : DAProofDB) (d : DAProof)
    (h : d.proposerIndex ∈ (db.setOf d.blockId).map Prod.fst) :
    (addDAProof db d).1 = .error .duplicateShare ∧ (addDAProof db d).2 = db ∧
    ∀ b, (addDAProof db d).2.setOf b = db.setOf b := by
  rw [addDAProof_present db d h]
  exact ⟨rfl, rfl, fun _ => rfl⟩

/-- C15, witness: scenario S5. After the entries of the signers 1 and 2, a second entry of
signer 1 fails with `DuplicateShare` and the set of block 42 keeps its two entries. -/
theorem addDAProof_duplicate_witness :
    (addDAProof s5Database (s4Proof 1)).1 = .error .duplicateShare ∧
    (addDAProof s5Database (s4Proof 1)).2 = s5Database ∧
    ((addDAProof s5Database (s4Proof 1)).2.setOf 42).map Prod.fst = [1, 2] :=
  ⟨(addDAProof_duplicate s5Database (s4Proof 1) (by decide)).1,
   (addDAProof_duplicate s5Database (s4Proof 1) (by decide)).2.1,
   by decide⟩

/-! ## The store of block proposals -/

/-- C20: `pendingTransactions(limit)` returns, and it returns at most `limit` transactions.
When the test mode is not `NONE` it returns exactly `limit` transactions of exactly 200 bytes
each and the counter advances by `limit`, modulo `2 ^ 64` as a `uint64_t` does; when the test
mode is `NONE` it returns the empty list and leaves the counter as it is. -/
theorem pendingTransactions_count (a : TestMessageGeneratorAgent) (limit : Nat)
    (hc : a.counter < 2 ^ 64) :
    ∃ result a', pendingTransactions a limit = .ok (result, a') ∧ result.length ≤ limit ∧
      (a.blockProposerTestIsNone = false →
        result.length = limit ∧ (∀ t ∈ result, t.length = 200) ∧
        a'.counter = (a.counter + limit) % 2 ^ 64 ∧
        a'.blockProposerTestIsNone = false) ∧
      (a.blockProposerTestIsNone = true → result = [] ∧ a' = a) := by
  cases hmode : a.blockProposerTestIsNone with
  | true =>
    refine ⟨[], a, by simp [pendingTransactions, hmode], by simp, by simp, by simp⟩
  | false =>
    obtain ⟨added, hadd, hl, hall⟩ := pendingTransactionsLoop_ok limit a.counter [] hc
    refine ⟨added, { a with counter := (a.counter + limit) % U64 }, ?_, by omega, ?_, by simp⟩
    · simp only [pendingTransactions, hmode, Bool.false_eq_true, if_false, hadd, bind_ok_eq,
        List.nil_append]
      rfl
    · intro _
      exact ⟨hl, hall, rfl, hmode⟩

/-- C20, witness: with the counter 258 and a test mode other than `NONE`, a call with the
limit 3 returns three transactions of 200 bytes and leaves the counter 261; with the test mode
`NONE` it returns no transaction and leaves the agent as it is. -/
theorem pendingTransactions_count_witness :
    (pendingTransactions { blockProposerTestIsNone := false, counter := 258 } 3).map
      (fun r => (r.1.map List.length, r.2.counter)) = .ok ([200, 200, 200], 261) ∧
    pendingTransactions { blockProposerTestIsNone := true, counter := 258 } 3 =
      .ok ([], { blockProposerTestIsNone := true, counter := 258 }) := by
  refine ⟨by rfl, ?_⟩
  obtain ⟨result, a', h, _, _, h3⟩ :=
    pendingTransactions_count { blockProposerTestIsNone := true, counter := 258 } 3 (by decide)
  obtain ⟨hr, ha⟩ := h3 rfl
  rw [h, hr, ha]

/-! ## The envelope: acceptance, and the cache of the serialized form -/

/-- C24: for a byte vector `b`, of fewer than `2 ^ 64` bytes as every vector is, that satisfies
the envelope conditions `|b| ≥ 10`, `2 ≤ len ≤ MAX_BUFFER_SIZE`, `len + 8 < |b|`, `b[8] = '{'`,
`b[8 + len] = '<'` and last byte `'>'`, where `len` is the little-endian `u64` in `b[0 .. 7]`,
`extractHeader` returns, and it returns the `len` bytes `b[8 .. 8 + len - 1]`. -/
theorem extractHeader_of_envelope (c : Collaborators) (b : Bytes) (hsize : b.length < 2 ^ 64)
    (h1 : 10 ≤ b.length) (h2 : 2 ≤ leToNat (b.take 8))
    (h3 : leToNat (b.take 8) ≤ c.MAX_BUFFER_SIZE) (h4 : leToNat (b.take 8) + 8 < b.length)
    (h5 : b[8]? = some chOpenBrace) (h6 : b[8 + leToNat (b.take 8)]? = some chLess)
    (h7 : b.getLast? = some chGreater) :
    extractHeader c b = .ok ((b.drop 8).take (leToNat (b.take 8))) ∧
    ((b.drop 8).take (leToNat (b.take 8))).length = leToNat (b.take 8) ∧
    ∀ i, i < leToNat (b.take 8) →
      ((b.drop 8).take (leToNat (b.take 8)))[i]? = b[8 + i]? := by
  have hmod : (leToNat (b.take 8) + 8) % U64 = leToNat (b.take 8) + 8 :=
    Nat.mod_eq_of_lt (by simp only [U64]; omega)
  have hlen : ((b.drop 8).take (leToNat (b.take 8))).length = leToNat (b.take 8) := by
    rw [List.length_take, List.length_drop]
    omega
  refine ⟨?_, hlen, ?_⟩
  · rw [extractHeader_ok_iff]
    refine ⟨h1, h2, by rw [hmod]; omega, h3, by rw [hmod, Nat.add_comm]; exact h6, h5, h7, ?_⟩
    rw [hlen, Nat.sub_self, List.replicate_zero, List.append_nil]
  · intro i hi
    rw [List.getElem?_take_of_lt hi, List.getElem?_drop]

/-- C24, witness: the 397 bytes of scenario S1 satisfy the conditions with `len = 387`, and
`extractHeader` returns their bytes 8 to 394. -/
theorem extractHeader_of_envelope_witness :
    extractHeader specCollaborators s1Bytes = .ok ((s1Bytes.drop 8).take 387) ∧
    ((s1Bytes.drop 8).take 387).length = 387 :=
  ⟨(extractHeader_of_envelope specCollaborators s1Bytes (by decide) (by decide) (by decide)
      (by decide) (by decide) (by decide) (by decide) (by decide)).1,
   (extractHeader_of_envelope specCollaborators s1Bytes (by decide) (by decide) (by decide)
      (by decide) (by decide) (by decide) (by decide) (by decide)).2.1⟩

/-- C25: a proposal that `deserialize` returns for the bytes `b` serializes to exactly `b` and
is not changed by the call: `deserialize` stores its input as the cached serialized form and
`serialize` returns the cache. For every proposal, a call of `serialize` after one that
returned gives the same bytes and leaves the proposal as the first call left it. -/
theorem serialize_of_deserialize (c : Collaborators) :
    (∀ b m p, deserialize c b m = .ok p →
      p.serializedProposal = some b ∧ serialize c p = .ok (b, p)) ∧
    (∀ p b p1, serialize c p = .ok (b, p1) → serialize c p1 = .ok (b, p1)) := by
  refine ⟨?_, ?_⟩
  · intro b m p h
    obtain ⟨_, _, _, _, q, _, _, _, _, _, _, hp⟩ := deserialize_ok_inv c b m p h
    rw [hp]
    exact ⟨rfl, rfl⟩
  · intro p b p1 h
    rw [serialize_cache c p p1 b h]
    rfl

/-- C25, witness: the proposal that `deserialize` returns for the 397 bytes of scenario S1
serializes to these bytes, and the proposal of scenario S1 itself serializes to them twice. -/
theorem serialize_of_deserialize_witness :
    ((deserialize specCollaborators s1Bytes exampleCryptoManager).bind fun p =>
      (serialize specCollaborators p).map Prod.fst) = .ok s1Bytes ∧
    ((serialize specCollaborators s1).bind fun r =>
      (serialize specCollaborators r.2).map Prod.fst) = .ok s1Bytes := by
  have h1 := ((serialize_of_deserialize specCollaborators).1 s1Bytes exampleCryptoManager
    (okOr (deserialize specCollaborators s1Bytes exampleCryptoManager)
      (newTimedBlockProposal 0 0)) (by rfl)).2
  have h2 := (serialize_of_deserialize specCollaborators).2 s1 s1Bytes
    { s1 with serializedProposal := some s1Bytes } (by rfl)
  have e1 : deserialize specCollaborators s1Bytes exampleCryptoManager =
      .ok (okOr (deserialize specCollaborators s1Bytes exampleCryptoManager)
        (newTimedBlockProposal 0 0)) := by rfl
  have e2 : serialize specCollaborators s1 =
      .ok (s1Bytes, { s1 with serializedProposal := some s1Bytes }) := by rfl
  refine ⟨?_, ?_⟩
  · rw [e1]
    simp only [Except.bind, h1, Except.map]
  · rw [e2]
    simp only [Except.bind, h2, Except.map]

/-! ## The signature and the list of partial hashes: rejected calls -/

/-- C26: the signature of a proposal is written once. `addSignature(s)` returns exactly when
`s` is present and the proposal has no signature; then `getSignature` returns `s` and no other
field has changed. With `s` absent it throws `InvalidArgumentException`, with `s` present and
a signature stored it throws `InvalidStateException`, and in both cases the proposal is as
before the call. A proposal that the ten-argument constructor returned has a signature, so
`addSignature` fails on it. -/
theorem addSignature_once (p : BlockProposal) (s : Option Bytes) :
    ((addSignature p s).1 = .ok () ↔ (s.isSome = true ∧ p.signature = none)) ∧
    ((addSignature p s).1 = .ok () →
      getSignature (addSignature p s).2 = s ∧ (addSignature p s).2 = { p with signature := s }) ∧
    (s = none → addSignature p s = (.error .invalidArgument, p)) ∧
    (s.isSome = true → p.signature.isSome = true →
      addSignature p s = (.error .invalidState, p)) ∧
    (∀ c sc nd bl ix txs sr ts tsMs sig mgr,
      newBlockProposal c sc nd bl ix txs sr ts tsMs sig mgr = .ok p →
        p.signature.isSome = true ∧ ∃ e, addSignature p s = (.error e, p)) := by
  have hsome : p.signature.isSome = true → ∃ e, addSignature p s = (.error e, p) := by
    intro h
    cases s with
    | none => exact ⟨_, rfl⟩
    | some v =>
      cases hp : p.signature with
      | none => rw [hp] at h; cases h
      | some w => exact ⟨.invalidState, by simp [addSignature, CHECK_ARGUMENT, CHECK_STATE, hp]⟩
  refine ⟨?_, ?_, ?_, ?_, ?_⟩
  · cases s <;> cases hp : p.signature <;>
      simp [addSignature, CHECK_ARGUMENT, CHECK_STATE, hp]
  · cases s <;> cases hp : p.signature <;>
      simp [addSignature, CHECK_ARGUMENT, CHECK_STATE, hp, getSignature]
  · intro h
    rw [h]
    rfl
  · intro h1 h2
    cases s with
    | none => cases h1
    | some v =>
      cases hp : p.signature with
      | none => rw [hp] at h2; cases h2
      | some w => simp [addSignature, CHECK_ARGUMENT, CHECK_STATE, hp]
  · intro c sc nd bl ix txs sr ts tsMs sig mgr h
    obtain ⟨h1, _, _, h4⟩ := newBlockProposal_ok c sc nd bl ix txs sr ts tsMs sig mgr p h
    have hs : p.signature.isSome = true := by
      rw [h4]
      cases mgr with
      | some m => rfl
      | none =>
        cases sig with
        | some v => rfl
        | none => simp at h1
    exact ⟨hs, hsome hs⟩

/-- C26, witness: on the proposal of the two-argument constructor, which has no signature,
`addSignature` stores the signature `sig`, and a second call fails with
`InvalidStateException`; on the proposal of scenario S1 the call fails and leaves it as it
is. -/
theorem addSignature_once_witness :
    getSignature (addSignature (newTimedBlockProposal 1600000000 0) (some (ascii "sig"))).2 =
      some (ascii "sig") ∧
    addSignature (addSignature (newTimedBlockProposal 1600000000 0) (some (ascii "sig"))).2
        (some (ascii "new")) =
      (.error .invalidState,
        (addSignature (newTimedBlockProposal 1600000000 0) (some (ascii "sig"))).2) ∧
    addSignature s1 (some (ascii "new")) = (.error .invalidState, s1) :=
  ⟨((addSignature_once (newTimedBlockProposal 1600000000 0) (some (ascii "sig"))).2.1
      (by rfl)).1,
   (addSignature_once (addSignature (newTimedBlockProposal 1600000000 0)
      (some (ascii "sig"))).2 (some (ascii "new"))).2.2.2.1 (by rfl) (by rfl),
   (addSignature_once s1 (some (ascii "new"))).2.2.2.1 (by rfl) (by rfl)⟩

/-- C27, the failing input: for the proposal with 625001 transactions the size
`625001 * 16 = 10000016` is above `MAX_BUFFER_SIZE = 10000000`, and `createPartialHashesList`
does not fail: it returns a list of count 625001 with 10000016 bytes. -/
theorem createPartialHashesList_oversized :
    oversizedProposal.transactionCount * 16 > specCollaborators.MAX_BUFFER_SIZE ∧
    (createPartialHashesList specCollaborators oversizedProposal).map
      (fun l => (l.transactionCount, l.partialHashes.length)) = .ok (625001, 10000016) := by
  have h := createPartialHashesList_of_new specCollaborators 1 7 42 3
    (List.replicate 625001 [0]) 0 1600000000 0 (ascii "sig") (newTimedBlockProposal 0 0)
    (by decide) (by rw [List.length_replicate]; decide)
  rw [List.length_replicate] at h
  exact ⟨by rw [show oversizedProposal.transactionCount = 625001 from h.1]; decide, h.2⟩

/-! ## The test message generator: the bytes of a transaction -/

/-- C28: in `pendingTransactions` every index `2 * j + k` that the fill loop writes, with
`j < 25` and `k < 7`, is below 55, so no write leaves the 200 bytes and the transaction of a
counter is produced. Its bytes 48 to 54 are the seven low-order little-endian bytes of the
counter and its bytes 55 to 199 are zero. Two generated transactions are equal exactly when
their counters agree modulo `2 ^ 56`, and the transactions that one call with a limit below
`2 ^ 56` returns are pairwise distinct. -/
theorem testTransaction_layout :
    (∀ j k, j < 200 / 8 → k < 7 → 2 * j + k < 55) ∧
    (∀ counter, ∃ tr, testTransaction 200 counter = .ok tr ∧ tr.length = 200 ∧
      (tr.drop 48).take 7 = natToLe 7 counter ∧
      ∀ i, 55 ≤ i → i < 200 → tr[i]? = some 0) ∧
    (∀ c1 c2 tr1 tr2, testTransaction 200 c1 = .ok tr1 → testTransaction 200 c2 = .ok tr2 →
      (tr1 = tr2 ↔ c1 % 2 ^ 56 = c2 % 2 ^ 56)) ∧
    (∀ (a : TestMessageGeneratorAgent) limit, a.blockProposerTestIsNone = false →
      a.counter < 2 ^ 64 → limit < 2 ^ 56 →
      ∃ result a', pendingTransactions a limit = .ok (result, a') ∧ result.length = limit ∧
        result.Nodup) := by
  refine ⟨fun j k hj hk => by omega, ?_, ?_, ?_⟩
  · intro counter
    exact ⟨_, testTransaction_eq counter, (testTransactionBytes_tail _).1,
      testTransactionBytes_low counter, (testTransactionBytes_tail _).2⟩
  · intro c1 c2 tr1 tr2 h1 h2
    rw [testTransaction_eq] at h1 h2
    cases h1
    cases h2
    exact testTransactionBytes_eq_iff c1 c2
  · intro a limit hmode hc hl
    refine ⟨_, { a with counter := (a.counter + limit) % U64 }, ?_, ?_,
      testTransactions_nodup a.counter limit (Nat.le_of_lt hl)⟩
    · simp only [pendingTransactions, hmode, Bool.false_eq_true, if_false,
        pendingTransactionsLoop_eq limit a.counter [] hc, bind_ok_eq, List.nil_append]
      rfl
    · simp

/-- C28, witness: the transaction of the counter 258 carries the bytes 2, 1, 0, 0, 0, 0, 0 at
48 to 54; the counters 258 and `258 + 2 ^ 56` give the same transaction; and the three
transactions of a call with the limit 3 are pairwise distinct. -/
theorem testTransaction_layout_witness :
    ((testTransaction 200 258).map fun tr => (tr.drop 48).take 7) =
      .ok [2, 1, 0, 0, 0, 0, 0] ∧
    testTransaction 200 258 = testTransaction 200 (258 + 2 ^ 56) ∧
    ((pendingTransactions { blockProposerTestIsNone := false, counter := 258 } 3).map
      fun r => decide r.1.Nodup) = .ok true := by
  have h := testTransaction_layout
  refine ⟨?_, ?_, ?_⟩
  · obtain ⟨tr, h1, _, h3, _⟩ := h.2.1 258
    rw [h1]
    simp only [Except.map, h3]
    rfl
  · obtain ⟨tr1, h1, _⟩ := h.2.1 258
    obtain ⟨tr2, h2, _⟩ := h.2.1 (258 + 2 ^ 56)
    rw [h1, h2]
    exact congrArg Except.ok ((h.2.2.1 258 (258 + 2 ^ 56) tr1 tr2 h1 h2).mpr (by norm_num))
  · obtain ⟨result, a', h1, _, h3⟩ :=
      h.2.2.2 { blockProposerTestIsNone := false, counter := 258 } 3 rfl (by decide)
        (by decide)
    rw [h1]
    simp only [Except.map, h3, decide_True]

/-! ## The TCP server: worker loop, queue and exit request -/

/-- C21: in the worker loop a connection that `workerThreadWaitandPopConnection` returned is
closed in the same round, before the worker takes the next one: after `closeConnection` when
the processing returns, and in the handler, after the exception is logged, when the processing
throws an exception; in both cases the loop goes on with its next round. In the events of
every run in which the processing returns or throws an exception, each popped connection is
closed before the next is popped. -/
theorem workerLoop_closes_connection :
    (∀ (r : WorkerRound) rs c, r.exitRequested = false →
      (workerThreadWaitandPopConnection r.queue r.wakes).1 = some (.ok c) →
      r.processNextAvailableConnection c = .ok () →
      workerThreadConnectionProcessingLoop (r :: rs) =
        (.popped c :: .processed c :: .closed c ::
          (workerThreadConnectionProcessingLoop rs).1,
         (workerThreadConnectionProcessingLoop rs).2)) ∧
    (∀ (r : WorkerRound) rs c e, r.exitRequested = false →
      (workerThreadWaitandPopConnection r.queue r.wakes).1 = some (.ok c) →
      r.processNextAvailableConnection c = .error e → e.isStdException = true →
      workerThreadConnectionProcessingLoop (r :: rs) =
        (.popped c :: .processed c :: .logged e :: .closed c ::
          (workerThreadConnectionProcessingLoop rs).1,
         (workerThreadConnectionProcessingLoop rs).2)) ∧
    (∀ rounds : List WorkerRound,
      (∀ r ∈ rounds, ∀ c e, r.processNextAvailableConnection c = .error e →
        e.isStdException = true) →
      closedBeforeNext none (workerThreadConnectionProcessingLoop rounds).1 = true) := by
  refine ⟨?_, ?_, workerLoop_closedBeforeNext⟩
  · intro r rs c hx hp hq
    rw [workerThreadConnectionProcessingLoop]
    simp [hx, hp, hq]
  · intro r rs c e hx hp hq he
    rw [workerThreadConnectionProcessingLoop]
    simp [hx, hp, hq, he]

/-- C21, witness: the connection 4, whose processing throws a `ParsingException`, is closed
after the exception is logged and before the connection 5 is popped, which is processed and
closed in turn; the loop ends only when its condition sees the exit request. -/
theorem workerLoop_closes_connection_witness :
    workerThreadConnectionProcessingLoop exampleWorkerRounds =
      ([.popped (exampleConnection 4), .processed (exampleConnection 4), .logged .parsing,
        .closed (exampleConnection 4), .popped (exampleConnection 5),
        .processed (exampleConnection 5), .closed (exampleConnection 5),
        .logged .exitRequested], .returned) ∧
    closedBeforeNext none (workerThreadConnectionProcessingLoop exampleWorkerRounds).1 = true := by
  have h := workerLoop_closes_connection.2.1
    { exitRequested := false, queue := [exampleConnection 4, exampleConnection 5], wakes := [],
      processNextAvailableConnection := fun _ => .error .parsing }
    exampleWorkerRounds.tail (exampleConnection 4) .parsing rfl (by decide) rfl (by decide)
  refine ⟨?_, ?_⟩
  · show workerThreadConnectionProcessingLoop (_ :: exampleWorkerRounds.tail) = _
    rw [h]
    decide
  · decide

/-- C22, as amended: the queue of incoming connections is first-in first-out and has no
capacity. After every sequence of `pushToQueueAndNotifyWorkers` and
`workerThreadWaitandPopConnection` operations the connections that the workers received,
followed by the queue, are the connections that were in the queue and those pushed, in their
order; from the empty queue the workers receive a prefix of what the listener pushed; and `n`
pushes leave `n` queued connections. -/
theorem incomingQueue_fifo :
    (∀ queue ops, (runQueueOps queue ops).1 ++ (runQueueOps queue ops).2 =
      queue ++ pushedConnections ops) ∧
    (∀ ops, (runQueueOps [] ops).1 <+: pushedConnections ops) ∧
    (∀ c n, (runQueueOps [] (List.replicate n (.push c))).2.length = n) := by
  refine ⟨fun queue ops => runQueueOps_fifo ops queue, ?_, ?_⟩
  · intro ops
    exact ⟨(runQueueOps [] ops).2, by simpa using runQueueOps_fifo ops []⟩
  · intro c n
    simpa using runQueueOps_pushes c n []

/-- C22, counterexample: no capacity bounds the queue: `capacity + 1` pushes leave
`capacity + 1` queued connections. -/
theorem incomingQueue_unbounded :
    ¬ ∃ capacity : Nat, ∀ ops, (runQueueOps [] ops).2.length ≤ capacity := by
  rintro ⟨capacity, h⟩
  have h1 := h (List.replicate (capacity + 1) (.push (exampleConnection 4)))
  rw [runQueueOps_pushes] at h1
  simp at h1

/-- C23: a descriptor that `accept` returns while the exit is requested is not pushed: the
listener returns and leaves the queue as it is; and the loop condition is read before every
call of `accept`, so a round that starts with the exit requested calls neither `accept` nor
`pushToQueueAndNotifyWorkers`. Once one of the two checks has seen the exit request, whatever
follows changes nothing: the listener has ended, with at most one push for each earlier round.
A worker that `wait` wakes with the exit requested leaves
`workerThreadWaitandPopConnection` with `ExitRequestedException` and pops nothing, and a
worker loop whose condition sees the exit request returns. -/
theorem exitRequested_stops_threads :
    (∀ s queue (r : AcceptRound) rs, s > 0 → r.exitBefore = false → r.exitAfter = true →
      acceptTCPConnectionsLoop s queue (r :: rs) =
        ([.accepted r.newConnection], queue, .returned)) ∧
    (∀ s queue (r : AcceptRound) rs, s > 0 → r.exitBefore = true →
      acceptTCPConnectionsLoop s queue (r :: rs) = ([], queue, .returned)) ∧
    (∀ s queue pre (r : AcceptRound) post, s > 0 →
      (r.exitBefore = true ∨ r.exitAfter = true) →
      acceptTCPConnectionsLoop s queue (pre ++ r :: post) =
        acceptTCPConnectionsLoop s queue (pre ++ [r]) ∧
      pushCount (acceptTCPConnectionsLoop s queue (pre ++ r :: post)).1 ≤ pre.length ∧
      acceptCount (acceptTCPConnectionsLoop s queue (pre ++ r :: post)).1 ≤ pre.length + 1 ∧
      (acceptTCPConnectionsLoop s queue (pre ++ r :: post)).2.2 ≠ .running) ∧
    (∀ (w : Wake) ws, w.exitRequested = true →
      workerThreadWaitandPopConnection [] (w :: ws) =
        (some (.error .exitRequested), w.queue)) ∧
    (∀ (r : WorkerRound) rs, r.exitRequested = true →
      workerThreadConnectionProcessingLoop (r :: rs) = ([], .returned)) := by
  have hs : ∀ s : Int, s > 0 → ∀ queue rounds,
      acceptTCPConnectionsLoop s queue rounds = acceptLoop queue rounds := by
    intro s h queue rounds
    simp [acceptTCPConnectionsLoop, ASSERT, h]
  refine ⟨?_, ?_, ?_, ?_, ?_⟩
  · intro s queue r rs h h1 h2
    rw [hs s h]
    simp [acceptLoop, h1, h2]
  · intro s queue r rs h h1
    rw [hs s h]
    simp [acceptLoop, h1]
  · intro s queue pre r post h hr
    rw [hs s h, hs s h]
    exact acceptLoop_after_exit pre r post hr queue
  · intro w ws h
    simp [workerThreadWaitandPopConnection, exitCheck, h]
  · intro r rs h
    rw [workerThreadConnectionProcessingLoop]
    simp [h]

/-- C23, witness: the listener pushes the connection 4, and the descriptor 5 that `accept`
returns while the exit is requested is not pushed; the third round is not reached. A worker
that is woken with the exit requested leaves the connection 6 in the queue. -/
theorem exitRequested_stops_threads_witness :
    acceptTCPConnectionsLoop 3 [] exampleAcceptRounds =
      ([.accepted 4, .pushed (exampleConnection 4), .accepted 5], [exampleConnection 4],
        .returned) ∧
    workerThreadWaitandPopConnection []
        [{ queue := [exampleConnection 6], exitRequested := true }] =
      (some (.error .exitRequested), [exampleConnection 6]) := by
  have h := exitRequested_stops_threads.2.2.1 3 []
    [{ exitBefore := false, newConnection := 4, ip := ascii "10.0.0.1", exitAfter := false }]
    { exitBefore := false, newConnection := 5, ip := ascii "10.0.0.1", exitAfter := true }
    [{ exitBefore := false, newConnection := 6, ip := ascii "10.0.0.1", exitAfter := false }]
    (by decide) (Or.inr rfl)
  refine ⟨?_, exitRequested_stops_threads.2.2.2.1 _ [] rfl⟩
  show acceptTCPConnectionsLoop 3 [] ([_] ++ _ :: [_]) = _
  rw [h.1]
  decide

end Skale
